import Mathlib

/-!
Verification development for the fractal sync core.

Shallow embedding of `ftl/sync/cursor.go` (the ordered block-insertion cursor),
`ftl/sync/sync.go` (the synchronizer loop), `core/types/bloom9.go` (the log bloom),
`core/types/gen_log_json.go` (the JSON encoding of `Log`) and
`transaction/txexec/state_transition.go` (gas accounting).  The conventions below are
those of the cursor; each later part states its own.

Conventions of the embedding

* `common.Hash` is a natural number; a block is the triple of the header fields
  the cursor reads (`Header.Height`, `Header.Round`) and its `FullHash()`.
* The `blockchain` and `packer.Packer` collaborators are Go interfaces.  They are
  a record of functions over an arbitrary world type `W`; every method may change
  the world.  A Go `error` result is a `Bool` that is `true` for `nil`.
* Every call the cursor makes on a collaborator is logged as a `Call`, in order.
* A Go runtime panic (slice index out of range) is an explicit result.
* `uint64` arithmetic: the two subtractions of `checkBlock` are guarded by the
  comparisons in front of them and never wrap, and `index` is bounded by
  `len(hashElems)`, so naturals are exact here.
-/

namespace Fractal

/-! ## Data model -/

abbrev Hash := Nat

/-- Block as read by the cursor: `Header.Height`, `Header.Round`, `FullHash()`. -/
structure Block where
  height : Nat
  round : Nat
  fullHash : Hash
deriving DecidableEq, Repr

/-- Element of `protocol.HashElems`: the fields `Height`, `Round`, `Hash` the cursor reads. -/
structure HashElem where
  height : Nat
  round : Nat
  hash : Hash
deriving DecidableEq, Repr

/-- Transaction package as seen by the cursor, identified by `Hash()`. -/
structure TxPackage where
  hash : Hash
deriving DecidableEq, Repr

/-- Methods of the `blockchain` interface (and `packer.Packer.InsertRemoteTxPackage`)
that the cursor calls, over a world `W`. -/
structure Chain (W : Type) where
  verifyBlockDepend : W → Block → W × Bool
  verifyBlock : W → Block → Bool → W × Bool
  insertBlockNoCheck : W → Block → W
  insertBlock : W → Block → W
  insertPastBlock : W → Block → W × Bool
  futureBlockTxPackages : W → Hash → W × List TxPackage
  removeFutureBlockTxPackage : W → Hash → W
  hasTxPackage : W → Hash → W × Bool
  verifyTxPackage : W → TxPackage → W × Bool
  insertRemoteTxPackage : W → TxPackage → W × Bool

/-- One call of the cursor on the chain or the packer, with the result that steers it. -/
inductive Call where
  | verifyBlockDepend (block : Block) (ok : Bool)
  | verifyBlock (block : Block) (checkGreedy : Bool) (ok : Bool)
  | insertBlockNoCheck (block : Block)
  | insertBlock (block : Block)
  | insertPastBlock (block : Block) (ok : Bool)
  | futureBlockTxPackages (blockHash : Hash)
  | removeFutureBlockTxPackage (pkgHash : Hash)
  | hasTxPackage (pkgHash : Hash) (has : Bool)
  | verifyTxPackage (pkg : TxPackage) (ok : Bool)
  | insertRemoteTxPackage (pkg : TxPackage) (ok : Bool)
deriving DecidableEq, Repr

/-- The `Cursor` struct; `chain`, `packer` and `logger` are passed separately. -/
structure Cursor where
  index : Nat
  setHead : Bool
  finished : Nat
  running : Nat
  blocks : List Block
  hashElems : List HashElem
deriving DecidableEq, Repr

def checkHeightMaxDiff : Nat := 10

/-! ## `types.Blocks` helpers -/

/-- The order of `SortByRoundHash`: by round, then by full hash. -/
def roundHashLE (a b : Block) : Prop :=
  a.round < b.round ∨ (a.round = b.round ∧ a.fullHash ≤ b.fullHash)

instance roundHashLE.decidable : DecidableRel roundHashLE := fun a b =>
  inferInstanceAs (Decidable (a.round < b.round ∨ (a.round = b.round ∧ a.fullHash ≤ b.fullHash)))

/-- Modelled from the spec: `types.Blocks.SortByRoundHash` is not among the sources.
The spec keeps the buffer "sorted by `(round, fullHash)`"; blocks that agree on both
keep their relative order. -/
def SortByRoundHash (blocks : List Block) : List Block :=
  blocks.insertionSort roundHashLE

/-- Modelled from the spec: `types.Blocks.Remove` is not among the sources.  It takes
the block with the given full hash out of the list (the first one, should several
entries carry that hash). -/
def Remove (blocks : List Block) (hash : Hash) : List Block :=
  blocks.eraseP (fun b => decide (b.fullHash = hash))

/-! ## Cursor operations -/

def NewCursor (hashElems : List HashElem) (setHead : Bool) (_remainedLen : Int) : Cursor :=
  { index := 0, setHead := setHead, finished := 0, running := 0,
    blocks := [], hashElems := hashElems }

def Start (c : Cursor) : Cursor := { c with running := 1 }

def IsFinished (c : Cursor) : Bool := c.finished == 1

def IsRunning (c : Cursor) : Bool := c.running == 1

def close (c : Cursor) : Cursor := { c with running := 0 }

def Finish (c : Cursor) : Cursor := close { c with finished := 1 }

/-- Result of `checkBlock`: `nil`, one of its two errors, or the panic of `hashElems[0]`
on an empty list. -/
inductive CheckResult where
  | ok
  | err (msg : String)
  | panicked
deriving DecidableEq, Repr

def checkBlock (hashElems : List HashElem) (block : Block) : CheckResult :=
  match hashElems with
  | [] => .panicked
  | hashFrom :: _ =>
    if block.height < hashFrom.height ∧ hashFrom.height - block.height ≥ checkHeightMaxDiff then
      .err "block too low"
    else if block.height < hashFrom.height ∧ hashFrom.height - block.height < checkHeightMaxDiff then
      .ok
    else
      let heightDiff := block.height - hashFrom.height
      if heightDiff ≥ hashElems.length then .err "block is too high" else .ok

def incIndex (c : Cursor) : Cursor := { c with index := c.index + 1 }

/-- The helper `getIndexHashElem`; `none` is the panic of `hashElems[index]`.  The bound
`uint64(len(hashElems)-1)` wraps to `2^64-1` on an empty list. -/
def getIndexHashElem (c : Cursor) : Option HashElem :=
  if c.index ≤ (c.hashElems.length + 2 ^ 64 - 1) % 2 ^ 64 then
    c.hashElems[c.index]?
  else
    some { height := 0, round := 0, hash := 0 }

/-- The helper `insertTxPackage`: new world, calls made, result. -/
def insertTxPackage {W : Type} (ch : Chain W) (w : W) (pkg : TxPackage) :
    W × List Call × Bool :=
  let hash := pkg.hash
  let r1 := ch.hasTxPackage w hash
  if r1.2 then
    (r1.1, [Call.hasTxPackage hash true], false)
  else
    let r2 := ch.verifyTxPackage r1.1 pkg
    if r2.2 = false then
      (r2.1, [Call.hasTxPackage hash false, Call.verifyTxPackage pkg false], false)
    else
      let r3 := ch.insertRemoteTxPackage r2.1 pkg
      (r3.1, [Call.hasTxPackage hash false, Call.verifyTxPackage pkg true,
              Call.insertRemoteTxPackage pkg r3.2], true)

/-- The range loop of `processFutureTxPackages` over the packages returned by the chain. -/
def futureLoop {W : Type} (ch : Chain W) : List TxPackage → W → W × List Call
  | [], w => (w, [])
  | pkg :: rest, w =>
    let r := insertTxPackage ch w pkg
    if r.2.2 then
      let w1 := ch.removeFutureBlockTxPackage r.1 pkg.hash
      let r1 := futureLoop ch rest w1
      (r1.1, r.2.1 ++ [Call.removeFutureBlockTxPackage pkg.hash] ++ r1.2)
    else
      let r1 := futureLoop ch rest r.1
      (r1.1, r.2.1 ++ r1.2)

def processFutureTxPackages {W : Type} (ch : Chain W) (w : W) (blockHash : Hash) :
    W × List Call :=
  let r := ch.futureBlockTxPackages w blockHash
  let r1 := futureLoop ch r.2 r.1
  (r1.1, Call.futureBlockTxPackages blockHash :: r1.2)

/-- What the loop of `ProcessBlock` changes: the world, `c.index`, the local copy
`blocks`, and the calls made so far. -/
structure LoopState (W : Type) where
  world : W
  index : Nat
  blocks : List Block
  trace : List Call

/-- How a loop iteration ends: go on with the next element, `break`, or panic. -/
inductive Ctl where
  | next
  | stop
  | panicked
deriving DecidableEq, Repr

/-- The main-chain execution inside the loop body: `InsertBlock` when `setHead`,
else `InsertPastBlock`; gives the new world, the call, and whether `err == nil`. -/
def execMain {W : Type} (ch : Chain W) (setHead : Bool) (w : W) (block : Block) :
    W × Call × Bool :=
  if setHead then
    (ch.insertBlock w block, Call.insertBlock block, true)
  else
    let r := ch.insertPastBlock w block
    (r.1, Call.insertPastBlock block r.2, r.2)

/-- One iteration of `for _, block := range c.blocks` in `ProcessBlock`. -/
def loopBody {W : Type} (ch : Chain W) (hashElems : List HashElem) (setHead : Bool)
    (st : LoopState W) (block : Block) : LoopState W × Ctl :=
  match hashElems[st.index]? with
  | none => (st, Ctl.panicked)
  | some cur =>
    if block.round > cur.round then
      (st, Ctl.next)
    else
      let d := ch.verifyBlockDepend st.world block
      if d.2 = false then
        ({ st with world := d.1, trace := st.trace ++ [Call.verifyBlockDepend block false] },
          Ctl.next)
      else
        let v := ch.verifyBlock d.1 block setHead
        if v.2 = false then
          ({ st with world := v.1,
                     trace := st.trace ++ [Call.verifyBlockDepend block true,
                                           Call.verifyBlock block setHead false] },
            Ctl.next)
        else
          let w3 := ch.insertBlockNoCheck v.1 block
          let blocks := Remove st.blocks block.fullHash
          let tr3 := st.trace ++ [Call.verifyBlockDepend block true,
                                  Call.verifyBlock block setHead true,
                                  Call.insertBlockNoCheck block]
          if block.fullHash = cur.hash then
            let e := execMain ch setHead w3 block
            let f := processFutureTxPackages ch e.1 block.fullHash
            let tr5 := tr3 ++ [e.2.1] ++ f.2
            if e.2.2 = false then
              ({ world := f.1, index := st.index, blocks := blocks, trace := tr5 }, Ctl.stop)
            else if st.index + 1 ≥ hashElems.length then
              ({ world := f.1, index := st.index + 1, blocks := blocks, trace := tr5 }, Ctl.stop)
            else
              ({ world := f.1, index := st.index + 1, blocks := blocks, trace := tr5 }, Ctl.next)
          else
            ({ world := w3, index := st.index, blocks := blocks, trace := tr3 }, Ctl.next)

/-- The range loop of `ProcessBlock` over the (fixed) slice `c.blocks`. -/
def loop {W : Type} (ch : Chain W) (hashElems : List HashElem) (setHead : Bool) :
    List Block → LoopState W → LoopState W × Ctl
  | [], st => (st, Ctl.next)
  | block :: rest, st =>
    match loopBody ch hashElems setHead st block with
    | (st1, Ctl.next) => loop ch hashElems setHead rest st1
    | (st1, Ctl.stop) => (st1, Ctl.stop)
    | (st1, Ctl.panicked) => (st1, Ctl.panicked)

/-- How a `ProcessBlock` call ends. -/
inductive Ret where
  | ok
  | err (msg : String)
  | panicked
deriving DecidableEq, Repr

/-- Everything observable of one `ProcessBlock` call. -/
structure Outcome (W : Type) where
  cursor : Cursor
  world : W
  trace : List Call
  ret : Ret

def ProcessBlock {W : Type} (ch : Chain W) (c : Cursor) (w : W) (block : Block) : Outcome W :=
  match getIndexHashElem c with
  | none => { cursor := c, world := w, trace := [], ret := Ret.panicked }
  | some _ =>
    match checkBlock c.hashElems block with
    | CheckResult.panicked => { cursor := c, world := w, trace := [], ret := Ret.panicked }
    | CheckResult.err msg => { cursor := c, world := w, trace := [], ret := Ret.err msg }
    | CheckResult.ok =>
      let sorted := SortByRoundHash (c.blocks ++ [block])
      let r := loop ch c.hashElems c.setHead sorted
        { world := w, index := c.index, blocks := sorted, trace := [] }
      match r.2 with
      | Ctl.panicked =>
        { cursor := { c with blocks := sorted, index := r.1.index },
          world := r.1.world, trace := r.1.trace, ret := Ret.panicked }
      | _ =>
        let c2 : Cursor := { c with blocks := r.1.blocks, index := r.1.index }
        { cursor := if c2.index ≥ c2.hashElems.length then Finish c2 else c2,
          world := r.1.world, trace := r.1.trace, ret := Ret.ok }

/-! ## Sequences of `ProcessBlock` calls -/

/-- A cursor together with the world it acts on and all calls it has made. -/
structure Run (W : Type) where
  cursor : Cursor
  world : W
  trace : List Call

/-- Feed one block; the call may return `nil`, return an error, or panic (and be recovered). -/
def feed {W : Type} (ch : Chain W) (s : Run W) (block : Block) : Run W :=
  let o := ProcessBlock ch s.cursor s.world block
  { cursor := o.cursor, world := o.world, trace := s.trace ++ o.trace }

def feedAll {W : Type} (ch : Chain W) (s : Run W) (blocks : List Block) : Run W :=
  blocks.foldl (feed ch) s

/-! ## Observations on call logs -/

/-- Blocks passed to `InsertBlock`, in call order. -/
def insertBlockCalls : List Call → List Block
  | [] => []
  | Call.insertBlock b :: rest => b :: insertBlockCalls rest
  | _ :: rest => insertBlockCalls rest

/-- Main-chain executions: `InsertBlock` calls and `InsertPastBlock` calls that returned `nil`. -/
def mainExecs : List Call → List Block
  | [] => []
  | Call.insertBlock b :: rest => b :: mainExecs rest
  | Call.insertPastBlock b true :: rest => b :: mainExecs rest
  | _ :: rest => mainExecs rest

/-- Blocks passed to `InsertBlockNoCheck`, in call order. -/
def insertNoCheckCalls : List Call → List Block
  | [] => []
  | Call.insertBlockNoCheck b :: rest => b :: insertNoCheckCalls rest
  | _ :: rest => insertNoCheckCalls rest

/-- A chain that accepts everything and keeps no state. -/
def acceptAll : Chain Unit where
  verifyBlockDepend := fun w _ => (w, true)
  verifyBlock := fun w _ _ => (w, true)
  insertBlockNoCheck := fun w _ => w
  insertBlock := fun w _ => w
  insertPastBlock := fun w _ => (w, true)
  futureBlockTxPackages := fun w _ => (w, [])
  removeFutureBlockTxPackage := fun w _ => w
  hasTxPackage := fun w _ => (w, false)
  verifyTxPackage := fun w _ => (w, true)
  insertRemoteTxPackage := fun w _ => (w, true)

/-- Calls of `processFutureTxPackages` and `insertTxPackage`: none of them inserts a block. -/
def isPkgCall : Call → Bool
  | Call.futureBlockTxPackages _ => true
  | Call.removeFutureBlockTxPackage _ => true
  | Call.hasTxPackage _ _ => true
  | Call.verifyTxPackage _ _ => true
  | Call.insertRemoteTxPackage _ _ => true
  | _ => false

/-- What stands right in front of a block insertion in a call log `pre ++ [call]`: the two
successful verifications of that block, and for a main-chain execution also its
`InsertBlockNoCheck`. -/
def GuardedAt (setHead : Bool) (pre : List Call) : Call → Prop
  | Call.insertBlockNoCheck b =>
    ∃ p0, pre = p0 ++ [Call.verifyBlockDepend b true, Call.verifyBlock b setHead true]
  | Call.insertBlock b =>
    ∃ p0, pre = p0 ++ [Call.verifyBlockDepend b true, Call.verifyBlock b setHead true,
                       Call.insertBlockNoCheck b]
  | Call.insertPastBlock b _ =>
    ∃ p0, pre = p0 ++ [Call.verifyBlockDepend b true, Call.verifyBlock b setHead true,
                       Call.insertBlockNoCheck b]
  | _ => True

/-- Every call of a log is guarded by the calls in front of it. -/
def Guarded (setHead : Bool) (t : List Call) : Prop :=
  ∀ pre x post, t = pre ++ x :: post → GuardedAt setHead pre x

/-- Invariant of a cursor over `hashElems = hs` with `setHead = sh`, driven by
`ProcessBlock` calls only, together with the log of its calls. -/
structure RunInv {W : Type} (hs : List HashElem) (sh : Bool) (s : Run W) : Prop where
  hashElems_eq : s.cursor.hashElems = hs
  setHead_eq : s.cursor.setHead = sh
  index_le : s.cursor.index ≤ hs.length
  finished_iff : s.cursor.finished = 1 ↔ s.cursor.index = hs.length
  not_running : s.cursor.finished = 1 → s.cursor.running = 0
  insertBlock_eq : sh = true → insertBlockCalls s.trace = mainExecs s.trace
  execs_eq : (mainExecs s.trace).map Block.fullHash = (hs.take s.cursor.index).map HashElem.hash

/-- The loop of `ProcessBlock` as started by a call on cursor `c` with block `b`. -/
def loopOf {W : Type} (ch : Chain W) (c : Cursor) (w : W) (b : Block) : LoopState W × Ctl :=
  loop ch c.hashElems c.setHead (SortByRoundHash (c.blocks ++ [b]))
    { world := w, index := c.index, blocks := SortByRoundHash (c.blocks ++ [b]), trace := [] }

/-- A fresh cursor from `NewCursor`, on which `Start` has been called or not, with the
world it will act on and an empty call log. -/
def newRun {W : Type} (hs : List HashElem) (setHead : Bool) (remainedLen : Int)
    (started : Bool) (w : W) : Run W :=
  { cursor := if started then Start (NewCursor hs setHead remainedLen)
              else NewCursor hs setHead remainedLen,
    world := w, trace := [] }

/-! ### Fixtures: the hash list `[H1@r=10, H2@r=12, H3@r=15]` of the spec -/

def H1 : Block := { height := 100, round := 10, fullHash := 1 }

def H2 : Block := { height := 101, round := 12, fullHash := 2 }

def H3 : Block := { height := 102, round := 15, fullHash := 3 }

def hashList3 : List HashElem :=
  [{ height := 100, round := 10, hash := 1 }, { height := 101, round := 12, hash := 2 },
   { height := 102, round := 15, hash := 3 }]

/-- A chain whose `VerifyBlock` rejects every block and that accepts everything else. -/
def rejectVerify : Chain Unit :=
  { acceptAll with verifyBlock := fun w _ _ => (w, false) }

/-- The blocks of a buffer that carry full hash `h`. -/
def withHash (h : Hash) (blocks : List Block) : List Block :=
  blocks.filter (fun x => decide (x.fullHash = h))

/-! ## The arrival-order scenario -/

/-- Result of `VerifyBlockDepend` on the chain of the arrival-order scenario: for the blocks
`bs = [b_0, ..., b_(n-1)]` it succeeds on `b_i` exactly when `i = 0` or `b_(i-1)` is among
the inserted blocks. -/
def dependOk (bs inserted : List Block) (b : Block) : Bool :=
  match bs.indexOf b with
  | 0 => true
  | i + 1 =>
    match bs[i]? with
    | some p => decide (p ∈ inserted)
    | none => false

/-- The chain assumed by the arrival-order scenario.  Its world is the list of blocks
inserted so far (by any of the three insertion calls); `VerifyBlock` always succeeds,
`InsertPastBlock` never fails, and there are no future tx packages. -/
def depChain (bs : List Block) : Chain (List Block) where
  verifyBlockDepend := fun w b => (w, dependOk bs w b)
  verifyBlock := fun w _ _ => (w, true)
  insertBlockNoCheck := fun w b => b :: w
  insertBlock := fun w b => b :: w
  insertPastBlock := fun w b => (b :: w, true)
  futureBlockTxPackages := fun w _ => (w, [])
  removeFutureBlockTxPackage := fun w _ => w
  hasTxPackage := fun w _ => (w, false)
  verifyTxPackage := fun w _ => (w, true)
  insertRemoteTxPackage := fun w _ => (w, true)

/-- Blocks of `bs` from position `j` on that have arrived (are in `q`), in list order. -/
def pending (bs q : List Block) (j : Nat) : List Block :=
  (bs.drop j).filter (fun x => decide (x ∈ q))

/-- Hypotheses of the arrival-order scenario on the hash list `hs` and the blocks `bs`. -/
structure Scenario (hs : List HashElem) (bs : List Block) : Prop where
  hashes : bs.map Block.fullHash = hs.map HashElem.hash
  rounds : bs.map Block.round = hs.map HashElem.round
  increasing : (hs.map HashElem.round).Pairwise (fun a b => a < b)
  checked : ∀ b ∈ bs, checkBlock hs b = CheckResult.ok

instance roundHashLE.isTotal : IsTotal Block roundHashLE :=
  ⟨fun a b => by
    rcases Nat.lt_trichotomy a.round b.round with h | h | h
    · exact Or.inl (Or.inl h)
    · rcases Nat.le_total a.fullHash b.fullHash with h1 | h1
      · exact Or.inl (Or.inr ⟨h, h1⟩)
      · exact Or.inr (Or.inr ⟨h.symm, h1⟩)
    · exact Or.inr (Or.inl h)⟩

instance roundHashLE.isTrans : IsTrans Block roundHashLE :=
  ⟨fun a b c h1 h2 => by
    rcases h1 with h1 | ⟨h1, h3⟩ <;> rcases h2 with h2 | ⟨h2, h4⟩
    · exact Or.inl (Nat.lt_trans h1 h2)
    · exact Or.inl (Nat.lt_of_lt_of_le h1 (Nat.le_of_eq h2))
    · exact Or.inl (Nat.lt_of_le_of_lt (Nat.le_of_eq h1) h2)
    · exact Or.inr ⟨h1.trans h2, Nat.le_trans h3 h4⟩⟩

/-- Assumptions of the arrival-order scenario on a chain `ch`, for the blocks `bs` and a
predicate `Ins w b` that reads "block `b` has been inserted in world `w`": no call
forgets an inserted block; a block is inserted once `InsertBlockNoCheck` and then
`InsertBlock` or `InsertPastBlock` have run on it; `VerifyBlockDepend` succeeds on
`bs[i]` when `i = 0` or `bs[i-1]` is inserted; `VerifyBlock` always succeeds; and
`InsertPastBlock` never fails. -/
structure DependChain {W : Type} (ch : Chain W) (bs : List Block) (Ins : W → Block → Prop) :
    Prop where
  keepDepend : ∀ w b x, Ins w x → Ins (ch.verifyBlockDepend w b).1 x
  keepVerify : ∀ w b g x, Ins w x → Ins (ch.verifyBlock w b g).1 x
  keepNoCheck : ∀ w b x, Ins w x → Ins (ch.insertBlockNoCheck w b) x
  keepInsert : ∀ w b x, Ins w x → Ins (ch.insertBlock w b) x
  keepPast : ∀ w b x, Ins w x → Ins (ch.insertPastBlock w b).1 x
  keepFuture : ∀ w h x, Ins w x → Ins (ch.futureBlockTxPackages w h).1 x
  keepRemove : ∀ w h x, Ins w x → Ins (ch.removeFutureBlockTxPackage w h) x
  keepHas : ∀ w h x, Ins w x → Ins (ch.hasTxPackage w h).1 x
  keepVerifyPkg : ∀ w p x, Ins w x → Ins (ch.verifyTxPackage w p).1 x
  keepInsertPkg : ∀ w p x, Ins w x → Ins (ch.insertRemoteTxPackage w p).1 x
  insertedBlock : ∀ w b, Ins (ch.insertBlock (ch.insertBlockNoCheck w b) b) b
  insertedPast : ∀ w b, Ins (ch.insertPastBlock (ch.insertBlockNoCheck w b) b).1 b
  dependOk : ∀ w (i : Nat) (h : i < bs.length),
    (∀ (j : Nat) (hj : j < bs.length), j + 1 = i → Ins w bs[j]) →
    (ch.verifyBlockDepend w bs[i]).2 = true
  verifyOk : ∀ w b g, (ch.verifyBlock w b g).2 = true
  pastOk : ∀ w b, (ch.insertPastBlock w b).2 = true

/-- Invariant of the arrival-order scenario after the blocks `q` have been fed. -/
structure Arrived {W : Type} (hs : List HashElem) (bs : List Block) (Ins : W → Block → Prop)
    (sh : Bool) (q : List Block) (s : Run W) : Prop where
  hashElems_eq : s.cursor.hashElems = hs
  setHead_eq : s.cursor.setHead = sh
  index_le : s.cursor.index ≤ bs.length
  world_has : ∀ (i : Nat) (h : i < bs.length), i < s.cursor.index → Ins s.world bs[i]
  execs : mainExecs s.trace = bs.take s.cursor.index
  buffer : s.cursor.blocks = pending bs q s.cursor.index
  fed : ∀ (i : Nat) (h : i < bs.length), i < s.cursor.index → bs[i] ∈ q
  waiting : ∀ h : s.cursor.index < bs.length, bs[s.cursor.index] ∉ q
  finished_iff : s.cursor.finished = 1 ↔ s.cursor.index = bs.length

/-! ## The synchronizer (`ftl/sync/sync.go`)

Conventions for this part

* A Go map is a list of its entries in the order a `range` visits them (the order is
  unspecified in Go); `map[string]bool` is a total function that is `false` off its keys.
* Calls on collaborators whose code is not part of the model (miner, CP2FP task, drop-peer
  and finish-depend callbacks), `go` statements and `time.AfterFunc` are logged as
  `Effect`s in the order the code issues them.
* `rand.Intn(n)` reads the next value of a stream `rnd : Nat → Nat` modulo `n`, and panics
  for `n <= 0`.  Loops that need not terminate take fuel.
* An `error` is its message (`err.Error()`); `none` is `nil`.  A slice that may be `nil`
  is an `Option (List _)`.
-/

def peerSyncThreshold : Nat := 6

def finishDependErrTime : Nat := 600

def errNotEnoughPeers : String := "not enough peers"

/-- Modelled from the spec: the declaration of the sync status constants is not among the
sources; the spec lists `Init`, `FastSync`, `Normal`, `PeerSync`. -/
inductive SyncStatus where
  | SyncStatusInit
  | SyncStatusFastSync
  | SyncStatusNormal
  | SyncStatusPeerSync
deriving DecidableEq, Repr

/-- Modelled from the spec: the declaration of the fast-sync mode constants is not among
the sources; the spec lists `None`, `Full`, `Incremental`. -/
inductive FastSyncMode where
  | FastSyncModeNone
  | FastSyncModeFull
  | FastSyncModeIncremental
deriving DecidableEq, Repr

/-- Modelled from the spec: the declaration of the fast-sync status constants is not among
the sources; the spec lists `None`, `HashList`, `PreState`, `State`, `PostState`, `Done`. -/
inductive FastSyncStatus where
  | FastSyncStatusNone
  | FastSyncStatusHashList
  | FastSyncStatusPreState
  | FastSyncStatusState
  | FastSyncStatusPostState
  | FastSyncStatusDone
deriving DecidableEq, Repr

/-- Peer as read by the synchronizer: `GetID()` and the height returned by `Head()`. -/
structure Peer where
  id : String
  height : Nat
deriving DecidableEq, Repr

/-- Fields of `config.SyncConfig` read by `doInit`; the struct declaration is not among the
sources, the three fields are integers (`HeightDiff` is compared with an `int32`). -/
structure SyncConfig where
  MinRegularPeerCount : Int
  MinFastSyncPeerCount : Int
  HeightDiff : Int
deriving DecidableEq, Repr

/-- Methods of the `blockchain` interface that the synchronizer loop calls, over a world `W`. -/
structure SyncChain (W : Type) where
  CurrentBlock : W → Block
  Genesis : W → Block
  SetCurrentBlock : W → Block → W

/-- What the synchronizer issues besides changing its own fields and the chain. -/
inductive Effect where
  | minerStart
  | setCurrentBlock (block : Block)
  | cp2fpRegisterPeer (p : Peer)
  | cp2fpStartTask (genesis current : Block) (peers : List Peer)
  | goCp2fpStartTask (genesis current : Block) (peers : List Peer)
  | goDoFastSync
  | goDoCheckPeer (p : Peer)
  | DoPeerSync (p : Peer)
  | finishDependErr (p : Peer)
  | afterFunc (seconds : Nat) (p : Peer)
  | closeFastSyncQuitCh
  | removePeerCallback (id : String) (addBlack : Bool)
deriving DecidableEq, Repr

/-- The fields of `Synchronizer` that the modelled code reads or writes. -/
structure Synchronizer (W : Type) where
  config : SyncConfig
  chain : W
  hasMiner : Bool
  status : SyncStatus
  fastSyncMode : FastSyncMode
  fastSyncStatus : FastSyncStatus
  peers : List Peer
  lastHeadBlock : Option Block
  peerSyncStarted : String → Bool
  log : List Effect

/-- How a call that may panic or loop forever ends. -/
inductive Res (α : Type) where
  | done (a : α)
  | panicked
  | outOfFuel

/-- Conversion `int32(x)` of a `uint64`. -/
def toInt32 (x : Nat) : Int :=
  if x % 2 ^ 32 < 2 ^ 31 then ((x % 2 ^ 32 : Nat) : Int) else ((x % 2 ^ 32 : Nat) : Int) - 2 ^ 32

/-- The assignment `intMap[k] = true`, the map being the list of its keys. -/
def setKey (k : Nat) (intMap : List Nat) : List Nat :=
  if k ∈ intMap then intMap else intMap ++ [k]

/-- The loop `for len(intMap) < length` of `generateDiffRandomNumbers`; `i` counts the
draws made so far. -/
def drawLoop (rnd : Nat → Nat) (bucketSize length : Int) : Nat → Nat → List Nat → Res (List Nat)
  | 0, _, intMap =>
    if (intMap.length : Int) < length then Res.outOfFuel else Res.done intMap
  | fuel + 1, i, intMap =>
    if (intMap.length : Int) < length then
      if bucketSize ≤ 0 then Res.panicked
      else drawLoop rnd bucketSize length fuel (i + 1) (setKey (rnd i % bucketSize.toNat) intMap)
    else Res.done intMap

def generateDiffRandomNumbers (rnd : Nat → Nat) (fuel : Nat) (bucketSize length : Int) :
    Res (List Nat) :=
  drawLoop rnd bucketSize length fuel 0 []

/-- The loop `for _, v := range numbers` of `randomChoosePeers`; `peers[v]` panics out of
range. -/
def pickPeers (peers : List Peer) : List Nat → Res (List Peer)
  | [] => Res.done []
  | v :: rest =>
    match peers[v]? with
    | none => Res.panicked
    | some p =>
      match pickPeers peers rest with
      | Res.done ps => Res.done (p :: ps)
      | Res.panicked => Res.panicked
      | Res.outOfFuel => Res.outOfFuel

def randomChoosePeers (rnd : Nat → Nat) (fuel : Nat) (peerMap : List Peer) (count : Int) :
    Res (List Peer × List Peer) :=
  let peers := peerMap
  match generateDiffRandomNumbers rnd fuel peers.length count with
  | Res.done numbers =>
    match pickPeers peers numbers with
    | Res.done randomPeers => Res.done (randomPeers, peerMap)
    | Res.panicked => Res.panicked
    | Res.outOfFuel => Res.outOfFuel
  | Res.panicked => Res.panicked
  | Res.outOfFuel => Res.outOfFuel

/-- The loop of `getHeightDiffFromRegularPeers` that finds the highest peer height. -/
def highestOf (peers : List Peer) : Nat :=
  peers.foldl (fun highest p => if p.height > highest then p.height else highest) 0

def getHeightDiffFromRegularPeers {W : Type} (ch : SyncChain W) (rnd : Nat → Nat) (fuel : Nat)
    (s : Synchronizer W) : Res (Int × List Peer) :=
  let currentHeight := (ch.CurrentBlock s.chain).height
  match randomChoosePeers rnd fuel s.peers s.config.MinRegularPeerCount with
  | Res.done r =>
    let peers := r.1
    let highest := highestOf peers
    if currentHeight ≥ highest then Res.done (-1, [])
    else
      let diff := highest - currentHeight
      Res.done (toInt32 diff, peers)
  | Res.panicked => Res.panicked
  | Res.outOfFuel => Res.outOfFuel

def doInit {W : Type} (ch : SyncChain W) (rnd : Nat → Nat) (fuel : Nat) (s : Synchronizer W) :
    Res (Synchronizer W) :=
  if (s.peers.length : Int) < s.config.MinRegularPeerCount then Res.done s
  else
    match getHeightDiffFromRegularPeers ch rnd fuel s with
    | Res.done r =>
      let diff := r.1
      if diff < s.config.HeightDiff then
        let peers := s.peers
        Res.done { s with
          log := s.log ++ [Effect.cp2fpStartTask (ch.Genesis s.chain) (ch.CurrentBlock s.chain) peers],
          status := SyncStatus.SyncStatusNormal }
      else if (s.peers.length : Int) ≥ s.config.MinFastSyncPeerCount then
        Res.done { s with status := SyncStatus.SyncStatusFastSync,
                          log := s.log ++ [Effect.goDoFastSync] }
      else Res.done s
    | Res.panicked => Res.panicked
    | Res.outOfFuel => Res.outOfFuel

/-- The function `doCheckPeer`; `currentHeight+peerSyncThreshold` is a `uint64` sum. -/
def doCheckPeer {W : Type} (ch : SyncChain W) (s : Synchronizer W) (p : Peer) : Synchronizer W :=
  let height := p.height
  let currentBlock := ch.CurrentBlock s.chain
  let currentHeight := currentBlock.height
  if (currentHeight + peerSyncThreshold) % 2 ^ 64 < height then
    { s with log := s.log ++ [Effect.DoPeerSync p] }
  else s

/-- The guarded call `if s.miner != nil { s.miner.Start() }`. -/
def startMiner {W : Type} (s : Synchronizer W) : Synchronizer W :=
  if s.hasMiner then { s with log := s.log ++ [Effect.minerStart] } else s

/-- The guarded call `if s.lastHeadBlock != nil { s.chain.SetCurrentBlock(s.lastHeadBlock) }`. -/
def restoreHead {W : Type} (ch : SyncChain W) (s : Synchronizer W) : Synchronizer W :=
  match s.lastHeadBlock with
  | some b => { s with chain := ch.SetCurrentBlock s.chain b,
                       log := s.log ++ [Effect.setCurrentBlock b] }
  | none => s

/-- The statement `go s.cp2fp.startTask(s.chain.Genesis(), s.chain.CurrentBlock(), s.getPeers())`. -/
def goStartTask {W : Type} (ch : SyncChain W) (s : Synchronizer W) : Synchronizer W :=
  { s with log := s.log ++
      [Effect.goCp2fpStartTask (ch.Genesis s.chain) (ch.CurrentBlock s.chain) s.peers] }

/-- Case `p := <-s.newPeerCh` of `loop`. -/
def onNewPeer {W : Type} (ch : SyncChain W) (rnd : Nat → Nat) (fuel : Nat) (s : Synchronizer W)
    (p : Peer) : Res (Synchronizer W) :=
  let r : Res (Synchronizer W) :=
    match s.status with
    | SyncStatus.SyncStatusInit => doInit ch rnd fuel s
    | SyncStatus.SyncStatusFastSync => Res.done s
    | SyncStatus.SyncStatusNormal => Res.done { s with log := s.log ++ [Effect.goDoCheckPeer p] }
    | SyncStatus.SyncStatusPeerSync => Res.done s
  match r with
  | Res.done s1 => Res.done { s1 with log := s1.log ++ [Effect.cp2fpRegisterPeer p] }
  | Res.panicked => Res.panicked
  | Res.outOfFuel => Res.outOfFuel

/-- Case `<-s.fastSyncFinishedCh` of `loop`. -/
def onFastSyncFinished {W : Type} (s : Synchronizer W) : Synchronizer W :=
  if s.status = SyncStatus.SyncStatusFastSync then
    let s1 := startMiner s
    let s2 := { s1 with status := SyncStatus.SyncStatusNormal }
    { s2 with lastHeadBlock := none }
  else s

/-- Case `<-s.fastSyncErrCh` of `loop`. -/
def onFastSyncErr {W : Type} (ch : SyncChain W) (rnd : Nat → Nat) (fuel : Nat)
    (s : Synchronizer W) : Res (Synchronizer W) :=
  if s.status = SyncStatus.SyncStatusFastSync then
    let s1 := { s with status := SyncStatus.SyncStatusInit }
    let s2 := { s1 with fastSyncMode := FastSyncMode.FastSyncModeNone }
    let s3 := { s2 with fastSyncStatus := FastSyncStatus.FastSyncStatusNone }
    let s4 := restoreHead ch s3
    doInit ch rnd fuel s4
  else Res.done s

/-- Case `p := <-s.peerSyncFinishedCh` of `loop`. -/
def onPeerSyncFinished {W : Type} (ch : SyncChain W) (s : Synchronizer W) (p : Peer) :
    Synchronizer W :=
  if s.status = SyncStatus.SyncStatusPeerSync then
    let s1 := startMiner s
    let s2 := { s1 with status := SyncStatus.SyncStatusNormal }
    let s3 := { s2 with lastHeadBlock := none }
    let s4 := { s3 with peerSyncStarted := Function.update s3.peerSyncStarted p.id false }
    let s5 := { s4 with log := s4.log ++ [Effect.finishDependErr p] }
    goStartTask ch s5
  else s

/-- Body of the function passed to `time.AfterFunc` in the `peerSyncErrCh` case. -/
def peerSyncErrTimeout {W : Type} (s : Synchronizer W) (p : Peer) : Synchronizer W :=
  let s1 := { s with peerSyncStarted := Function.update s.peerSyncStarted p.id false }
  { s1 with log := s1.log ++ [Effect.finishDependErr p] }

/-- Case `p := <-s.peerSyncErrCh` of `loop`. -/
def onPeerSyncErr {W : Type} (ch : SyncChain W) (s : Synchronizer W) (p : Peer) :
    Synchronizer W :=
  if s.status = SyncStatus.SyncStatusPeerSync then
    let s1 := startMiner s
    let s2 := { s1 with status := SyncStatus.SyncStatusNormal }
    let s3 := restoreHead ch s2
    let s4 := { s3 with log := s3.log ++ [Effect.afterFunc finishDependErrTime p] }
    goStartTask ch s4
  else s

/-- Case `<-s.syncQuitCh` of `loop`; the loop returns after it. -/
def onQuit {W : Type} (s : Synchronizer W) : Synchronizer W :=
  if s.status = SyncStatus.SyncStatusFastSync ∨ s.status = SyncStatus.SyncStatusPeerSync then
    { s with log := s.log ++ [Effect.closeFastSyncQuitCh] }
  else s

/-- Event received by the `select` of `loop`. -/
inductive Event where
  | newPeer (p : Peer)
  | fastSyncFinished
  | fastSyncErr
  | peerSyncFinished (p : Peer)
  | peerSyncErr (p : Peer)
  | quit
deriving DecidableEq, Repr

/-- One iteration of the `for { select { ... } }` of `loop` on a received event. -/
def loopStep {W : Type} (ch : SyncChain W) (rnd : Nat → Nat) (fuel : Nat) (s : Synchronizer W) :
    Event → Res (Synchronizer W)
  | Event.newPeer p => onNewPeer ch rnd fuel s p
  | Event.fastSyncFinished => Res.done (onFastSyncFinished s)
  | Event.fastSyncErr => onFastSyncErr ch rnd fuel s
  | Event.peerSyncFinished p => Res.done (onPeerSyncFinished ch s p)
  | Event.peerSyncErr p => Res.done (onPeerSyncErr ch s p)
  | Event.quit => Res.done (onQuit s)

/-- A chain world that is just its genesis block and its current block. -/
def headChain : SyncChain (Block × Block) where
  CurrentBlock := fun w => w.2
  Genesis := fun w => w.1
  SetCurrentBlock := fun w b => (w.1, b)

/-- The keys `generateDiffRandomNumbers` would hold after `fuel` further draws if it did not
stop: the distinct values drawn, in the order of their first appearance. -/
def keysAfter (rnd : Nat → Nat) (bucketSize : Int) : Nat → Nat → List Nat → List Nat
  | 0, _, intMap => intMap
  | fuel + 1, i, intMap =>
    keysAfter rnd bucketSize fuel (i + 1) (setKey (rnd i % bucketSize.toNat) intMap)

/-! ### Fixtures for the synchronizer -/

def peerA : Peer := { id := "a", height := 100 }

def peerB : Peer := { id := "b", height := 100 }

def peerC : Peer := { id := "c", height := 56 }

/-- The configuration of the spec scenarios: `MinRegularPeerCount = 3`,
`MinFastSyncPeerCount = 4`, `HeightDiff = 10`. -/
def config3 : SyncConfig :=
  { MinRegularPeerCount := 3, MinFastSyncPeerCount := 4, HeightDiff := 10 }

/-- A synchronizer over `headChain` with genesis `H1` and the given status, peers, current
block and last head block; it has a miner and no peer sync has been started. -/
def sync0 (status : SyncStatus) (peers : List Peer) (current : Block)
    (lastHeadBlock : Option Block) : Synchronizer (Block × Block) :=
  { config := config3, chain := (H1, current), hasMiner := true, status := status,
    fastSyncMode := FastSyncMode.FastSyncModeNone,
    fastSyncStatus := FastSyncStatus.FastSyncStatusNone,
    peers := peers, lastHeadBlock := lastHeadBlock, peerSyncStarted := fun _ => false,
    log := [] }

/-! ### `findAndCheckMainChain`

The callees `findMainChainPeers`, `getBestPeerByHead` and `doSyncAndCheckFixPoint` are not
among the sources; they are parameters, and only the results that `findAndCheckMainChain`
reads are kept. -/

/-- Results of `findMainChainPeers` read by `findAndCheckMainChain`: `leftPeers`,
`blockSyncHashList` and the error. -/
structure MainChainPeers where
  leftPeers : Option (List Peer)
  blockSyncHashList : List HashElem
  err : Option String
deriving DecidableEq, Repr

/-- Results `check, errPeers, err` of `doSyncAndCheckFixPoint`. -/
structure FixPointCheck where
  check : Bool
  errPeers : List Peer
  err : Option String
deriving DecidableEq, Repr

/-- Results of `findAndCheckMainChain`, with the `removePeerCallback` calls it made, in order. -/
structure MainChainResult where
  peers : Option (List Peer)
  err : Option String
  removed : List Effect
deriving DecidableEq, Repr

/-- The loop `for _, peer := range ps { s.removePeerCallback(peer.GetID(), false) }`. -/
def removeAll (ps : List Peer) : List Effect :=
  ps.map (fun peer => Effect.removePeerCallback peer.id false)

/-- Length `len(x)` of a slice that may be nil. -/
def sliceLen (x : Option (List Peer)) : Nat := (x.getD []).length

def findAndCheckMainChain
    (findMainChainPeers :
      List (String × List HashElem) → List Peer → List (String × Int) → Int → MainChainPeers)
    (getBestPeerByHead : List Peer → Peer)
    (doSyncAndCheckFixPoint : List Peer → Peer → List HashElem → HashElem → Bool → FixPointCheck)
    (interHashesMap : List (String × List HashElem)) (peers : List Peer) (comPreCount : Int)
    (comPrefixIndexMap : List (String × Int)) : MainChainResult :=
  let r := findMainChainPeers interHashesMap peers comPrefixIndexMap comPreCount
  match r.err with
  | some err =>
    if err = errNotEnoughPeers then
      { peers := none, err := some err, removed := [] }
    else
      { peers := none, err := some err, removed := removeAll peers }
  | none =>
    if sliceLen r.leftPeers = 0 then
      { peers := r.leftPeers, err := none, removed := [] }
    else
      let bestPeer := getBestPeerByHead (r.leftPeers.getD [])
      let c := doSyncAndCheckFixPoint (r.leftPeers.getD []) bestPeer r.blockSyncHashList
        { height := 0, round := 0, hash := 0 } true
      if c.err ≠ none ∨ c.check = false ∨
          (peers.length : Int) - (c.errPeers.length : Int) < comPreCount then
        { peers := none, err := c.err, removed := removeAll c.errPeers }
      else
        { peers := r.leftPeers, err := none, removed := [] }

/-- A `findMainChainPeers` that agrees on all three fixture peers. -/
def findAll3 : List (String × List HashElem) → List Peer → List (String × Int) → Int →
    MainChainPeers :=
  fun _ _ _ _ => { leftPeers := some [peerA, peerB, peerC], blockSyncHashList := hashList3,
                   err := none }

/-- A `doSyncAndCheckFixPoint` that passes the check with the given error peers and no error. -/
def checkWith (errPeers : List Peer) :
    List Peer → Peer → List HashElem → HashElem → Bool → FixPointCheck :=
  fun _ _ _ _ _ => { check := true, errPeers := errPeers, err := none }

def errCanNotGetConsensus : String := "failed to get to an agreement of hashLists"

/-- A `findMainChainPeers` that fails with the given error. -/
def findFails (msg : String) : List (String × List HashElem) → List Peer →
    List (String × Int) → Int → MainChainPeers :=
  fun _ _ _ _ => { leftPeers := none, blockSyncHashList := [], err := some msg }

/-! ### Timers

`time.AfterFunc(d, f)` runs `f` once, no earlier than `d` after the call.  Time is a
counter of seconds; a pending timer may fire at any moment from its due time on. -/

/-- A pending timer of the `peerSyncErrCh` case: its due time and the peer its callback
`peerSyncErrTimeout` is for. -/
structure Timer where
  due : Nat
  peer : Peer
deriving DecidableEq, Repr

/-- The synchronizer with the clock, the pending timers, and whether `loop` has returned. -/
structure Timed (W : Type) where
  sync : Synchronizer W
  now : Nat
  timers : List Timer
  stopped : Bool

/-- The timers scheduled by the `time.AfterFunc` calls among the effects of a handler. -/
def newTimers (now : Nat) : List Effect → List Timer
  | [] => []
  | Effect.afterFunc d p :: rest => { due := now + d, peer := p } :: newTimers now rest
  | _ :: rest => newTimers now rest

/-- Number of `finishDependErr` calls in an effect log for the peer with the given id. -/
def finishCalls (id : String) : List Effect → Nat
  | [] => 0
  | Effect.finishDependErr p :: rest =>
    (if p.id = id then 1 else 0) + finishCalls id rest
  | _ :: rest => finishCalls id rest

/-- What can happen next: the loop receives an event, time passes, or the `k`-th pending
timer fires. -/
inductive TimedStep where
  | receive (e : Event) (rnd : Nat → Nat) (fuel : Nat)
  | wait (seconds : Nat)
  | fire (k : Nat)

def timedStep {W : Type} (ch : SyncChain W) (t : Timed W) : TimedStep → Res (Timed W)
  | TimedStep.receive e rnd fuel =>
    if t.stopped then Res.done t
    else
      match loopStep ch rnd fuel t.sync e with
      | Res.done s1 =>
        Res.done { t with sync := s1,
                          timers := t.timers ++ newTimers t.now (s1.log.drop t.sync.log.length),
                          stopped := decide (e = Event.quit) }
      | Res.panicked => Res.panicked
      | Res.outOfFuel => Res.outOfFuel
  | TimedStep.wait seconds => Res.done { t with now := t.now + seconds }
  | TimedStep.fire k =>
    match t.timers[k]? with
    | some tm =>
      if tm.due ≤ t.now then
        Res.done { t with sync := peerSyncErrTimeout t.sync tm.peer,
                          timers := t.timers.eraseIdx k }
      else Res.done t
    | none => Res.done t

def timedRun {W : Type} (ch : SyncChain W) : Timed W → List TimedStep → Res (Timed W)
  | t, [] => Res.done t
  | t, st :: rest =>
    match timedStep ch t st with
    | Res.done t1 => timedRun ch t1 rest
    | Res.panicked => Res.panicked
    | Res.outOfFuel => Res.outOfFuel

/-- What holds during the cooldown of peer id `id` that ends at time `T`: the status is
`Normal`, and before `T` the flag of the peer is set, no `finishDependErr` call has been
added for it (there are `c` of them), and no timer for it is due. -/
structure Cooling {W : Type} (id : String) (T c : Nat) (t : Timed W) : Prop where
  normal : t.sync.status = SyncStatus.SyncStatusNormal
  flag : t.now < T → t.sync.peerSyncStarted id = true
  calls : t.now < T → finishCalls id t.sync.log = c
  pending : t.now < T → ∀ tm ∈ t.timers, tm.peer.id = id → T ≤ tm.due

/-- An admission check for `DoPeerSync` (which is not among the sources) that admits a peer
exactly when its `peerSyncStarted` flag is not set. -/
def refusesStarted {W : Type} (s : Synchronizer W) (q : Peer) : Bool :=
  !(s.peerSyncStarted q.id)

/-- A synchronizer in status `PeerSync` with peer `a`, whose flag is set, at time 0 with no
pending timer. -/
def syncingA : Timed (Block × Block) :=
  { sync := { sync0 SyncStatus.SyncStatusPeerSync [peerA, peerB, peerC] H2 (some H1) with
              peerSyncStarted := fun id => decide (id = "a") },
    now := 0, timers := [], stopped := false }

/-- A peer whose reported head is `2^31` above the height of `H1`. -/
def peerFar : Peer := { id := "far", height := 100 + 2 ^ 31 }

/-! ## The log bloom (`core/types/bloom9.go`)

A byte is a natural number below 256 and a byte slice a list of bytes.  `Bloom` is the
array type `[BloomByteLength]byte`: a list of `BloomByteLength` bytes.  A `*big.Int` that
is never negative here is a natural number.  `crypto.Keccak256` is a parameter. -/

def BloomByteLength : Nat := 4096

def BloomBitLength : Nat := 8 * BloomByteLength

abbrev Bloom := List Nat

/-- The library method `(*big.Int).SetBytes`: the value of a big-endian unsigned integer. -/
def bigSetBytes (buf : List Nat) : Nat :=
  buf.foldl (fun acc x => acc * 256 + x) 0

/-- Digits of `n` in base 256, most significant first, in front of `acc`. -/
def bytesLoop : Nat → Nat → List Nat → List Nat
  | 0, _, acc => acc
  | fuel + 1, n, acc => if n = 0 then acc else bytesLoop fuel (n / 256) (n % 256 :: acc)

/-- The library method `(*big.Int).Bytes`: the big-endian bytes of the absolute value,
without leading zero bytes (empty for 0). -/
def bigBytes (n : Nat) : List Nat :=
  bytesLoop n n []

/-- The method `SetBytes`: panics (`none`) when `d` is longer than the array, else copies
`d` to the end of the array, `copy(b[BloomByteLength-len(d):], d)`. -/
def Bloom.SetBytes (b : Bloom) (d : List Nat) : Option Bloom :=
  if BloomByteLength < d.length then none
  else some (b.take (BloomByteLength - d.length) ++ d)

/-- One iteration of the loop of `bloom9` for index `i`; `none` is the panic of an index
out of range of the hash.  The sum is a `uint` (64 bits). -/
def bloom9Step (b : List Nat) (r : Nat) (i : Nat) : Option Nat :=
  match b[i + 1]?, b[i]? with
  | some lo, some hi =>
    some (r ||| (1 <<< (((lo + (hi <<< 8) % 2 ^ 64) % 2 ^ 64) &&& (BloomBitLength - 1))))
  | _, _ => none

/-- The function `bloom9`, for `i = 0, 2, 4`. -/
def bloom9 (Keccak256 : List Nat → List Nat) (b : List Nat) : Option Nat :=
  let b := Keccak256 b
  (bloom9Step b 0 0).bind (fun r => (bloom9Step b r 2).bind (fun r => bloom9Step b r 4))

/-- The method `Big`. -/
def Bloom.Big (b : Bloom) : Nat := bigSetBytes b

/-- The method `Add`; `d.Bytes()` are the bytes of the absolute value of `d`. -/
def Bloom.Add (Keccak256 : List Nat → List Nat) (b : Bloom) (d : Int) : Option Bloom :=
  let bin := bigSetBytes b
  match bloom9 Keccak256 (bigBytes d.natAbs) with
  | some m => Bloom.SetBytes b (bigBytes (bin ||| m))
  | none => none

/-- The function `BloomLookup` on a topic with the given `Bytes()`. -/
def BloomLookup (Keccak256 : List Nat → List Nat) (bin : Bloom) (topic : List Nat) :
    Option Bool :=
  let bloom := Bloom.Big bin
  match bloom9 Keccak256 topic with
  | some cmp => some (decide (bloom &&& cmp = cmp))
  | none => none

/-- The inner loop of `Count`, `for oneByte > 0 { oneByte &= (oneByte - 1); num++ }`. -/
def clearLoop : Nat → Nat → Nat → Res Nat
  | 0, oneByte, num => if oneByte > 0 then Res.outOfFuel else Res.done num
  | fuel + 1, oneByte, num =>
    if oneByte > 0 then clearLoop fuel (oneByte &&& (oneByte - 1)) (num + 1)
    else Res.done num

/-- The outer loop of `Count` over the bytes of the filter. -/
def countLoop (fuel : Nat) : List Nat → Nat → Res Nat
  | [], num => Res.done num
  | oneByte :: rest, num =>
    match clearLoop fuel oneByte num with
    | Res.done num1 => countLoop fuel rest num1
    | Res.panicked => Res.panicked
    | Res.outOfFuel => Res.outOfFuel

/-- The method `Count`; `fuel` bounds the iterations of the inner loop on one byte. -/
def Bloom.Count (fuel : Nat) (b : Bloom) : Res Nat :=
  countLoop fuel b 0

/-- Population count of a byte: the number of positions `0..7` whose bit is 1. -/
def popCount (x : Nat) : Nat :=
  ((List.range 8).filter (fun i => x.testBit i)).length

/-- A stand-in for `crypto.Keccak256` in examples: 32 bytes made of the input, padded with
zero bytes. -/
def padHash (b : List Nat) : List Nat :=
  (b ++ List.replicate 32 0).take 32

/-- The empty filter. -/
def emptyBloom : Bloom := List.replicate BloomByteLength 0

/-- A filter whose last byte is `0x81` and whose other bytes are zero. -/
def bloom129 : Bloom := List.replicate (BloomByteLength - 1) 0 ++ [129]

/-! ## Gas accounting (`transaction/txexec/state_transition.go`)

`uint64` values are natural numbers, reduced modulo `2^64` after every addition,
subtraction and multiplication.  A `*big.Int` is an integer.  An address is a natural
number.  The constants of package `params`, the gas pool, the state database and the
nonce set are not among the sources: the constants are the record `GasParams`, the
methods called on the others are the record `TxEnv` over a world `W` that holds the state
database, the previous state database and the nonce set. -/

def MaxUint64 : Nat := 2 ^ 64 - 1

/-- The constants of package `params` read by `IntrinsicGas`. -/
structure GasParams where
  TxGas : Nat
  TxGasContractCreation : Nat
  TxDataNonZeroGas : Nat
  TxDataZeroGas : Nat
deriving DecidableEq, Repr

/-- The errors returned on the paths modelled here; `other` is an error of a collaborator
(`GasPool.SubGas`, the nonce set). -/
inductive TxError where
  | ErrOutOfGas
  | ErrInsufficientBalanceForGas
  | ErrInsufficientBalance
  | ErrSimpleTxHasNoTarget
  | other (msg : String)
deriving DecidableEq, Repr

/-- The loop `for _, byt := range data { if byt != 0 { nz++ } }`. -/
def nonZeroLoop (data : List Nat) : Nat :=
  data.foldl (fun nz byt => if byt ≠ 0 then (nz + 1) % 2 ^ 64 else nz) 0

/-- The function `IntrinsicGas`; a division by a zero price panics. -/
def IntrinsicGas (p : GasParams) (data : List Nat) (contractCreation : Bool) :
    Res (Nat × Option TxError) :=
  let gas := if contractCreation then p.TxGasContractCreation else p.TxGas
  if data.length > 0 then
    let nz := nonZeroLoop data
    if p.TxDataNonZeroGas = 0 then Res.panicked
    else if (MaxUint64 - gas) / p.TxDataNonZeroGas < nz then
      Res.done (0, some TxError.ErrOutOfGas)
    else
      let gas1 := (gas + nz * p.TxDataNonZeroGas % 2 ^ 64) % 2 ^ 64
      let z := (data.length % 2 ^ 64 + 2 ^ 64 - nz) % 2 ^ 64
      if p.TxDataZeroGas = 0 then Res.panicked
      else if (MaxUint64 - gas1) / p.TxDataZeroGas < z then
        Res.done (0, some TxError.ErrOutOfGas)
      else
        Res.done ((gas1 + z * p.TxDataZeroGas % 2 ^ 64) % 2 ^ 64, none)
  else Res.done (gas, none)

/-- The methods of the `Message` interface, as values. -/
structure Message where
  From : Nat
  To : Option Nat
  GasPrice : Int
  Gas : Nat
  Value : Int
  Nonce : Nat
  CheckNonce : Bool
  Data : List Nat
deriving DecidableEq, Repr

/-- The fields of `StateTransition` that the modelled code reads or writes; `state` is the
world. -/
structure StateTransition (W : Type) where
  gp : Nat
  msg : Message
  gas : Nat
  gasPrice : Int
  initialGas : Nat
  value : Int
  data : List Nat
  state : W

/-- The collaborators of the state transition.  `SubGas` returns the new pool or its
error; `nonceCheck` is the nonce part of `preCheck` and `nonceAdd` the nonce update of
`SimpleTransitionDb`, each with the journal entry it may add. -/
structure TxEnv (W : Type) where
  GetBalance : W → Nat → Int
  SubBalance : W → Nat → Int → W
  AddBalance : W → Nat → Int → W
  GetRefund : W → Nat
  SubGas : Nat → Nat → Except String Nat
  AddGas : Nat → Nat → Nat
  nonceCheck : W → Message → W × Option TxError
  nonceAdd : W → Message → W × Option TxError
  CanTransfer : W → Nat → Int → Bool
  Transfer : W → Nat → Nat → Int → W

def NewStateTransition {W : Type} (statedb : W) (msg : Message) (gp : Nat) :
    StateTransition W :=
  { gp := gp, msg := msg, gas := 0, gasPrice := msg.GasPrice, initialGas := 0,
    value := msg.Value, data := msg.Data, state := statedb }

def useGas {W : Type} (st : StateTransition W) (amount : Nat) :
    StateTransition W × Option TxError :=
  if st.gas < amount then (st, some TxError.ErrOutOfGas)
  else ({ st with gas := st.gas - amount }, none)

def buyGas {W : Type} (env : TxEnv W) (st : StateTransition W) :
    StateTransition W × Option TxError :=
  let mgval : Int := (st.msg.Gas : Int) * st.gasPrice
  if env.GetBalance st.state st.msg.From < mgval then
    (st, some TxError.ErrInsufficientBalanceForGas)
  else
    match env.SubGas st.gp st.msg.Gas with
    | Except.error e => (st, some (TxError.other e))
    | Except.ok gp1 =>
      ({ st with gp := gp1, gas := (st.gas + st.msg.Gas) % 2 ^ 64, initialGas := st.msg.Gas,
                 state := env.SubBalance st.state st.msg.From mgval }, none)

def preCheck {W : Type} (env : TxEnv W) (st : StateTransition W) :
    StateTransition W × Option TxError :=
  let n := env.nonceCheck st.state st.msg
  match n.2 with
  | some e => ({ st with state := n.1 }, some e)
  | none =>
    let b := buyGas env { st with state := n.1 }
    match b.2 with
    | some e => (b.1, some e)
    | none =>
      if env.CanTransfer b.1.state b.1.msg.From b.1.value then (b.1, none)
      else (b.1, some TxError.ErrInsufficientBalance)

/-- The method `gasUsed`, a `uint64` subtraction. -/
def gasUsed {W : Type} (st : StateTransition W) : Nat :=
  (st.initialGas + 2 ^ 64 - st.gas) % 2 ^ 64

def refundGas {W : Type} (env : TxEnv W) (st : StateTransition W) : StateTransition W :=
  let refund := gasUsed st / 2
  let refund := if refund > env.GetRefund st.state then env.GetRefund st.state else refund
  let st1 := { st with gas := (st.gas + refund) % 2 ^ 64 }
  let remaining : Int := (st1.gas : Int) * st1.gasPrice
  let st2 := { st1 with state := env.AddBalance st1.state st1.msg.From remaining }
  { st2 with gp := env.AddGas st2.gp st2.gas }

/-- What `SimpleTransitionDb` returns, with the state transition it leaves. -/
structure TxResult (W : Type) where
  st : StateTransition W
  usedGas : Nat
  err : Option TxError

def SimpleTransitionDb {W : Type} (env : TxEnv W) (p : GasParams) (st : StateTransition W)
    (coinbase : Nat) : Res (TxResult W) :=
  let c := preCheck env st
  match c.2 with
  | some e => Res.done { st := c.1, usedGas := 0, err := some e }
  | none =>
    match c.1.msg.To with
    | none => Res.done { st := c.1, usedGas := 0, err := some TxError.ErrSimpleTxHasNoTarget }
    | some target =>
      match IntrinsicGas p [] false with
      | Res.panicked => Res.panicked
      | Res.outOfFuel => Res.outOfFuel
      | Res.done (_, some e) => Res.done { st := c.1, usedGas := 0, err := some e }
      | Res.done (gas, none) =>
        let u := useGas c.1 gas
        match u.2 with
        | some e => Res.done { st := u.1, usedGas := 0, err := some e }
        | none =>
          let n := env.nonceAdd u.1.state u.1.msg
          match n.2 with
          | some e => Res.done { st := { u.1 with state := n.1 }, usedGas := 0, err := some e }
          | none =>
            let st3 := { u.1 with state := env.Transfer n.1 u.1.msg.From target u.1.value }
            let st4 := refundGas env st3
            let fee : Int := (gasUsed st4 : Int) * st4.gasPrice
            let st5 := { st4 with state := env.AddBalance st4.state coinbase fee }
            Res.done { st := st5, usedGas := gasUsed st5, err := none }

/-- Example values for the constants of package `params`. -/
def exampleParams : GasParams :=
  { TxGas := 21000, TxGasContractCreation := 53000, TxDataNonZeroGas := 68,
    TxDataZeroGas := 4 }

/-- A world that is the balance of the one account there is, with a refund counter of
`1000`, a gas pool without limit, and nonce checks that pass. -/
def simpleEnv : TxEnv Int where
  GetBalance := fun w _ => w
  SubBalance := fun w _ x => w - x
  AddBalance := fun w _ x => w + x
  GetRefund := fun _ => 1000
  SubGas := fun gp amount => if gp < amount then Except.error "gas limit reached"
                             else Except.ok (gp - amount)
  AddGas := fun gp amount => gp + amount
  nonceCheck := fun w _ => (w, none)
  nonceAdd := fun w _ => (w, none)
  CanTransfer := fun w _ x => decide (x ≤ w)
  Transfer := fun w _ _ _ => w

/-- A transfer of value 5 with gas limit `30000` at gas price 2. -/
def exampleMsg : Message :=
  { From := 1, To := some 2, GasPrice := 2, Gas := 30000, Value := 5, Nonce := 0,
    CheckNonce := true, Data := [] }

/-- The intrinsic gas in the words of the claim: the base price plus the price of the
non-zero bytes plus the price of the zero bytes, as an unbounded number. -/
def intrinsicSum (p : GasParams) (data : List Nat) (contractCreation : Bool) : Nat :=
  (if contractCreation then p.TxGasContractCreation else p.TxGas) +
    data.countP (fun byt => decide (byt ≠ 0)) * p.TxDataNonZeroGas +
    data.countP (fun byt => decide (byt = 0)) * p.TxDataZeroGas

/-! ## JSON encoding of `Log` (`core/types/gen_log_json.go`)

`json.Marshal` and `json.Unmarshal` are library functions, and the text encodings of the
field types (`common.Address`, `common.Hash`, `hexutil.Bytes`, `hexutil.Uint64`) are not
among the sources.  A JSON document is the list of the members of an object, each a key
with the value it encodes; a member decodes into a field of the same type only. -/

/-- A JSON value, by the Go value it encodes. -/
inductive JValue where
  | null
  | address (a : Nat)
  | hash (h : Nat)
  | hashes (hs : List Nat)
  | bytes (b : List Nat)
  | uint64 (n : Nat)
  | uint32 (n : Nat)
deriving DecidableEq, Repr

/-- The fields of `Log` that the generated code reads and writes; `Topics` is a slice
that may be nil. -/
structure Log where
  Address : Nat
  Topics : Option (List Nat)
  Data : List Nat
  BlockNumber : Nat
  TxHash : Nat
  PkgIndex : Nat
  TxIndex : Nat
  Index : Nat
deriving DecidableEq, Repr

/-- The method `MarshalJSON`: the members of the object, under the keys of the `json`
tags of its local struct `Log`, in field order. -/
def Log.MarshalJSON (l : Log) : List (String × JValue) :=
  [("address", JValue.address l.Address),
   ("topics", match l.Topics with
              | some ts => JValue.hashes ts
              | none => JValue.null),
   ("data", JValue.bytes l.Data),
   ("block=Number", JValue.uint64 l.BlockNumber),
   ("transactionHash", JValue.hash l.TxHash),
   ("packageIndex", JValue.uint32 l.PkgIndex),
   ("transactionIndex", JValue.uint32 l.TxIndex),
   ("logIndex", JValue.uint32 l.Index)]

/-- The local struct `Log` of `UnmarshalJSON`: every field a pointer or a slice, nil
until a member is decoded into it. -/
structure LogDec where
  Address : Option Nat
  Topics : Option (List Nat)
  Data : Option (List Nat)
  BlockNumber : Option Nat
  TxHash : Option Nat
  PkgIndex : Option Nat
  TxIndex : Option Nat
  Index : Option Nat
deriving DecidableEq, Repr

/-- The keys of the `json` tags of the local struct of `UnmarshalJSON`. -/
def decKeys : List String :=
  ["address", "topics", "data", "blockNumber", "transactionHash", "packageIndex",
   "transactionIndex", "logIndex"]

/-- Case folding of a key, for the case-insensitive match of `json.Unmarshal`. -/
def foldKey (s : String) : List Char := s.data.map Char.toLower

/-- The field a member key decodes into: an exact match of a tag, else a case-insensitive
one; a key that matches no tag is skipped. -/
def matchKey (key : String) : Option String :=
  match decKeys.find? (fun k => decide (k = key)) with
  | some k => some k
  | none => decKeys.find? (fun k => decide (foldKey k = foldKey key))

/-- Decoding one member into the field with tag `k`; a value of another type is the type
error of `json.Unmarshal`, and `null` leaves a nil field. -/
def decodeMember (dec : LogDec) (k : String) (v : JValue) : Except String LogDec :=
  if v = JValue.null then
    if k = "address" then Except.ok { dec with Address := none }
    else if k = "topics" then Except.ok { dec with Topics := none }
    else if k = "data" then Except.ok { dec with Data := none }
    else if k = "blockNumber" then Except.ok { dec with BlockNumber := none }
    else if k = "transactionHash" then Except.ok { dec with TxHash := none }
    else if k = "packageIndex" then Except.ok { dec with PkgIndex := none }
    else if k = "transactionIndex" then Except.ok { dec with TxIndex := none }
    else Except.ok { dec with Index := none }
  else
    match k, v with
    | "address", JValue.address a => Except.ok { dec with Address := some a }
    | "topics", JValue.hashes hs => Except.ok { dec with Topics := some hs }
    | "data", JValue.bytes b => Except.ok { dec with Data := some b }
    | "blockNumber", JValue.uint64 n => Except.ok { dec with BlockNumber := some n }
    | "transactionHash", JValue.hash h => Except.ok { dec with TxHash := some h }
    | "packageIndex", JValue.uint32 n => Except.ok { dec with PkgIndex := some n }
    | "transactionIndex", JValue.uint32 n => Except.ok { dec with TxIndex := some n }
    | "logIndex", JValue.uint32 n => Except.ok { dec with Index := some n }
    | _, _ => Except.error "json: cannot unmarshal value into Go struct field"

/-- The call `json.Unmarshal(input, &dec)` on an object. -/
def jsonUnmarshal : List (String × JValue) → LogDec → Except String LogDec
  | [], dec => Except.ok dec
  | (key, v) :: rest, dec =>
    match matchKey key with
    | none => jsonUnmarshal rest dec
    | some k =>
      match decodeMember dec k v with
      | Except.ok dec1 => jsonUnmarshal rest dec1
      | Except.error e => Except.error e

/-- The method `UnmarshalJSON` on receiver `l`: the receiver afterwards, and the error
(`none` for nil). -/
def Log.UnmarshalJSON (l : Log) (input : List (String × JValue)) : Log × Option String :=
  let dec0 : LogDec :=
    { Address := none, Topics := none, Data := none, BlockNumber := none, TxHash := none,
      PkgIndex := none, TxIndex := none, Index := none }
  match jsonUnmarshal input dec0 with
  | Except.error e => (l, some e)
  | Except.ok dec =>
    match dec.Address with
    | none => (l, some "missing required field 'address' for Log")
    | some a =>
      let l := { l with Address := a }
      match dec.Topics with
      | none => (l, some "missing required field 'topics' for Log")
      | some ts =>
        let l := { l with Topics := some ts }
        match dec.Data with
        | none => (l, some "missing required field 'data' for Log")
        | some d =>
          let l := { l with Data := d }
          match dec.BlockNumber with
          | none => (l, some "missing required field 'blockNumber' for Log")
          | some n =>
            let l := { l with BlockNumber := n }
            match dec.TxHash with
            | none => (l, some "missing required field 'transactionHash' for Log")
            | some h =>
              let l := { l with TxHash := h }
              match dec.PkgIndex with
              | none => (l, some "missing required field 'packageIndex' for Log")
              | some pi =>
                let l := { l with PkgIndex := pi }
                match dec.TxIndex with
                | none => (l, some "missing required field 'transactionIndex' for Log")
                | some ti =>
                  let l := { l with TxIndex := ti }
                  match dec.Index with
                  | none => (l, some "missing required field 'logIndex' for Log")
                  | some i => ({ l with Index := i }, none)

/-- The zero value of `Log`. -/
def zeroLog : Log :=
  { Address := 0, Topics := none, Data := [], BlockNumber := 0, TxHash := 0, PkgIndex := 0,
    TxIndex := 0, Index := 0 }

/-- A log of block 7 with one topic. -/
def exampleLog : Log :=
  { Address := 17, Topics := some [5], Data := [1, 2], BlockNumber := 7, TxHash := 9,
    PkgIndex := 1, TxIndex := 2, Index := 3 }

/-! ## `checkBlock` -/

theorem getIndexHashElem_isSome (c : Cursor) (h : c.hashElems ≠ []) :
    ∃ e, getIndexHashElem c = some e := by
  unfold getIndexHashElem
  have hlen : 0 < c.hashElems.length := List.length_pos.mpr h
  split
  · rename_i hle
    have hb : (c.hashElems.length + 2 ^ 64 - 1) % 2 ^ 64 ≤ c.hashElems.length - 1 := by
      have h1 : c.hashElems.length + 2 ^ 64 - 1 = (c.hashElems.length - 1) + 2 ^ 64 := by omega
      rw [h1, Nat.add_mod_right]
      exact Nat.mod_le _ _
    have hlt : c.index < c.hashElems.length := by omega
    exact ⟨c.hashElems[c.index], by simp [hlt]⟩
  · exact ⟨_, rfl⟩

theorem checkBlock_tooLow_iff (h0 : HashElem) (rest : List HashElem) (b : Block) :
    checkBlock (h0 :: rest) b = CheckResult.err "block too low" ↔
      b.height + checkHeightMaxDiff ≤ h0.height := by
  unfold checkBlock checkHeightMaxDiff
  simp only []
  split_ifs with h1 h2 h3
  · simp; omega
  · simp; omega
  · simp; omega
  · simp; omega

theorem checkBlock_tooHigh_iff (h0 : HashElem) (rest : List HashElem) (b : Block) :
    checkBlock (h0 :: rest) b = CheckResult.err "block is too high" ↔
      h0.height + (h0 :: rest).length ≤ b.height := by
  unfold checkBlock checkHeightMaxDiff
  simp only []
  split_ifs with h1 h2 h3
  · simp; omega
  · simp; omega
  · simp at h3 ⊢; omega
  · simp at h3 ⊢; omega

theorem checkBlock_ok_iff (h0 : HashElem) (rest : List HashElem) (b : Block) :
    checkBlock (h0 :: rest) b = CheckResult.ok ↔
      (h0.height < b.height + checkHeightMaxDiff ∧
        b.height < h0.height + (h0 :: rest).length) := by
  unfold checkBlock checkHeightMaxDiff
  simp only []
  split_ifs with h1 h2 h3
  · simp; omega
  · simp; omega
  · simp at h3 ⊢; omega
  · simp at h3 ⊢; omega

theorem checkBlock_err_cases (hs : List HashElem) (b : Block) (msg : String)
    (h : checkBlock hs b = CheckResult.err msg) :
    msg = "block too low" ∨ msg = "block is too high" := by
  cases hs with
  | nil => simp [checkBlock] at h
  | cons h0 rest =>
    simp only [checkBlock] at h
    split_ifs at h <;> simp_all

theorem checkBlock_ne_panicked (hs : List HashElem) (b : Block) (h : hs ≠ []) :
    checkBlock hs b ≠ CheckResult.panicked := by
  cases hs with
  | nil => exact absurd rfl h
  | cons h0 rest =>
    simp only [checkBlock]
    split_ifs <;> simp

/-- The result of `ProcessBlock` when `checkBlock` returns an error. -/
theorem ProcessBlock_of_check_err {W : Type} (ch : Chain W) (c : Cursor) (w : W) (b : Block)
    (msg : String) (h : checkBlock c.hashElems b = CheckResult.err msg) :
    ProcessBlock ch c w b = { cursor := c, world := w, trace := [], ret := Ret.err msg } := by
  have hne : c.hashElems ≠ [] := by
    intro h0
    rw [h0] at h
    simp [checkBlock] at h
  obtain ⟨e, he⟩ := getIndexHashElem_isSome c hne
  simp [ProcessBlock, he, h]

/-- The return value of `ProcessBlock` is an error exactly when `checkBlock` gives it. -/
theorem ProcessBlock_ret_err_iff {W : Type} (ch : Chain W) (c : Cursor) (w : W) (b : Block)
    (msg : String) (hne : c.hashElems ≠ []) :
    (ProcessBlock ch c w b).ret = Ret.err msg ↔ checkBlock c.hashElems b = CheckResult.err msg := by
  constructor
  · intro h
    obtain ⟨e, he⟩ := getIndexHashElem_isSome c hne
    unfold ProcessBlock at h
    simp only [he] at h
    split at h
    · cases h
    · rename_i m hm
      have h1 : m = msg := by injection h
      rw [hm, h1]
    · split at h <;> cases h
  · intro h
    rw [ProcessBlock_of_check_err ch c w b msg h]


/-! ## Call logs -/

theorem mainExecs_append (s t : List Call) : mainExecs (s ++ t) = mainExecs s ++ mainExecs t := by
  induction s with
  | nil => rfl
  | cons x s ih =>
    cases x with
    | insertPastBlock b ok => cases ok <;> simp [mainExecs, ih]
    | _ => simp [mainExecs, ih]

theorem insertBlockCalls_append (s t : List Call) :
    insertBlockCalls (s ++ t) = insertBlockCalls s ++ insertBlockCalls t := by
  induction s with
  | nil => rfl
  | cons x s ih => cases x <;> simp [insertBlockCalls, ih]

theorem insertNoCheckCalls_append (s t : List Call) :
    insertNoCheckCalls (s ++ t) = insertNoCheckCalls s ++ insertNoCheckCalls t := by
  induction s with
  | nil => rfl
  | cons x s ih => cases x <;> simp [insertNoCheckCalls, ih]

theorem mainExecs_of_pkg (t : List Call) (h : ∀ x ∈ t, isPkgCall x = true) : mainExecs t = [] := by
  induction t with
  | nil => rfl
  | cons x t ih =>
    have hx := h x (List.mem_cons_self _ _)
    have ht := ih (fun y hy => h y (List.mem_cons_of_mem _ hy))
    cases x <;> simp_all [mainExecs, isPkgCall]

theorem insertBlockCalls_of_pkg (t : List Call) (h : ∀ x ∈ t, isPkgCall x = true) :
    insertBlockCalls t = [] := by
  induction t with
  | nil => rfl
  | cons x t ih =>
    have hx := h x (List.mem_cons_self _ _)
    have ht := ih (fun y hy => h y (List.mem_cons_of_mem _ hy))
    cases x <;> simp_all [insertBlockCalls, isPkgCall]

theorem insertNoCheckCalls_of_pkg (t : List Call) (h : ∀ x ∈ t, isPkgCall x = true) :
    insertNoCheckCalls t = [] := by
  induction t with
  | nil => rfl
  | cons x t ih =>
    have hx := h x (List.mem_cons_self _ _)
    have ht := ih (fun y hy => h y (List.mem_cons_of_mem _ hy))
    cases x <;> simp_all [insertNoCheckCalls, isPkgCall]

theorem insertTxPackage_pkg {W : Type} (ch : Chain W) (w : W) (pkg : TxPackage) :
    ∀ x ∈ (insertTxPackage ch w pkg).2.1, isPkgCall x = true := by
  intro x hx
  unfold insertTxPackage at hx
  simp only [] at hx
  split_ifs at hx
  · simp at hx; subst hx; rfl
  · simp at hx; rcases hx with rfl | rfl <;> rfl
  · simp at hx; rcases hx with rfl | rfl | rfl <;> rfl

theorem futureLoop_pkg {W : Type} (ch : Chain W) (pkgs : List TxPackage) :
    ∀ (w : W), ∀ x ∈ (futureLoop ch pkgs w).2, isPkgCall x = true := by
  induction pkgs with
  | nil => intro w x hx; simp [futureLoop] at hx
  | cons p rest ih =>
    intro w x hx
    unfold futureLoop at hx
    simp only [] at hx
    split_ifs at hx
    · simp only [List.mem_append, List.mem_singleton] at hx
      rcases hx with (h | h) | h
      · exact insertTxPackage_pkg ch w p x h
      · subst h; rfl
      · exact ih _ x h
    · simp only [List.mem_append] at hx
      rcases hx with h | h
      · exact insertTxPackage_pkg ch w p x h
      · exact ih _ x h

theorem processFutureTxPackages_pkg {W : Type} (ch : Chain W) (w : W) (h : Hash) :
    ∀ x ∈ (processFutureTxPackages ch w h).2, isPkgCall x = true := by
  intro x hx
  unfold processFutureTxPackages at hx
  simp only [List.mem_cons] at hx
  rcases hx with h1 | h1
  · subst h1; rfl
  · exact futureLoop_pkg ch _ _ x h1

theorem Guarded_nil (sh : Bool) : Guarded sh [] := by
  intro pre x post h
  simp at h

theorem Guarded_snoc (sh : Bool) (t : List Call) (x : Call) (ht : Guarded sh t)
    (hx : GuardedAt sh t x) : Guarded sh (t ++ [x]) := by
  intro pre y post h
  rcases List.eq_nil_or_concat post with hp | ⟨L, z, hp⟩
  · subst hp
    have h1 := List.append_inj' h rfl
    obtain ⟨h2, h3⟩ := h1
    simp only [List.cons.injEq, and_true] at h3
    subst h2; subst h3
    exact hx
  · subst hp
    have h0 : t ++ [x] = (pre ++ y :: L) ++ [z] := by simp [h]
    have h1 := List.append_inj' h0 rfl
    exact ht pre y L h1.1

theorem Guarded_append_pkg (sh : Bool) (f : List Call) (hf : ∀ x ∈ f, isPkgCall x = true) :
    ∀ t, Guarded sh t → Guarded sh (t ++ f) := by
  induction f with
  | nil => intro t ht; simpa using ht
  | cons x f ih =>
    intro t ht
    have hx := hf x (List.mem_cons_self _ _)
    have h1 : Guarded sh (t ++ [x]) := by
      apply Guarded_snoc sh t x ht
      cases x <;> simp_all [GuardedAt, isPkgCall]
    have h2 := ih (fun y hy => hf y (List.mem_cons_of_mem _ hy)) (t ++ [x]) h1
    simpa using h2


/-! ## The loop of `ProcessBlock` -/

theorem execMain_spec {W : Type} (ch : Chain W) (sh : Bool) (w : W) (b : Block) :
    (mainExecs [(execMain ch sh w b).2.1] = if (execMain ch sh w b).2.2 then [b] else []) ∧
    (sh = true → insertBlockCalls [(execMain ch sh w b).2.1] =
      mainExecs [(execMain ch sh w b).2.1]) ∧
    ((execMain ch sh w b).2.1 = Call.insertBlock b ∨
      ∃ ok, (execMain ch sh w b).2.1 = Call.insertPastBlock b ok) := by
  unfold execMain
  cases sh
  · simp only [Bool.false_eq_true, if_false]
    cases h : (ch.insertPastBlock w b).2 <;> simp [mainExecs, insertBlockCalls]
  · simp [mainExecs, insertBlockCalls]

theorem loopBody_spec {W : Type} (ch : Chain W) (hs : List HashElem) (sh : Bool)
    (st : LoopState W) (b : Block) (hi : st.index < hs.length) :
    (loopBody ch hs sh st b).2 ≠ Ctl.panicked ∧
    ((loopBody ch hs sh st b).2 = Ctl.next → (loopBody ch hs sh st b).1.index < hs.length) ∧
    ∃ seg, (loopBody ch hs sh st b).1.trace = st.trace ++ seg ∧
      (sh = true → insertBlockCalls seg = mainExecs seg) ∧
      (((loopBody ch hs sh st b).1.index = st.index ∧ mainExecs seg = []) ∨
       ((loopBody ch hs sh st b).1.index = st.index + 1 ∧ mainExecs seg = [b] ∧
          (hs[st.index]?).map HashElem.hash = some b.fullHash)) := by
  have hcur : hs[st.index]? = some hs[st.index] := by simp [hi]
  have hf := processFutureTxPackages_pkg ch
    (execMain ch sh (ch.insertBlockNoCheck
      (ch.verifyBlock (ch.verifyBlockDepend st.world b).1 b sh).1 b) b).1 b.fullHash
  have hfm := mainExecs_of_pkg _ hf
  have hfi := insertBlockCalls_of_pkg _ hf
  obtain ⟨he1, he2, he3⟩ := execMain_spec ch sh (ch.insertBlockNoCheck
      (ch.verifyBlock (ch.verifyBlockDepend st.world b).1 b sh).1 b) b
  simp only [loopBody, hcur]
  split_ifs with h1 h2 h3 h4 h5 h6
  · exact ⟨by simp, fun _ => hi, [], by simp, by simp [insertBlockCalls, mainExecs],
      Or.inl ⟨rfl, rfl⟩⟩
  · exact ⟨by simp, fun _ => hi, _, rfl, by simp [insertBlockCalls, mainExecs],
      Or.inl ⟨rfl, rfl⟩⟩
  · exact ⟨by simp, fun _ => hi, _, rfl, by simp [insertBlockCalls, mainExecs],
      Or.inl ⟨rfl, rfl⟩⟩
  · refine ⟨by simp, by simp, _, by simp only [List.append_assoc]; rfl, ?_, Or.inl ⟨rfl, ?_⟩⟩
    · intro hsh
      simp only [insertBlockCalls_append, mainExecs_append, hfm, hfi, he2 hsh]
      simp [insertBlockCalls, mainExecs]
    · simp only [mainExecs_append, hfm, he1, h5]
      simp [mainExecs]
  · have h5t : (execMain ch sh (ch.insertBlockNoCheck
      (ch.verifyBlock (ch.verifyBlockDepend st.world b).1 b sh).1 b) b).2.2 = true := by
      simpa using h5
    refine ⟨by simp, by simp, _, by simp only [List.append_assoc]; rfl, ?_,
      Or.inr ⟨rfl, ?_, by simp [h4]⟩⟩
    · intro hsh
      simp only [insertBlockCalls_append, mainExecs_append, hfm, hfi, he2 hsh]
      simp [insertBlockCalls, mainExecs]
    · simp only [mainExecs_append, hfm, he1, h5t]
      simp [mainExecs]
  · have h5t : (execMain ch sh (ch.insertBlockNoCheck
      (ch.verifyBlock (ch.verifyBlockDepend st.world b).1 b sh).1 b) b).2.2 = true := by
      simpa using h5
    refine ⟨by simp, fun _ => by simpa using h6, _, by simp only [List.append_assoc]; rfl, ?_,
      Or.inr ⟨rfl, ?_, by simp [h4]⟩⟩
    · intro hsh
      simp only [insertBlockCalls_append, mainExecs_append, hfm, hfi, he2 hsh]
      simp [insertBlockCalls, mainExecs]
    · simp only [mainExecs_append, hfm, he1, h5t]
      simp [mainExecs]
  · exact ⟨by simp, fun _ => hi, _, rfl, by simp [insertBlockCalls, mainExecs],
      Or.inl ⟨rfl, rfl⟩⟩

theorem slice_step {α β : Type} (f : α → β) (hs : List α) (i j : Nat) (h : i < hs.length)
    (hij : i + 1 ≤ j) :
    ((hs.drop i).take (j - i)).map f = f hs[i] :: ((hs.drop (i + 1)).take (j - (i + 1))).map f := by
  rw [List.drop_eq_getElem_cons h]
  have h1 : j - i = (j - (i + 1)) + 1 := by omega
  rw [h1, List.take_succ_cons]
  simp

theorem slice_split {α β : Type} (f : α → β) (hs : List α) (i k j : Nat) (hik : i ≤ k)
    (hkj : k ≤ j) :
    ((hs.drop i).take (k - i)).map f ++ ((hs.drop k).take (j - k)).map f =
      ((hs.drop i).take (j - i)).map f := by
  have h1 : j - i = (k - i) + (j - k) := by omega
  rw [h1, List.take_add, List.map_append, List.drop_drop]
  have h2 : i + (k - i) = k := by omega
  rw [h2]

theorem loop_spec {W : Type} (ch : Chain W) (hs : List HashElem) (sh : Bool) (l : List Block) :
    ∀ st : LoopState W, st.index < hs.length →
      (loop ch hs sh l st).2 ≠ Ctl.panicked ∧
      st.index ≤ (loop ch hs sh l st).1.index ∧
      (loop ch hs sh l st).1.index ≤ hs.length ∧
      ∃ seg, (loop ch hs sh l st).1.trace = st.trace ++ seg ∧
        (sh = true → insertBlockCalls seg = mainExecs seg) ∧
        (mainExecs seg).map Block.fullHash =
          ((hs.drop st.index).take ((loop ch hs sh l st).1.index - st.index)).map HashElem.hash := by
  induction l with
  | nil =>
    intro st hi
    exact ⟨by simp [loop], le_refl _, le_of_lt hi, [], by simp [loop], by simp [insertBlockCalls, mainExecs],
      by simp [loop, mainExecs]⟩
  | cons b rest ih =>
    intro st hi
    obtain ⟨hb1, hb2, seg1, hb3, hb4, hb5⟩ := loopBody_spec ch hs sh st b hi
    have hidx : st.index ≤ (loopBody ch hs sh st b).1.index ∧
        (loopBody ch hs sh st b).1.index ≤ hs.length := by
      rcases hb5 with ⟨h, _⟩ | ⟨h, _⟩ <;> omega
    have hseg1 : (mainExecs seg1).map Block.fullHash =
        ((hs.drop st.index).take ((loopBody ch hs sh st b).1.index - st.index)).map
          HashElem.hash := by
      rcases hb5 with ⟨h, hm⟩ | ⟨h, hm, hh⟩
      · simp [h, hm]
      · rw [h, hm, slice_step HashElem.hash hs st.index _ hi (le_refl _)]
        simp only [List.getElem?_eq_getElem hi, Option.map_some', Option.some.injEq] at hh
        simp [hh]
    unfold loop
    cases hc : loopBody ch hs sh st b with
    | mk st1 ctl =>
      rw [hc] at hb1 hb2 hb3 hidx hseg1
      simp only at hb1 hb2 hb3 hidx hseg1
      cases ctl with
      | panicked => exact absurd rfl hb1
      | stop =>
        exact ⟨by simp, hidx.1, hidx.2, seg1, hb3, hb4, hseg1⟩
      | next =>
        simp only
        have hi1 := hb2 rfl
        obtain ⟨i1, i2, i3, seg2, i4, i5, i6⟩ := ih st1 hi1
        refine ⟨i1, le_trans hidx.1 i2, i3, seg1 ++ seg2, ?_, ?_, ?_⟩
        · rw [i4, hb3, List.append_assoc]
        · intro hsh
          rw [insertBlockCalls_append, mainExecs_append, hb4 hsh, i5 hsh]
        · rw [mainExecs_append, List.map_append, hseg1, i6]
          exact slice_split HashElem.hash hs st.index st1.index _ hidx.1 i2

/-! ## One `ProcessBlock` call -/

theorem loop_panics {W : Type} (ch : Chain W) (hs : List HashElem) (sh : Bool) (l : List Block)
    (st : LoopState W) (hi : hs.length ≤ st.index) (hl : l ≠ []) :
    loop ch hs sh l st = (st, Ctl.panicked) := by
  cases l with
  | nil => exact absurd rfl hl
  | cons b rest =>
    have hnone : hs[st.index]? = none := by simp [hi]
    simp [loop, loopBody, hnone]

theorem SortByRoundHash_ne_nil (l : List Block) (b : Block) : SortByRoundHash (l ++ [b]) ≠ [] := by
  intro h
  have h1 := congrArg List.length h
  simp [SortByRoundHash, List.length_insertionSort] at h1

/-- Unfolding of `ProcessBlock` when the block passes `checkBlock` and the loop does not panic. -/
theorem ProcessBlock_ok_eq {W : Type} (ch : Chain W) (c : Cursor) (w : W) (b : Block)
    (e : HashElem) (he : getIndexHashElem c = some e)
    (hck : checkBlock c.hashElems b = CheckResult.ok)
    (hp : (loopOf ch c w b).2 ≠ Ctl.panicked) :
    ProcessBlock ch c w b =
      { cursor :=
          if (loopOf ch c w b).1.index ≥ c.hashElems.length then
            Finish { c with blocks := (loopOf ch c w b).1.blocks,
                            index := (loopOf ch c w b).1.index }
          else { c with blocks := (loopOf ch c w b).1.blocks,
                        index := (loopOf ch c w b).1.index },
        world := (loopOf ch c w b).1.world,
        trace := (loopOf ch c w b).1.trace,
        ret := Ret.ok } := by
  unfold loopOf at hp ⊢
  unfold ProcessBlock
  simp only [he, hck]

/-- Unfolding of `ProcessBlock` when the block passes `checkBlock` and the loop panics. -/
theorem ProcessBlock_panic_eq {W : Type} (ch : Chain W) (c : Cursor) (w : W) (b : Block)
    (e : HashElem) (he : getIndexHashElem c = some e)
    (hck : checkBlock c.hashElems b = CheckResult.ok)
    (hp : (loopOf ch c w b).2 = Ctl.panicked) :
    ProcessBlock ch c w b =
      { cursor := { c with blocks := SortByRoundHash (c.blocks ++ [b]),
                           index := (loopOf ch c w b).1.index },
        world := (loopOf ch c w b).1.world,
        trace := (loopOf ch c w b).1.trace,
        ret := Ret.panicked } := by
  unfold loopOf at hp ⊢
  unfold ProcessBlock
  simp only [he, hck]
  rw [hp]

/-- Effect of one `ProcessBlock` call on a cursor whose index is within `hashElems`. -/
theorem ProcessBlock_spec {W : Type} (ch : Chain W) (c : Cursor) (w : W) (b : Block)
    (hne : c.hashElems ≠ []) (hle : c.index ≤ c.hashElems.length) :
    (ProcessBlock ch c w b).cursor.hashElems = c.hashElems ∧
    (ProcessBlock ch c w b).cursor.setHead = c.setHead ∧
    c.index ≤ (ProcessBlock ch c w b).cursor.index ∧
    (ProcessBlock ch c w b).cursor.index ≤ c.hashElems.length ∧
    (c.setHead = true →
      insertBlockCalls (ProcessBlock ch c w b).trace = mainExecs (ProcessBlock ch c w b).trace) ∧
    (mainExecs (ProcessBlock ch c w b).trace).map Block.fullHash =
      ((c.hashElems.drop c.index).take ((ProcessBlock ch c w b).cursor.index - c.index)).map
        HashElem.hash ∧
    ((c.finished = 1 ↔ c.index = c.hashElems.length) →
      ((ProcessBlock ch c w b).cursor.finished = 1 ↔
        (ProcessBlock ch c w b).cursor.index = c.hashElems.length)) ∧
    ((c.finished = 1 → c.running = 0) →
      ((ProcessBlock ch c w b).cursor.finished = 1 → (ProcessBlock ch c w b).cursor.running = 0)) := by
  obtain ⟨e, he⟩ := getIndexHashElem_isSome c hne
  cases hck : checkBlock c.hashElems b with
  | panicked => exact absurd hck (checkBlock_ne_panicked _ _ hne)
  | err msg =>
    rw [ProcessBlock_of_check_err ch c w b msg hck]
    simp [insertBlockCalls, mainExecs, hle]
  | ok =>
    rcases Nat.lt_or_ge c.index c.hashElems.length with hlt | hge
    · obtain ⟨l1, l2, l3, seg, l4, l5, l6⟩ := loop_spec ch c.hashElems c.setHead
        (SortByRoundHash (c.blocks ++ [b]))
        { world := w, index := c.index, blocks := SortByRoundHash (c.blocks ++ [b]), trace := [] }
        hlt
      simp only [List.nil_append] at l4 l2 l6
      rw [ProcessBlock_ok_eq ch c w b e he hck l1]
      have l4a : (loopOf ch c w b).1.trace = seg := l4
      have l2a : c.index ≤ (loopOf ch c w b).1.index := l2
      have l3a : (loopOf ch c w b).1.index ≤ c.hashElems.length := l3
      have l6a : List.map Block.fullHash (mainExecs seg) = List.map HashElem.hash
        (List.take ((loopOf ch c w b).1.index - c.index) (List.drop c.index c.hashElems)) := l6
      simp only [l4a]
      by_cases hfi : (loopOf ch c w b).1.index ≥ c.hashElems.length
      · rw [if_pos hfi]
        refine ⟨rfl, rfl, l2a, l3a, l5, l6a, fun _ => ?_, fun _ _ => rfl⟩
        simp only [Finish, close, true_iff]
        omega
      · rw [if_neg hfi]
        refine ⟨rfl, rfl, l2a, l3a, l5, l6a, fun hfin => ?_, fun hrun => hrun⟩
        constructor
        · intro h1
          have := hfin.mp h1
          omega
        · intro h1
          simp only at h1
          omega
    · have hp : loopOf ch c w b = (_, Ctl.panicked) :=
        loop_panics ch c.hashElems c.setHead (SortByRoundHash (c.blocks ++ [b]))
        { world := w, index := c.index, blocks := SortByRoundHash (c.blocks ++ [b]), trace := [] }
        hge (SortByRoundHash_ne_nil _ _)
      rw [ProcessBlock_panic_eq ch c w b e he hck (by rw [hp]), hp]
      simp [insertBlockCalls, mainExecs, hle]

/-! ## Sequences of calls -/

theorem feedAll_nil {W : Type} (ch : Chain W) (s : Run W) : feedAll ch s [] = s := rfl

theorem feedAll_cons {W : Type} (ch : Chain W) (s : Run W) (b : Block) (bs : List Block) :
    feedAll ch s (b :: bs) = feedAll ch (feed ch s b) bs := rfl

theorem feedAll_append {W : Type} (ch : Chain W) (s : Run W) (bs cs : List Block) :
    feedAll ch s (bs ++ cs) = feedAll ch (feedAll ch s bs) cs := by
  simp [feedAll, List.foldl_append]

theorem RunInv_init {W : Type} (hs : List HashElem) (sh : Bool) (rl : Int) (w : W)
    (started : Bool) (hne : hs ≠ []) :
    RunInv hs sh
      (newRun hs sh rl started w) := by
  have hlen : 0 < hs.length := List.length_pos.mpr hne
  unfold newRun
  cases started
  · exact ⟨rfl, rfl, Nat.zero_le _, by simp [NewCursor]; omega, by simp [NewCursor],
      fun _ => rfl, by simp [NewCursor, mainExecs]⟩
  · exact ⟨rfl, rfl, Nat.zero_le _, by simp [NewCursor, Start]; omega, by simp [NewCursor, Start],
      fun _ => rfl, by simp [NewCursor, Start, mainExecs]⟩

theorem RunInv_feed {W : Type} (ch : Chain W) (hs : List HashElem) (sh : Bool) (s : Run W)
    (b : Block) (hne : hs ≠ []) (h : RunInv hs sh s) : RunInv hs sh (feed ch s b) := by
  obtain ⟨i1, i2, i3, i4, i5, i6, i7⟩ := h
  have hne1 : s.cursor.hashElems ≠ [] := by rw [i1]; exact hne
  obtain ⟨p1, p2, p3, p4, p5, p6, p7, p8⟩ :=
    ProcessBlock_spec ch s.cursor s.world b hne1 (by rw [i1]; exact i3)
  rw [i1] at p1 p4 p6 p7
  rw [i2] at p2 p5
  refine ⟨p1, p2, p4, p7 i4, p8 i5, ?_, ?_⟩
  · intro hsh
    simp only [feed, insertBlockCalls_append, mainExecs_append, i6 hsh, p5 hsh]
  · simp only [feed, mainExecs_append, List.map_append, i7, p6]
    have h0 := slice_split HashElem.hash hs 0 s.cursor.index
      (ProcessBlock ch s.cursor s.world b).cursor.index (Nat.zero_le _) p3
    simpa using h0

theorem RunInv_feedAll {W : Type} (ch : Chain W) (hs : List HashElem) (sh : Bool)
    (hne : hs ≠ []) (bs : List Block) :
    ∀ s : Run W, RunInv hs sh s → RunInv hs sh (feedAll ch s bs) := by
  induction bs with
  | nil => intro s h; exact h
  | cons b bs ih => intro s h; exact ih _ (RunInv_feed ch hs sh s b hne h)


/-! ## Claims -/

/-- C1 (ordering). For a cursor created with `setHead = true` over a non-empty hash list,
after any sequence of `ProcessBlock` calls the blocks passed to `InsertBlock`, in call
order, have exactly the full hashes `hashElems[0..index-1]`: the k-th call is for
`hashElems[k].Hash`, and once the cursor is finished the calls cover the whole list. -/
theorem C1_insertBlock_order {W : Type} (ch : Chain W) (hs : List HashElem) (rl : Int)
    (started : Bool) (w : W) (bs : List Block) (hne : hs ≠ []) :
    (insertBlockCalls (feedAll ch (newRun hs true rl started w) bs).trace).map Block.fullHash =
      (hs.take (feedAll ch (newRun hs true rl started w) bs).cursor.index).map HashElem.hash ∧
    (∀ (k : Nat) (b : Block), (insertBlockCalls (feedAll ch (newRun hs true rl started w) bs).trace)[k]? = some b →
      (hs[k]?).map HashElem.hash = some b.fullHash) ∧
    (IsFinished (feedAll ch (newRun hs true rl started w) bs).cursor = true →
      (insertBlockCalls (feedAll ch (newRun hs true rl started w) bs).trace).map Block.fullHash =
        hs.map HashElem.hash) := by
  have inv := RunInv_feedAll ch hs true hne bs _ (RunInv_init hs true rl w started hne)
  have h1 : (insertBlockCalls (feedAll ch (newRun hs true rl started w) bs).trace).map
      Block.fullHash =
      (hs.take (feedAll ch (newRun hs true rl started w) bs).cursor.index).map HashElem.hash := by
    rw [inv.insertBlock_eq rfl]
    exact inv.execs_eq
  refine ⟨h1, ?_, ?_⟩
  · intro k b hk
    have h2 := congrArg (fun l => l[k]?) h1
    simp only [List.getElem?_map, hk, Option.map_some'] at h2
    rw [List.getElem?_take] at h2
    split_ifs at h2 with hlt
    · exact h2.symm
    · simp at h2
  · intro hfin
    rw [h1]
    have h3 : (feedAll ch (newRun hs true rl started w) bs).cursor.index = hs.length :=
      inv.finished_iff.mp (by simpa [IsFinished] using hfin)
    rw [h3, List.take_length]

theorem C1_insertBlock_order_witness :
    hashList3 ≠ [] ∧
    (insertBlockCalls (feedAll acceptAll (newRun hashList3 true 0 true ()) [H2, H3, H1]).trace).map
        Block.fullHash =
      (hashList3.take
        (feedAll acceptAll (newRun hashList3 true 0 true ()) [H2, H3, H1]).cursor.index).map
        HashElem.hash :=
  ⟨by decide, (C1_insertBlock_order acceptAll hashList3 0 true () [H2, H3, H1] (by decide)).1⟩

/-- C2 (index invariant). On a cursor reached from `NewCursor` by `ProcessBlock` calls, one
more call never lowers the index and never takes it past `len(hashElems)`; the index
grows by exactly the number of main-chain executions of the call (`InsertBlock`, or
`InsertPastBlock` that returned no error), and these executions are, in order, of blocks
with the full hashes `hashElems[old index], ..., hashElems[new index - 1]`. -/
theorem C2_index_invariant {W : Type} (ch : Chain W) (hs : List HashElem) (sh : Bool) (rl : Int)
    (started : Bool) (w : W) (bs : List Block) (b : Block) (hne : hs ≠ []) :
    (feedAll ch (newRun hs sh rl started w) bs).cursor.index ≤
      (feedAll ch (newRun hs sh rl started w) (bs ++ [b])).cursor.index ∧
    (feedAll ch (newRun hs sh rl started w) (bs ++ [b])).cursor.index ≤ hs.length ∧
    (feedAll ch (newRun hs sh rl started w) (bs ++ [b])).cursor.index =
      (feedAll ch (newRun hs sh rl started w) bs).cursor.index +
        (mainExecs (ProcessBlock ch (feedAll ch (newRun hs sh rl started w) bs).cursor
          (feedAll ch (newRun hs sh rl started w) bs).world b).trace).length ∧
    (mainExecs (ProcessBlock ch (feedAll ch (newRun hs sh rl started w) bs).cursor
        (feedAll ch (newRun hs sh rl started w) bs).world b).trace).map Block.fullHash =
      ((hs.drop (feedAll ch (newRun hs sh rl started w) bs).cursor.index).take
        ((feedAll ch (newRun hs sh rl started w) (bs ++ [b])).cursor.index -
          (feedAll ch (newRun hs sh rl started w) bs).cursor.index)).map HashElem.hash := by
  have inv := RunInv_feedAll ch hs sh hne bs _ (RunInv_init hs sh rl w started hne)
  have hne1 : (feedAll ch (newRun hs sh rl started w) bs).cursor.hashElems ≠ [] := by
    rw [inv.hashElems_eq]; exact hne
  obtain ⟨p1, p2, p3, p4, p5, p6, p7, p8⟩ :=
    ProcessBlock_spec ch (feedAll ch (newRun hs sh rl started w) bs).cursor
      (feedAll ch (newRun hs sh rl started w) bs).world b hne1
      (by rw [inv.hashElems_eq]; exact inv.index_le)
  rw [inv.hashElems_eq] at p4 p6
  have hstep : (feedAll ch (newRun hs sh rl started w) (bs ++ [b])).cursor =
      (ProcessBlock ch (feedAll ch (newRun hs sh rl started w) bs).cursor
        (feedAll ch (newRun hs sh rl started w) bs).world b).cursor := by
    rw [feedAll_append]; rfl
  rw [hstep]
  refine ⟨p3, p4, ?_, p6⟩
  have hl := congrArg List.length p6
  simp only [List.length_map, List.length_take, List.length_drop] at hl
  omega

theorem C2_index_invariant_witness :
    hashList3 ≠ [] ∧
    (feedAll acceptAll (newRun hashList3 false 0 true ()) [H2, H3]).cursor.index ≤
      (feedAll acceptAll (newRun hashList3 false 0 true ()) ([H2, H3] ++ [H1])).cursor.index :=
  ⟨by decide, (C2_index_invariant acceptAll hashList3 false 0 true () [H2, H3] H1 (by decide)).1⟩


theorem Guarded_verified (sh : Bool) (t : List Call) (b : Block) (ht : Guarded sh t) :
    Guarded sh (t ++ [Call.verifyBlockDepend b true, Call.verifyBlock b sh true,
      Call.insertBlockNoCheck b]) := by
  have h1 : Guarded sh (t ++ [Call.verifyBlockDepend b true]) :=
    Guarded_snoc sh t _ ht trivial
  have h2 : Guarded sh (t ++ [Call.verifyBlockDepend b true] ++ [Call.verifyBlock b sh true]) :=
    Guarded_snoc sh _ _ h1 trivial
  have h3 := Guarded_snoc sh _ (Call.insertBlockNoCheck b) h2 ⟨t, by simp⟩
  simpa using h3

theorem loopBody_guarded {W : Type} (ch : Chain W) (hs : List HashElem) (sh : Bool)
    (st : LoopState W) (b : Block) (ht : Guarded sh st.trace) :
    Guarded sh (loopBody ch hs sh st b).1.trace := by
  obtain ⟨_, _, he3⟩ := execMain_spec ch sh (ch.insertBlockNoCheck
      (ch.verifyBlock (ch.verifyBlockDepend st.world b).1 b sh).1 b) b
  have hf := processFutureTxPackages_pkg ch
    (execMain ch sh (ch.insertBlockNoCheck
      (ch.verifyBlock (ch.verifyBlockDepend st.world b).1 b sh).1 b) b).1 b.fullHash
  have hv := Guarded_verified sh st.trace b ht
  have hfail : Guarded sh (st.trace ++ [Call.verifyBlockDepend b true,
      Call.verifyBlock b sh false]) := by
    have h1 : Guarded sh (st.trace ++ [Call.verifyBlockDepend b true]) :=
      Guarded_snoc sh _ _ ht trivial
    have h2 := Guarded_snoc sh _ (Call.verifyBlock b sh false) h1 trivial
    simpa using h2
  have hexec : Guarded sh (st.trace ++ [Call.verifyBlockDepend b true, Call.verifyBlock b sh true,
      Call.insertBlockNoCheck b] ++ [(execMain ch sh (ch.insertBlockNoCheck
      (ch.verifyBlock (ch.verifyBlockDepend st.world b).1 b sh).1 b) b).2.1] ++
      (processFutureTxPackages ch (execMain ch sh (ch.insertBlockNoCheck
      (ch.verifyBlock (ch.verifyBlockDepend st.world b).1 b sh).1 b) b).1 b.fullHash).2) := by
    apply Guarded_append_pkg sh _ hf
    apply Guarded_snoc sh _ _ hv
    rcases he3 with h | ⟨ok, h⟩
    · rw [h]; exact ⟨st.trace, rfl⟩
    · rw [h]; exact ⟨st.trace, rfl⟩
  unfold loopBody
  split
  · exact ht
  · simp only []
    split_ifs
    · exact ht
    · exact Guarded_snoc sh _ _ ht trivial
    · exact hfail
    · exact hexec
    · exact hexec
    · exact hexec
    · exact hv

theorem loop_guarded {W : Type} (ch : Chain W) (hs : List HashElem) (sh : Bool) (l : List Block) :
    ∀ st : LoopState W, Guarded sh st.trace → Guarded sh (loop ch hs sh l st).1.trace := by
  induction l with
  | nil => intro st h; exact h
  | cons b rest ih =>
    intro st h
    have hb := loopBody_guarded ch hs sh st b h
    unfold loop
    cases hc : loopBody ch hs sh st b with
    | mk st1 ctl =>
      rw [hc] at hb
      cases ctl with
      | next => exact ih st1 hb
      | stop => exact hb
      | panicked => exact hb

theorem ProcessBlock_trace_cases {W : Type} (ch : Chain W) (c : Cursor) (w : W) (b : Block) :
    (ProcessBlock ch c w b).trace = [] ∨
      (ProcessBlock ch c w b).trace = (loopOf ch c w b).1.trace := by
  unfold ProcessBlock loopOf
  split
  · exact Or.inl rfl
  · split
    · exact Or.inl rfl
    · exact Or.inl rfl
    · simp only []
      split <;> exact Or.inr rfl

theorem ProcessBlock_guarded {W : Type} (ch : Chain W) (c : Cursor) (w : W) (b : Block) :
    Guarded c.setHead (ProcessBlock ch c w b).trace := by
  rcases ProcessBlock_trace_cases ch c w b with h | h
  · rw [h]; exact Guarded_nil _
  · rw [h]; exact loop_guarded ch c.hashElems c.setHead _ _ (Guarded_nil _)

/-- C4 (dependency discipline). In the call log of any `ProcessBlock` call, every
`InsertBlockNoCheck(b)` is directly preceded by `VerifyBlockDepend(b)` and
`VerifyBlock(b, setHead)` that both returned no error, and every `InsertBlock(b)` or
`InsertPastBlock(b)` is directly preceded by these two and the `InsertBlockNoCheck(b)`
of the same iteration; so no block that failed a check is inserted. -/
theorem C4_dependency_discipline {W : Type} (ch : Chain W) (c : Cursor) (w : W) (b : Block) :
    (∀ (pre post : List Call) (x : Block),
      (ProcessBlock ch c w b).trace = pre ++ Call.insertBlockNoCheck x :: post →
      ∃ p0, pre = p0 ++ [Call.verifyBlockDepend x true, Call.verifyBlock x c.setHead true]) ∧
    (∀ (pre post : List Call) (x : Block),
      (ProcessBlock ch c w b).trace = pre ++ Call.insertBlock x :: post →
      ∃ p0, pre = p0 ++ [Call.verifyBlockDepend x true, Call.verifyBlock x c.setHead true,
        Call.insertBlockNoCheck x]) ∧
    (∀ (pre post : List Call) (x : Block) (ok : Bool),
      (ProcessBlock ch c w b).trace = pre ++ Call.insertPastBlock x ok :: post →
      ∃ p0, pre = p0 ++ [Call.verifyBlockDepend x true, Call.verifyBlock x c.setHead true,
        Call.insertBlockNoCheck x]) := by
  have hg := ProcessBlock_guarded ch c w b
  exact ⟨fun pre post x h => hg pre _ post h, fun pre post x h => hg pre _ post h,
    fun pre post x ok h => hg pre _ post h⟩

theorem C4_dependency_discipline_witness :
    ∃ p0, [Call.verifyBlockDepend H1 true, Call.verifyBlock H1 true true,
        Call.insertBlockNoCheck H1] =
      p0 ++ [Call.verifyBlockDepend H1 true, Call.verifyBlock H1 true true,
        Call.insertBlockNoCheck H1] :=
  (C4_dependency_discipline acceptAll (NewCursor hashList3 true 0) () H1).2.1
    [Call.verifyBlockDepend H1 true, Call.verifyBlock H1 true true, Call.insertBlockNoCheck H1]
    [Call.futureBlockTxPackages 1] H1 (by decide)


/-- C6, as stated, fails: with `hashElems[0].Height = 100` a block at height 90 lies in
the range `h0 - 10 <= height < h0` that the claim accepts, and `90 + 10 < 100` is false,
yet `checkBlock` rejects it as too low. -/
theorem C6_lower_bound_counterexample :
    checkBlock [{ height := 100, round := 10, hash := 1 }] { height := 90, round := 9, fullHash := 7 }
      = CheckResult.err "block too low" ∧
    ¬ (90 + checkHeightMaxDiff < 100) ∧ (100 - checkHeightMaxDiff ≤ 90 ∧ 90 < 100) := by
  decide

/-- C6 (lower height bound, amended). With `h0 = hashElems[0].Height`, `checkBlock` and
`ProcessBlock` reject a block as too low exactly when `block.Height + 10 <= h0`
(`block.Height <= h0 - checkHeightMaxDiff`), and `checkBlock` accepts every block with
`h0 - 10 < block.Height < h0`. -/
theorem C6_lower_bound {W : Type} (ch : Chain W) (c : Cursor) (w : W) (h0 : HashElem)
    (rest : List HashElem) (b : Block) (hc : c.hashElems = h0 :: rest) :
    (checkBlock c.hashElems b = CheckResult.err "block too low" ↔
      b.height + checkHeightMaxDiff ≤ h0.height) ∧
    ((ProcessBlock ch c w b).ret = Ret.err "block too low" ↔
      b.height + checkHeightMaxDiff ≤ h0.height) ∧
    (h0.height < b.height + checkHeightMaxDiff ∧ b.height < h0.height →
      checkBlock c.hashElems b = CheckResult.ok) := by
  have hne : c.hashElems ≠ [] := by rw [hc]; simp
  refine ⟨?_, ?_, ?_⟩
  · rw [hc]; exact checkBlock_tooLow_iff h0 rest b
  · rw [ProcessBlock_ret_err_iff ch c w b _ hne, hc]
    exact checkBlock_tooLow_iff h0 rest b
  · intro h
    rw [hc, checkBlock_ok_iff]
    simp only [List.length_cons]
    omega

theorem C6_lower_bound_witness :
    (NewCursor hashList3 true 0).hashElems =
      { height := 100, round := 10, hash := 1 } ::
        [{ height := 101, round := 12, hash := 2 }, { height := 102, round := 15, hash := 3 }] ∧
    ((ProcessBlock acceptAll (NewCursor hashList3 true 0) ()
        { height := 90, round := 9, fullHash := 7 }).ret = Ret.err "block too low" ↔
      90 + checkHeightMaxDiff ≤ 100) :=
  ⟨rfl, (C6_lower_bound acceptAll (NewCursor hashList3 true 0) ()
    { height := 100, round := 10, hash := 1 } _ { height := 90, round := 9, fullHash := 7 } rfl).2.1⟩

/-- C7, as stated, fails: for a one-element hash list with `hashElems[0].Height = 100` a
block at height `101 = h0 + len(hashElems)` is in the range the claim accepts, and
`101 > h0 + len(hashElems)` is false, yet `checkBlock` rejects it as too high. -/
theorem C7_upper_bound_counterexample :
    checkBlock [{ height := 100, round := 10, hash := 1 }]
      { height := 101, round := 11, fullHash := 7 } = CheckResult.err "block is too high" ∧
    ¬ (101 > 100 + [({ height := 100, round := 10, hash := 1 } : HashElem)].length) ∧
    (100 ≤ 101 ∧ 101 ≤ 100 + [({ height := 100, round := 10, hash := 1 } : HashElem)].length) := by
  decide

/-- C7 (upper height bound, amended). With `h0 = hashElems[0].Height`, `checkBlock` and
`ProcessBlock` reject a block as too high exactly when
`block.Height >= h0 + len(hashElems)`, and `checkBlock` accepts every block with
`h0 <= block.Height < h0 + len(hashElems)`. -/
theorem C7_upper_bound {W : Type} (ch : Chain W) (c : Cursor) (w : W) (h0 : HashElem)
    (rest : List HashElem) (b : Block) (hc : c.hashElems = h0 :: rest) :
    (checkBlock c.hashElems b = CheckResult.err "block is too high" ↔
      h0.height + c.hashElems.length ≤ b.height) ∧
    ((ProcessBlock ch c w b).ret = Ret.err "block is too high" ↔
      h0.height + c.hashElems.length ≤ b.height) ∧
    (h0.height ≤ b.height ∧ b.height < h0.height + c.hashElems.length →
      checkBlock c.hashElems b = CheckResult.ok) := by
  have hne : c.hashElems ≠ [] := by rw [hc]; simp
  refine ⟨?_, ?_, ?_⟩
  · rw [hc]; exact checkBlock_tooHigh_iff h0 rest b
  · rw [ProcessBlock_ret_err_iff ch c w b _ hne, hc]
    exact checkBlock_tooHigh_iff h0 rest b
  · intro h
    rw [hc] at h ⊢
    rw [checkBlock_ok_iff]
    unfold checkHeightMaxDiff
    omega

theorem C7_upper_bound_witness :
    (NewCursor hashList3 true 0).hashElems =
      { height := 100, round := 10, hash := 1 } ::
        [{ height := 101, round := 12, hash := 2 }, { height := 102, round := 15, hash := 3 }] ∧
    ((ProcessBlock acceptAll (NewCursor hashList3 true 0) ()
        { height := 103, round := 16, fullHash := 7 }).ret = Ret.err "block is too high" ↔
      100 + (NewCursor hashList3 true 0).hashElems.length ≤ 103) :=
  ⟨rfl, (C7_upper_bound acceptAll (NewCursor hashList3 true 0) ()
    { height := 100, round := 10, hash := 1 } _ { height := 103, round := 16, fullHash := 7 }
    rfl).2.1⟩

/-- C9 (completion). For a cursor over a non-empty hash list that is driven by
`ProcessBlock` calls only (no `Finish` from outside), after every call `IsFinished()` is
true exactly when `index == len(hashElems)`, and a finished cursor is not running. -/
theorem C9_completion {W : Type} (ch : Chain W) (hs : List HashElem) (sh : Bool) (rl : Int)
    (started : Bool) (w : W) (bs : List Block) (hne : hs ≠ []) :
    (IsFinished (feedAll ch (newRun hs sh rl started w) bs).cursor = true ↔
      (feedAll ch (newRun hs sh rl started w) bs).cursor.index = hs.length) ∧
    (IsFinished (feedAll ch (newRun hs sh rl started w) bs).cursor = true →
      IsRunning (feedAll ch (newRun hs sh rl started w) bs).cursor = false) := by
  have inv := RunInv_feedAll ch hs sh hne bs _ (RunInv_init hs sh rl w started hne)
  constructor
  · rw [← inv.finished_iff]
    simp [IsFinished]
  · intro h
    have h1 := inv.not_running (by simpa [IsFinished] using h)
    simp [IsRunning, h1]

theorem C9_completion_witness :
    hashList3 ≠ [] ∧
    (IsFinished (feedAll acceptAll (newRun hashList3 true 0 true ()) [H2, H3, H1]).cursor = true ↔
      (feedAll acceptAll (newRun hashList3 true 0 true ()) [H2, H3, H1]).cursor.index =
        hashList3.length) :=
  ⟨by decide, (C9_completion acceptAll hashList3 true 0 true () [H2, H3, H1] (by decide)).1⟩

/-- C10 (range rejection is atomic). When `checkBlock` rejects the block, `ProcessBlock`
returns that error (too low or too high), makes no call on the chain or the packer, and
leaves the world and the whole cursor (block buffer, index, finished and running flags)
unchanged. -/
theorem C10_rejection_atomic {W : Type} (ch : Chain W) (c : Cursor) (w : W) (b : Block)
    (msg : String) (h : checkBlock c.hashElems b = CheckResult.err msg) :
    (ProcessBlock ch c w b).ret = Ret.err msg ∧
    (msg = "block too low" ∨ msg = "block is too high") ∧
    (ProcessBlock ch c w b).trace = [] ∧
    (ProcessBlock ch c w b).world = w ∧
    (ProcessBlock ch c w b).cursor = c := by
  rw [ProcessBlock_of_check_err ch c w b msg h]
  exact ⟨rfl, checkBlock_err_cases _ _ _ h, rfl, rfl, rfl⟩

theorem C10_rejection_atomic_witness :
    checkBlock (Start (NewCursor hashList3 true 0)).hashElems
      { height := 103, round := 16, fullHash := 7 } = CheckResult.err "block is too high" ∧
    (ProcessBlock acceptAll (Start (NewCursor hashList3 true 0)) ()
      { height := 103, round := 16, fullHash := 7 }).cursor = Start (NewCursor hashList3 true 0) :=
  ⟨by decide, (C10_rejection_atomic acceptAll (Start (NewCursor hashList3 true 0)) ()
    { height := 103, round := 16, fullHash := 7 } "block is too high" (by decide)).2.2.2.2⟩


theorem withHash_Remove_of_ne (h h1 : Hash) (l : List Block) (hne : h1 ≠ h) :
    withHash h (Remove l h1) = withHash h l := by
  induction l with
  | nil => rfl
  | cons x l ih =>
    unfold Remove withHash at ih ⊢
    by_cases hx : x.fullHash = h1
    · have hxh : ¬ x.fullHash = h := fun e => hne (hx.symm.trans e)
      simp [List.eraseP_cons, hx, List.filter_cons, hne]
    · simp only [List.eraseP_cons, hx, decide_False, cond_false, List.filter_cons]
      rw [ih]

theorem loopBody_keeps {W : Type} (ch : Chain W) (hs : List HashElem) (sh : Bool)
    (st : LoopState W) (b : Block) (h : Hash)
    (hfail : (∀ (w : W) (x : Block), x.fullHash = h → (ch.verifyBlockDepend w x).2 = false) ∨
      (∀ (w : W) (x : Block) (g : Bool), x.fullHash = h → (ch.verifyBlock w x g).2 = false)) :
    withHash h (loopBody ch hs sh st b).1.blocks = withHash h st.blocks ∧
    withHash h (insertNoCheckCalls (loopBody ch hs sh st b).1.trace) =
      withHash h (insertNoCheckCalls st.trace) := by
  have hf := insertNoCheckCalls_of_pkg _ (processFutureTxPackages_pkg ch
    (execMain ch sh (ch.insertBlockNoCheck
      (ch.verifyBlock (ch.verifyBlockDepend st.world b).1 b sh).1 b) b).1 b.fullHash)
  obtain ⟨_, _, he3⟩ := execMain_spec ch sh (ch.insertBlockNoCheck
      (ch.verifyBlock (ch.verifyBlockDepend st.world b).1 b sh).1 b) b
  have he : insertNoCheckCalls [(execMain ch sh (ch.insertBlockNoCheck
      (ch.verifyBlock (ch.verifyBlockDepend st.world b).1 b sh).1 b) b).2.1] = [] := by
    rcases he3 with e | ⟨ok, e⟩ <;> rw [e] <;> rfl
  unfold loopBody
  split
  · exact ⟨rfl, rfl⟩
  · simp only []
    split_ifs with h1 h2 h3 h4 h5 h6
    · exact ⟨rfl, rfl⟩
    · exact ⟨rfl, by simp [insertNoCheckCalls_append, insertNoCheckCalls]⟩
    · exact ⟨rfl, by simp [insertNoCheckCalls_append, insertNoCheckCalls]⟩
    all_goals
      have hbh : b.fullHash ≠ h := by
        intro e
        rcases hfail with hd | hv
        · exact h2 (hd _ b e)
        · exact h3 (hv _ b sh e)
      refine ⟨withHash_Remove_of_ne h _ _ hbh, ?_⟩
      simp only [insertNoCheckCalls_append, hf, he]
      simp [insertNoCheckCalls, withHash, hbh]

theorem loop_keeps {W : Type} (ch : Chain W) (hs : List HashElem) (sh : Bool) (h : Hash)
    (hfail : (∀ (w : W) (x : Block), x.fullHash = h → (ch.verifyBlockDepend w x).2 = false) ∨
      (∀ (w : W) (x : Block) (g : Bool), x.fullHash = h → (ch.verifyBlock w x g).2 = false))
    (l : List Block) :
    ∀ st : LoopState W,
      withHash h (loop ch hs sh l st).1.blocks = withHash h st.blocks ∧
      withHash h (insertNoCheckCalls (loop ch hs sh l st).1.trace) =
        withHash h (insertNoCheckCalls st.trace) := by
  induction l with
  | nil => intro st; exact ⟨rfl, rfl⟩
  | cons b rest ih =>
    intro st
    have hb := loopBody_keeps ch hs sh st b h hfail
    unfold loop
    cases hc : loopBody ch hs sh st b with
    | mk st1 ctl =>
      rw [hc] at hb
      cases ctl with
      | next =>
        have h2 := ih st1
        exact ⟨h2.1.trans hb.1, h2.2.trans hb.2⟩
      | stop => exact hb
      | panicked => exact hb


theorem ProcessBlock_ret_ok {W : Type} (ch : Chain W) (c : Cursor) (w : W) (b : Block)
    (h : (ProcessBlock ch c w b).ret = Ret.ok) :
    (ProcessBlock ch c w b).cursor.blocks = (loopOf ch c w b).1.blocks ∧
    (ProcessBlock ch c w b).trace = (loopOf ch c w b).1.trace := by
  cases he : getIndexHashElem c with
  | none => simp [ProcessBlock, he] at h
  | some e =>
    cases hck : checkBlock c.hashElems b with
    | panicked => simp [ProcessBlock, he, hck] at h
    | err msg => simp [ProcessBlock, he, hck] at h
    | ok =>
      by_cases hp : (loopOf ch c w b).2 = Ctl.panicked
      · rw [ProcessBlock_panic_eq ch c w b e he hck hp] at h
        cases h
      · rw [ProcessBlock_ok_eq ch c w b e he hck hp]
        constructor
        · simp only []
          split_ifs <;> rfl
        · rfl

theorem mem_SortByRoundHash (l : List Block) (x : Block) : x ∈ SortByRoundHash l ↔ x ∈ l :=
  (List.perm_insertionSort roundHashLE l).mem_iff

/-- C8, as stated, fails: on a chain whose `VerifyBlock` returns an error, `ProcessBlock`
of `H1` makes the two verification calls, returns `nil`, and `H1` is still in the block
buffer. -/
theorem C8_verify_failure_counterexample :
    (ProcessBlock rejectVerify (NewCursor hashList3 true 0) () H1).ret = Ret.ok ∧
    (ProcessBlock rejectVerify (NewCursor hashList3 true 0) () H1).trace =
      [Call.verifyBlockDepend H1 true, Call.verifyBlock H1 true false] ∧
    H1 ∈ (ProcessBlock rejectVerify (NewCursor hashList3 true 0) () H1).cursor.blocks := by
  decide

/-- C8 (verify failure, amended). A block for which `VerifyBlock` returns an error is
skipped silently and stays buffered, exactly like a block whose `VerifyBlockDepend`
fails: if the chain fails one of the two verifications for the blocks with full hash
`h`, then after a `ProcessBlock` call that returns `nil` every such block that was in
the buffer or was fed by the call is in the cursor's block buffer, and no
`InsertBlockNoCheck` was made for it. -/
theorem C8_verify_failure {W : Type} (ch : Chain W) (c : Cursor) (w : W) (b : Block) (h : Hash)
    (hfail : (∀ (w : W) (x : Block), x.fullHash = h → (ch.verifyBlockDepend w x).2 = false) ∨
      (∀ (w : W) (x : Block) (g : Bool), x.fullHash = h → (ch.verifyBlock w x g).2 = false))
    (hret : (ProcessBlock ch c w b).ret = Ret.ok) :
    (∀ x : Block, x.fullHash = h → (x ∈ c.blocks ∨ x = b) →
      x ∈ (ProcessBlock ch c w b).cursor.blocks) ∧
    (∀ x ∈ insertNoCheckCalls (ProcessBlock ch c w b).trace, x.fullHash ≠ h) := by
  obtain ⟨e1, e2⟩ := ProcessBlock_ret_ok ch c w b hret
  obtain ⟨k1, k2⟩ := loop_keeps ch c.hashElems c.setHead h hfail
    (SortByRoundHash (c.blocks ++ [b]))
    { world := w, index := c.index, blocks := SortByRoundHash (c.blocks ++ [b]), trace := [] }
  constructor
  · intro x hx hmem
    have h1 : x ∈ withHash h (SortByRoundHash (c.blocks ++ [b])) := by
      simp only [withHash, List.mem_filter, mem_SortByRoundHash, List.mem_append,
        List.mem_singleton, decide_eq_true_eq]
      exact ⟨hmem, hx⟩
    rw [e1]
    have h2 : x ∈ withHash h (loopOf ch c w b).1.blocks := by
      unfold loopOf
      rw [k1]
      exact h1
    exact (List.mem_filter.mp h2).1
  · intro x hx hxh
    rw [e2] at hx
    have h3 : x ∈ withHash h (insertNoCheckCalls (loopOf ch c w b).1.trace) := by
      simp only [withHash, List.mem_filter, decide_eq_true_eq]
      exact ⟨hx, hxh⟩
    unfold loopOf at h3
    rw [k2] at h3
    simp [withHash, insertNoCheckCalls] at h3

theorem C8_verify_failure_witness :
    (ProcessBlock rejectVerify (NewCursor hashList3 true 0) () H1).ret = Ret.ok ∧
    (∀ x : Block, x.fullHash = 1 → (x ∈ (NewCursor hashList3 true 0).blocks ∨ x = H1) →
      x ∈ (ProcessBlock rejectVerify (NewCursor hashList3 true 0) () H1).cursor.blocks) :=
  ⟨by decide, (C8_verify_failure rejectVerify (NewCursor hashList3 true 0) () H1 1
    (Or.inr (fun _ _ _ _ => rfl)) (by decide)).1⟩

/-- C5, as stated, fails: the cursor keeps no record of the blocks it has inserted.  With
a chain that accepts every verification, feeding `H1` twice calls `InsertBlockNoCheck(H1)`
twice; the second call makes the three calls shown. -/
theorem C5_idempotence_counterexample :
    insertNoCheckCalls (feedAll acceptAll (newRun hashList3 true 0 true ()) [H1, H1]).trace =
      [H1, H1] ∧
    (ProcessBlock acceptAll (feedAll acceptAll (newRun hashList3 true 0 true ()) [H1]).cursor ()
      H1).trace =
      [Call.verifyBlockDepend H1 true, Call.verifyBlock H1 true true,
       Call.insertBlockNoCheck H1] := by
  decide

/-- C5 (idempotence, amended). Over a hash list with pairwise distinct hashes, whatever
blocks are fed and however often, the main-chain executions (`InsertBlock`, and
`InsertPastBlock` that returned no error) have pairwise distinct full hashes: a block
fed twice is executed on the main chain at most once.  (`InsertBlockNoCheck` is repeated
whenever the chain accepts the block again.) -/
theorem C5_idempotence {W : Type} (ch : Chain W) (hs : List HashElem) (sh : Bool) (rl : Int)
    (started : Bool) (w : W) (bs : List Block) (hne : hs ≠ [])
    (hnd : (hs.map HashElem.hash).Nodup) :
    ((mainExecs (feedAll ch (newRun hs sh rl started w) bs).trace).map Block.fullHash).Nodup := by
  have inv := RunInv_feedAll ch hs sh hne bs _ (RunInv_init hs sh rl w started hne)
  rw [inv.execs_eq, List.map_take]
  exact hnd.sublist (List.take_sublist _ _)

theorem C5_idempotence_witness :
    hashList3 ≠ [] ∧ (hashList3.map HashElem.hash).Nodup ∧
    ((mainExecs (feedAll acceptAll (newRun hashList3 true 0 true ()) [H1, H1]).trace).map
      Block.fullHash).Nodup :=
  ⟨by decide, by decide,
    C5_idempotence acceptAll hashList3 true 0 true () [H1, H1] (by decide) (by decide)⟩

/-! ## Arrival-order independence -/

theorem Scenario.length_eq {hs : List HashElem} {bs : List Block} (sc : Scenario hs bs) :
    bs.length = hs.length := by
  have h := congrArg List.length sc.hashes
  simpa using h

theorem Scenario.round_eq {hs : List HashElem} {bs : List Block} (sc : Scenario hs bs)
    (j : Nat) (h1 : j < bs.length) (h2 : j < hs.length) : bs[j].round = hs[j].round := by
  have h := congrArg (fun l => l[j]?) sc.rounds
  simpa [h1, h2] using h

theorem Scenario.hash_eq {hs : List HashElem} {bs : List Block} (sc : Scenario hs bs)
    (j : Nat) (h1 : j < bs.length) (h2 : j < hs.length) : bs[j].fullHash = hs[j].hash := by
  have h := congrArg (fun l => l[j]?) sc.hashes
  simpa [h1, h2] using h

theorem Scenario.pairwise {hs : List HashElem} {bs : List Block} (sc : Scenario hs bs) :
    bs.Pairwise (fun a b => a.round < b.round) := by
  have h := sc.increasing
  rw [← sc.rounds, List.pairwise_map] at h
  exact h

theorem Scenario.nodup {hs : List HashElem} {bs : List Block} (sc : Scenario hs bs) :
    bs.Nodup := by
  refine sc.pairwise.imp ?_
  intro a b h e
  rw [e] at h
  exact Nat.lt_irrefl _ h

theorem Scenario.later_round {hs : List HashElem} {bs : List Block} (sc : Scenario hs bs)
    (j : Nat) (h1 : j < bs.length) : ∀ x ∈ bs.drop (j + 1), bs[j].round < x.round := by
  have h := sc.pairwise.sublist (List.drop_sublist j bs)
  rw [List.drop_eq_getElem_cons h1, List.pairwise_cons] at h
  exact h.1

theorem pending_of_mem (bs q : List Block) (j : Nat) (h1 : j < bs.length) (hm : bs[j] ∈ q) :
    pending bs q j = bs[j] :: pending bs q (j + 1) := by
  unfold pending
  rw [List.drop_eq_getElem_cons h1, List.filter_cons]
  simp [hm]

theorem pending_of_not_mem (bs q : List Block) (j : Nat) (h1 : j < bs.length) (hm : bs[j] ∉ q) :
    pending bs q j = pending bs q (j + 1) := by
  unfold pending
  rw [List.drop_eq_getElem_cons h1, List.filter_cons]
  simp [hm]

theorem pending_subset_drop (bs q : List Block) (j : Nat) :
    ∀ x ∈ pending bs q j, x ∈ bs.drop j := by
  intro x hx
  exact (List.mem_filter.mp hx).1

theorem loop_skip {W : Type} (ch : Chain W) (hs : List HashElem) (sh : Bool) (l : List Block)
    (st : LoopState W) (h2 : st.index < hs.length)
    (hl : ∀ x ∈ l, hs[st.index].round < x.round) :
    loop ch hs sh l st = (st, Ctl.next) := by
  induction l with
  | nil => rfl
  | cons x l ih =>
    have hx := hl x (List.mem_cons_self _ _)
    have hcur : hs[st.index]? = some hs[st.index] := List.getElem?_eq_getElem h2
    have hb : loopBody ch hs sh st x = (st, Ctl.next) := by
      unfold loopBody
      simp only [hcur]
      rw [if_pos hx]
    unfold loop
    rw [hb]
    exact ih (fun y hy => hl y (List.mem_cons_of_mem _ hy))


theorem take_drop_succ {α : Type} (l : List α) (j k : Nat) (h1 : j < l.length) (hk : j + 1 ≤ k) :
    (l.drop j).take (k - j) = l[j] :: (l.drop (j + 1)).take (k - (j + 1)) := by
  rw [List.drop_eq_getElem_cons h1]
  have h2 : k - j = (k - (j + 1)) + 1 := by omega
  rw [h2, List.take_succ_cons]

theorem pending_pairwise {hs : List HashElem} {bs : List Block} (sc : Scenario hs bs)
    (q : List Block) (k : Nat) : (pending bs q k).Pairwise (fun a b => a.round < b.round) :=
  sc.pairwise.sublist ((List.filter_sublist _).trans (List.drop_sublist k bs))

theorem sort_pending {hs : List HashElem} {bs : List Block} (sc : Scenario hs bs)
    (q : List Block) (k : Nat) (b : Block) (hb : b ∈ bs.drop k) (hq : b ∉ q) :
    SortByRoundHash (pending bs q k ++ [b]) = pending bs (b :: q) k := by
  have hnd1 : (pending bs q k ++ [b]).Nodup := by
    rw [List.nodup_append]
    refine ⟨sc.nodup.sublist ((List.filter_sublist _).trans (List.drop_sublist k bs)),
      List.nodup_singleton b, ?_⟩
    intro x hx hx1
    rw [List.mem_singleton] at hx1
    subst hx1
    have := (List.mem_filter.mp hx).2
    simp at this
    exact hq this
  have hnd2 : (pending bs (b :: q) k).Nodup :=
    sc.nodup.sublist ((List.filter_sublist _).trans (List.drop_sublist k bs))
  have hperm : (pending bs q k ++ [b]).Perm (pending bs (b :: q) k) := by
    rw [List.perm_ext_iff_of_nodup hnd1 hnd2]
    intro x
    simp only [pending, List.mem_append, List.mem_filter, List.mem_cons, List.not_mem_nil,
      or_false, decide_eq_true_eq]
    constructor
    · rintro (⟨h1, h2⟩ | h1)
      · exact ⟨h1, Or.inr h2⟩
      · subst h1; exact ⟨hb, Or.inl rfl⟩
    · rintro ⟨h1, h2 | h2⟩
      · exact Or.inr h2
      · exact Or.inl ⟨h1, h2⟩
  have hperm2 : (SortByRoundHash (pending bs q k ++ [b])).Perm (pending bs (b :: q) k) :=
    (List.perm_insertionSort roundHashLE _).trans hperm
  have hs2 := pending_pairwise sc (b :: q) k
  have hs1 : (SortByRoundHash (pending bs q k ++ [b])).Pairwise
      (fun a b => a.round < b.round) := by
    have h1 : (SortByRoundHash (pending bs q k ++ [b])).Pairwise roundHashLE :=
      List.sorted_insertionSort roundHashLE _
    have h2 : (SortByRoundHash (pending bs q k ++ [b])).Pairwise
        (fun a b => a.round ≠ b.round) := by
      refine hperm2.symm.pairwise (hs2.imp (fun h => Nat.ne_of_lt h)) ?_
      intro x y h
      exact fun e => h e.symm
    refine (h1.and h2).imp ?_
    intro x y h
    rcases h.1 with h1 | ⟨h1, _⟩
    · exact h1
    · exact absurd h1 h.2
  haveI : IsAntisymm Block (fun a b => a.round < b.round) :=
    ⟨fun a b h1 h2 => absurd h1 (Nat.lt_asymm h2)⟩
  exact List.eq_of_perm_of_sorted hperm2 hs1 hs2


theorem take_append_take_drop {α : Type} (l : List α) (k m : Nat) (h : k ≤ m) :
    l.take k ++ (l.drop k).take (m - k) = l.take m := by
  have h1 : m = k + (m - k) := by omega
  conv_rhs => rw [h1, List.take_add]

theorem mem_drop_of_not_fed (bs q : List Block) (k : Nat) (b : Block) (hb : b ∈ bs) (hq : b ∉ q)
    (hfed : ∀ (i : Nat) (h : i < bs.length), i < k → bs[i] ∈ q) : b ∈ bs.drop k := by
  rw [← List.take_append_drop k bs, List.mem_append] at hb
  rcases hb with h | h
  · exfalso
    obtain ⟨j, hj, e⟩ := List.mem_iff_getElem.mp h
    have hj1 : j < k ∧ j < bs.length := by
      rw [List.length_take] at hj
      omega
    have e1 : bs[j] = b := by
      rw [← e]
      simp
    exact hq (e1 ▸ hfed j hj1.2 hj1.1)
  · exact h

/-- The chain `depChain bs` meets the assumption of the scenario: on `b_i` its
`VerifyBlockDepend` succeeds exactly when `i = 0` or `b_(i-1)` has been inserted. -/
theorem dependOk_iff (bs w : List Block) (hnd : bs.Nodup) (i : Nat) (h : i < bs.length) :
    dependOk bs w bs[i] = true ↔ i = 0 ∨ ∃ h1 : i - 1 < bs.length, bs[i - 1] ∈ w := by
  unfold dependOk
  rw [List.indexOf_getElem hnd i h]
  cases i with
  | zero => simp
  | succ j =>
    have hj : j < bs.length := by omega
    simp [List.getElem?_eq_getElem hj, hj]

theorem insertTxPackage_keeps {W : Type} {ch : Chain W} {bs : List Block}
    {Ins : W → Block → Prop} (dc : DependChain ch bs Ins) (w : W) (pkg : TxPackage) (x : Block)
    (h : Ins w x) : Ins (insertTxPackage ch w pkg).1 x := by
  unfold insertTxPackage
  simp only []
  split_ifs
  · exact dc.keepHas _ _ _ h
  · exact dc.keepVerifyPkg _ _ _ (dc.keepHas _ _ _ h)
  · exact dc.keepInsertPkg _ _ _ (dc.keepVerifyPkg _ _ _ (dc.keepHas _ _ _ h))

theorem futureLoop_keeps {W : Type} {ch : Chain W} {bs : List Block}
    {Ins : W → Block → Prop} (dc : DependChain ch bs Ins) (pkgs : List TxPackage) (x : Block) :
    ∀ w : W, Ins w x → Ins (futureLoop ch pkgs w).1 x := by
  induction pkgs with
  | nil => intro w h; exact h
  | cons p rest ih =>
    intro w h
    unfold futureLoop
    simp only []
    split_ifs
    · exact ih _ (dc.keepRemove _ _ _ (insertTxPackage_keeps dc w p x h))
    · exact ih _ (insertTxPackage_keeps dc w p x h)

theorem processFutureTxPackages_keeps {W : Type} {ch : Chain W} {bs : List Block}
    {Ins : W → Block → Prop} (dc : DependChain ch bs Ins) (w : W) (hash : Hash) (x : Block)
    (h : Ins w x) : Ins (processFutureTxPackages ch w hash).1 x := by
  unfold processFutureTxPackages
  exact futureLoop_keeps dc _ x _ (dc.keepFuture _ _ _ h)

theorem execMain_dependChain {W : Type} {ch : Chain W} {bs : List Block}
    {Ins : W → Block → Prop} (dc : DependChain ch bs Ins) (sh : Bool) (w : W) (b : Block) :
    (execMain ch sh (ch.insertBlockNoCheck w b) b).2.2 = true ∧
    Ins (execMain ch sh (ch.insertBlockNoCheck w b) b).1 b ∧
    (∀ x, Ins w x → Ins (execMain ch sh (ch.insertBlockNoCheck w b) b).1 x) := by
  unfold execMain
  cases sh
  · simp only [Bool.false_eq_true, if_false]
    exact ⟨dc.pastOk _ _, dc.insertedPast _ _,
      fun x hx => dc.keepPast _ _ _ (dc.keepNoCheck _ _ _ hx)⟩
  · simp only [if_true]
    exact ⟨trivial, dc.insertedBlock _ _,
      fun x hx => dc.keepInsert _ _ _ (dc.keepNoCheck _ _ _ hx)⟩

theorem loopBody_exec {W : Type} {ch : Chain W} {hs : List HashElem} {bs : List Block}
    {Ins : W → Block → Prop} (sc : Scenario hs bs) (dc : DependChain ch bs Ins) (sh : Bool)
    (w : W) (j : Nat) (rest : List Block) (tr : List Call) (h1 : j < bs.length)
    (hw : ∀ (i : Nat) (h : i < bs.length), i < j → Ins w bs[i]) :
    ∃ (w1 : W) (seg : List Call),
      loopBody ch hs sh { world := w, index := j, blocks := bs[j] :: rest, trace := tr } bs[j] =
        ({ world := w1, index := j + 1, blocks := rest, trace := tr ++ seg },
         if j + 1 ≥ hs.length then Ctl.stop else Ctl.next) ∧
      mainExecs seg = [bs[j]] ∧
      (∀ (i : Nat) (h : i < bs.length), i < j + 1 → Ins w1 bs[i]) := by
  have h2 : j < hs.length := by rw [← sc.length_eq]; exact h1
  have hcur : hs[j]? = some hs[j] := List.getElem?_eq_getElem h2
  have hr : ¬ bs[j].round > hs[j].round := by rw [sc.round_eq j h1 h2]; exact Nat.lt_irrefl _
  have hh : bs[j].fullHash = hs[j].hash := sc.hash_eq j h1 h2
  have hd : (ch.verifyBlockDepend w bs[j]).2 = true :=
    dc.dependOk w j h1 (fun i hi e => hw i hi (by omega))
  have hv : (ch.verifyBlock (ch.verifyBlockDepend w bs[j]).1 bs[j] sh).2 = true :=
    dc.verifyOk _ _ _
  have hrm : Remove (bs[j] :: rest) bs[j].fullHash = rest := by
    simp [Remove, List.eraseP_cons]
  obtain ⟨he1, he2, he3⟩ := execMain_dependChain dc sh
    (ch.verifyBlock (ch.verifyBlockDepend w bs[j]).1 bs[j] sh).1 bs[j]
  obtain ⟨hm1, _, _⟩ := execMain_spec ch sh (ch.insertBlockNoCheck
    (ch.verifyBlock (ch.verifyBlockDepend w bs[j]).1 bs[j] sh).1 bs[j]) bs[j]
  have hfm := mainExecs_of_pkg _ (processFutureTxPackages_pkg ch
    (execMain ch sh (ch.insertBlockNoCheck
      (ch.verifyBlock (ch.verifyBlockDepend w bs[j]).1 bs[j] sh).1 bs[j]) bs[j]).1
    bs[j].fullHash)
  refine ⟨(processFutureTxPackages ch (execMain ch sh (ch.insertBlockNoCheck
      (ch.verifyBlock (ch.verifyBlockDepend w bs[j]).1 bs[j] sh).1 bs[j]) bs[j]).1
      bs[j].fullHash).1,
    [Call.verifyBlockDepend bs[j] true, Call.verifyBlock bs[j] sh true,
      Call.insertBlockNoCheck bs[j]] ++
    [(execMain ch sh (ch.insertBlockNoCheck
      (ch.verifyBlock (ch.verifyBlockDepend w bs[j]).1 bs[j] sh).1 bs[j]) bs[j]).2.1] ++
    (processFutureTxPackages ch (execMain ch sh (ch.insertBlockNoCheck
      (ch.verifyBlock (ch.verifyBlockDepend w bs[j]).1 bs[j] sh).1 bs[j]) bs[j]).1
      bs[j].fullHash).2, ?_, ?_, ?_⟩
  · have hrm1 : Remove (bs[j] :: rest) hs[j].hash = rest := by rw [← hh]; exact hrm
    unfold loopBody
    simp only [hcur, hr, if_false, hd, hv, hh, hrm1, he1, if_true, Bool.true_eq_false,
      List.append_assoc]
    split_ifs <;> rfl
  · rw [mainExecs_append, mainExecs_append, hfm, hm1, he1]
    simp [mainExecs]
  · intro i h hi
    apply processFutureTxPackages_keeps dc
    rcases Nat.lt_succ_iff_lt_or_eq.mp hi with h3 | h3
    · exact he3 _ (dc.keepVerify _ _ _ _ (dc.keepDepend _ _ _ (hw i h h3)))
    · subst h3; exact he2


theorem loop_consume {W : Type} {ch : Chain W} {hs : List HashElem} {bs : List Block}
    {Ins : W → Block → Prop} (sc : Scenario hs bs) (dc : DependChain ch bs Ins) (sh : Bool)
    (q : List Block) :
    ∀ (d j : Nat) (w : W) (tr : List Call), bs.length - j = d → j < bs.length →
      (∀ (i : Nat) (h : i < bs.length), i < j → Ins w bs[i]) →
      ∃ (k : Nat) (w1 : W) (seg : List Call) (ctl : Ctl),
        loop ch hs sh (pending bs q j)
          { world := w, index := j, blocks := pending bs q j, trace := tr } =
          ({ world := w1, index := k, blocks := pending bs q k, trace := tr ++ seg }, ctl) ∧
        ctl ≠ Ctl.panicked ∧ j ≤ k ∧ k ≤ bs.length ∧
        mainExecs seg = (bs.drop j).take (k - j) ∧
        (∀ (i : Nat) (h : i < bs.length), i < k → Ins w1 bs[i]) ∧
        (∀ (i : Nat) (h : i < bs.length), j ≤ i → i < k → bs[i] ∈ q) ∧
        (∀ h : k < bs.length, bs[k] ∉ q) := by
  intro d
  induction d with
  | zero => intro j w tr hd hj; omega
  | succ d ih =>
    intro j w tr hd hj hw
    have hj2 : j < hs.length := by rw [← sc.length_eq]; exact hj
    by_cases hm : bs[j] ∈ q
    · rw [pending_of_mem bs q j hj hm]
      obtain ⟨w0, seg0, hb, hseg0, hw1⟩ :=
        loopBody_exec sc dc sh w j (pending bs q (j + 1)) tr hj hw
      by_cases hlast : j + 1 ≥ hs.length
      · rw [if_pos hlast] at hb
        refine ⟨j + 1, w0, seg0, Ctl.stop, ?_, by simp, Nat.le_succ _, hj, ?_, hw1, ?_, ?_⟩
        · unfold loop
          rw [hb]
        · rw [hseg0, take_drop_succ bs j (j + 1) hj (le_refl _)]
          simp
        · intro i h h3 h4
          have : i = j := by omega
          subst this; exact hm
        · intro h
          rw [sc.length_eq] at h
          omega
      · rw [if_neg hlast] at hb
        have hj1 : j + 1 < bs.length := by rw [sc.length_eq]; omega
        obtain ⟨k, w1, seg, ctl, e1, e2, e3, e4, e5, e6, e7, e8⟩ :=
          ih (j + 1) w0 (tr ++ seg0) (by omega) hj1 hw1
        refine ⟨k, w1, seg0 ++ seg, ctl, ?_, e2, by omega, e4, ?_, e6, ?_, e8⟩
        · unfold loop
          rw [hb]
          simp only []
          rw [e1, List.append_assoc]
        · rw [mainExecs_append, hseg0, e5, take_drop_succ bs j k hj e3]
          rfl
        · intro i h h3 h4
          rcases Nat.eq_or_lt_of_le h3 with h5 | h5
          · subst h5; exact hm
          · exact e7 i h h5 h4
    · rw [pending_of_not_mem bs q j hj hm]
      have hskip := loop_skip ch hs sh (pending bs q (j + 1))
        { world := w, index := j, blocks := pending bs q (j + 1), trace := tr } hj2
        (by
          intro x hx
          have h1 := sc.later_round j hj x (pending_subset_drop bs q (j + 1) x hx)
          have h2 := sc.round_eq j hj hj2
          simp only []
          omega)
      refine ⟨j, w, [], Ctl.next, ?_, by simp, le_refl _, le_of_lt hj, by simp [mainExecs], hw,
        ?_, fun _ => hm⟩
      · rw [hskip, pending_of_not_mem bs q j hj hm]
        simp
      · intro i h h3 h4
        omega

theorem Arrived_feed {W : Type} {ch : Chain W} {hs : List HashElem} {bs : List Block}
    {Ins : W → Block → Prop} (sc : Scenario hs bs) (dc : DependChain ch bs Ins) (sh : Bool)
    (q : List Block) (s : Run W) (b : Block) (inv : Arrived hs bs Ins sh q s)
    (hb : b ∈ bs) (hq : b ∉ q) : Arrived hs bs Ins sh (b :: q) (feed ch s b) := by
  obtain ⟨i1, i2, i3, i4, i5, i6, i7, i8, i9⟩ := inv
  have hdrop : b ∈ bs.drop s.cursor.index := mem_drop_of_not_fed bs q _ b hb hq i7
  have hk : s.cursor.index < bs.length := by
    by_contra hge
    rw [List.drop_eq_nil_of_le (by omega)] at hdrop
    simp at hdrop
  have hne : s.cursor.hashElems ≠ [] := by
    rw [i1]
    intro e
    have h0 : bs.length = 0 := by rw [sc.length_eq, e]; rfl
    omega
  obtain ⟨e, he⟩ := getIndexHashElem_isSome s.cursor hne
  have hck : checkBlock s.cursor.hashElems b = CheckResult.ok := by
    rw [i1]; exact sc.checked b hb
  obtain ⟨k, w1, seg, ctl, c1, c2, c3, c4, c5, c6, c7, c8⟩ :=
    loop_consume sc dc sh (b :: q) (bs.length - s.cursor.index) s.cursor.index s.world [] rfl hk i4
  have hloop : loopOf ch s.cursor s.world b =
      ({ world := w1, index := k, blocks := pending bs (b :: q) k, trace := seg }, ctl) := by
    unfold loopOf
    rw [i1, i2, i6, sort_pending sc q _ b hdrop hq, c1]
    simp
  have hpb := ProcessBlock_ok_eq ch s.cursor s.world b e he hck (by rw [hloop]; exact c2)
  rw [hloop] at hpb
  simp only [] at hpb
  have hidx : (feed ch s b).cursor.index = k := by
    simp only [feed, hpb]
    split_ifs <;> rfl
  refine ⟨?_, ?_, ?_, ?_, ?_, ?_, ?_, ?_, ?_⟩
  · simp only [feed, hpb]
    split_ifs <;> exact i1
  · simp only [feed, hpb]
    split_ifs <;> exact i2
  · rw [hidx]; exact c4
  · rw [hidx]
    simp only [feed, hpb]
    exact c6
  · rw [hidx]
    simp only [feed, hpb]
    rw [mainExecs_append, i5, c5]
    exact take_append_take_drop bs _ _ c3
  · rw [hidx]
    simp only [feed, hpb]
    split_ifs <;> rfl
  · rw [hidx]
    intro i h hi
    by_cases h1 : i < s.cursor.index
    · exact List.mem_cons_of_mem _ (i7 i h h1)
    · exact c7 i h (by omega) hi
  · rw [hidx]
    exact c8
  · rw [hidx]
    simp only [feed, hpb]
    rw [i1, ← sc.length_eq]
    split_ifs with hfin
    · simp only [Finish, close, true_iff]
      omega
    · simp only []
      constructor
      · intro h1
        have := i9.mp h1
        omega
      · intro h1
        omega

theorem Arrived_feedAll {W : Type} {ch : Chain W} {hs : List HashElem} {bs : List Block}
    {Ins : W → Block → Prop} (sc : Scenario hs bs) (dc : DependChain ch bs Ins) (sh : Bool)
    (rest : List Block) :
    ∀ (q : List Block) (s : Run W), Arrived hs bs Ins sh q s → (∀ x ∈ rest, x ∈ bs) →
      rest.Nodup → (∀ x ∈ rest, x ∉ q) →
      Arrived hs bs Ins sh (rest.reverse ++ q) (feedAll ch s rest) := by
  induction rest with
  | nil => intro q s inv _ _ _; simpa using inv
  | cons b rest ih =>
    intro q s inv hbs hnd hq
    have hb := hbs b (List.mem_cons_self _ _)
    have hbq := hq b (List.mem_cons_self _ _)
    rw [List.nodup_cons] at hnd
    have h1 := Arrived_feed sc dc sh q s b inv hb hbq
    have h2 := ih (b :: q) (feed ch s b) h1
      (fun x hx => hbs x (List.mem_cons_of_mem _ hx)) hnd.2
      (by
        intro x hx hxq
        rcases List.mem_cons.mp hxq with e | e
        · subst e; exact hnd.1 hx
        · exact hq x (List.mem_cons_of_mem _ hx) e)
    rw [feedAll_cons, List.reverse_cons, List.append_assoc]
    exact h2

theorem Arrived_init {W : Type} {hs : List HashElem} {bs : List Block} (Ins : W → Block → Prop)
    (sc : Scenario hs bs) (sh : Bool) (rl : Int) (started : Bool) (w : W) (hne : hs ≠ []) :
    Arrived hs bs Ins sh [] (newRun hs sh rl started w) := by
  have hlen : 0 < bs.length := by rw [sc.length_eq]; exact List.length_pos.mpr hne
  unfold newRun
  cases started
  · refine ⟨rfl, rfl, Nat.zero_le _, ?_, rfl, ?_, ?_, ?_, ?_⟩
    · intro i h hi; simp [NewCursor] at hi
    · simp [NewCursor, pending]
    · intro i h hi; simp [NewCursor] at hi
    · intro h; simp
    · simp [NewCursor]; omega
  · refine ⟨rfl, rfl, Nat.zero_le _, ?_, rfl, ?_, ?_, ?_, ?_⟩
    · intro i h hi; simp [NewCursor, Start] at hi
    · simp [NewCursor, Start, pending]
    · intro i h hi; simp [NewCursor, Start] at hi
    · intro h; simp
    · simp [NewCursor, Start]; omega

/-- The chain `depChain bs` meets the assumptions of the scenario, with "inserted in `w`"
read as membership in the world `w`. -/
theorem depChain_dependChain (bs : List Block) (hnd : bs.Nodup) :
    DependChain (depChain bs) bs (fun w b => b ∈ w) where
  keepDepend := fun _ _ _ h => h
  keepVerify := fun _ _ _ _ h => h
  keepNoCheck := fun _ _ _ h => List.mem_cons_of_mem _ h
  keepInsert := fun _ _ _ h => List.mem_cons_of_mem _ h
  keepPast := fun _ _ _ h => List.mem_cons_of_mem _ h
  keepFuture := fun _ _ _ h => h
  keepRemove := fun _ _ _ h => h
  keepHas := fun _ _ _ h => h
  keepVerifyPkg := fun _ _ _ h => h
  keepInsertPkg := fun _ _ _ h => h
  insertedBlock := fun _ _ => List.mem_cons_self _ _
  insertedPast := fun _ _ => List.mem_cons_self _ _
  dependOk := fun w i h hw => by
    show dependOk bs w bs[i] = true
    rw [dependOk_iff bs w hnd i h]
    cases i with
    | zero => exact Or.inl rfl
    | succ j => exact Or.inr ⟨by omega, hw j (by omega) rfl⟩
  verifyOk := fun _ _ _ => rfl
  pastOk := fun _ _ => rfl

/-- C3 (arrival-order independence). Let the hash list be non-empty with strictly
increasing rounds, let `bs` be blocks with `bs[i].FullHash = hashElems[i].Hash`,
`bs[i].Round = hashElems[i].Round` and heights accepted by `checkBlock`, and let the chain
satisfy `DependChain`: `VerifyBlockDepend(b_i)` succeeds when `i = 0` or `b_(i-1)` was
inserted, `VerifyBlock` always succeeds and `InsertPastBlock` never fails.  Then for every
permutation `p` of `bs` fed block by block to `ProcessBlock`, the main-chain executions
are exactly `b_0, ..., b_(n-1)` in this order, and the cursor is finished after the last
call. -/
theorem C3_arrival_order {W : Type} (ch : Chain W) (Ins : W → Block → Prop)
    (hs : List HashElem) (bs : List Block) (sh : Bool) (rl : Int) (started : Bool) (w : W)
    (p : List Block) (hne : hs ≠ [])
    (hhash : bs.map Block.fullHash = hs.map HashElem.hash)
    (hround : bs.map Block.round = hs.map HashElem.round)
    (hinc : (hs.map HashElem.round).Pairwise (fun a b => a < b))
    (hcheck : ∀ b ∈ bs, checkBlock hs b = CheckResult.ok)
    (hchain : DependChain ch bs Ins)
    (hperm : p.Perm bs) :
    mainExecs (feedAll ch (newRun hs sh rl started w) p).trace = bs ∧
    IsFinished (feedAll ch (newRun hs sh rl started w) p).cursor = true := by
  have sc : Scenario hs bs := ⟨hhash, hround, hinc, hcheck⟩
  have inv := Arrived_feedAll sc hchain sh p [] _ (Arrived_init Ins sc sh rl started w hne)
    (fun x hx => hperm.subset hx) (hperm.nodup_iff.mpr sc.nodup) (fun x _ => List.not_mem_nil x)
  have hk : (feedAll ch (newRun hs sh rl started w) p).cursor.index = bs.length := by
    by_contra hlt
    have h1 : (feedAll ch (newRun hs sh rl started w) p).cursor.index < bs.length :=
      lt_of_le_of_ne inv.index_le hlt
    apply inv.waiting h1
    rw [List.append_nil, List.mem_reverse]
    exact hperm.symm.subset (List.getElem_mem _)
  constructor
  · rw [inv.execs, hk, List.take_length]
  · have := inv.finished_iff.mpr hk
    simp [IsFinished, this]

theorem C3_arrival_order_witness :
    hashList3 ≠ [] ∧ [H1, H2, H3].map Block.fullHash = hashList3.map HashElem.hash ∧
    [H1, H2, H3].map Block.round = hashList3.map HashElem.round ∧
    (hashList3.map HashElem.round).Pairwise (fun a b => a < b) ∧
    (∀ b ∈ [H1, H2, H3], checkBlock hashList3 b = CheckResult.ok) ∧
    [H2, H3, H1].Perm [H1, H2, H3] ∧
    mainExecs (feedAll (depChain [H1, H2, H3]) (newRun hashList3 true 0 true [])
      [H2, H3, H1]).trace = [H1, H2, H3] ∧
    IsFinished (feedAll (depChain [H1, H2, H3]) (newRun hashList3 true 0 true [])
      [H2, H3, H1]).cursor = true :=
  ⟨by decide, by decide, by decide, by decide, by decide, by decide,
    C3_arrival_order (depChain [H1, H2, H3]) (fun w b => b ∈ w) hashList3 [H1, H2, H3] true 0
      true [] [H2, H3, H1] (by decide) (by decide) (by decide) (by decide) (by decide)
      (depChain_dependChain [H1, H2, H3] (by decide)) (by decide)⟩

/-! ## Peer sampling -/

theorem setKey_length_le (k : Nat) (m : List Nat) :
    m.length ≤ (setKey k m).length ∧ (setKey k m).length ≤ m.length + 1 := by
  unfold setKey
  split_ifs <;> simp

theorem setKey_nodup (k : Nat) (m : List Nat) (h : m.Nodup) : (setKey k m).Nodup := by
  unfold setKey
  split_ifs with hk
  · exact h
  · rw [List.nodup_append]
    refine ⟨h, List.nodup_singleton k, ?_⟩
    intro a ha hb
    rw [List.mem_singleton] at hb
    subst hb
    exact hk ha

theorem mem_setKey (k : Nat) (m : List Nat) (x : Nat) : x ∈ setKey k m ↔ x ∈ m ∨ x = k := by
  unfold setKey
  split_ifs with hk
  · constructor
    · exact Or.inl
    · rintro (h | h)
      · exact h
      · subst h; exact hk
  · simp

theorem nodup_bounded_length (l : List Nat) (n : Nat) (hnd : l.Nodup) (hb : ∀ k ∈ l, k < n) :
    l.length ≤ n := by
  have hsub : l ⊆ List.range n := fun k hk => List.mem_range.mpr (hb k hk)
  have h := (List.subperm_of_subset hnd hsub).length_le
  simpa using h

/-- With enough distinct draws within the fuel the loop returns: exactly `length` distinct
keys, each among the initial keys or below `bucketSize`. -/
theorem drawLoop_done (rnd : Nat → Nat) (bucketSize length : Int) :
    ∀ (fuel i : Nat) (m : List Nat), (0 < bucketSize ∨ length ≤ (m.length : Int)) →
      length ≤ ((keysAfter rnd bucketSize fuel i m).length : Int) →
      ∃ ks, drawLoop rnd bucketSize length fuel i m = Res.done ks ∧
        ((m.length : Int) < length → (ks.length : Int) = length) ∧
        (length ≤ (m.length : Int) → ks = m) ∧
        (m.Nodup → ks.Nodup) ∧
        (∀ k ∈ ks, k ∈ m ∨ (k : Int) < bucketSize) := by
  intro fuel
  induction fuel with
  | zero =>
    intro i m _ h
    simp only [keysAfter] at h
    refine ⟨m, ?_, fun h1 => absurd h (not_le.mpr h1), fun _ => rfl, fun h1 => h1,
      fun k hk => Or.inl hk⟩
    simp only [drawLoop]
    rw [if_neg (not_lt.mpr h)]
  | succ fuel ih =>
    intro i m hb h
    by_cases hlt : (m.length : Int) < length
    · have hpos : 0 < bucketSize := by
        rcases hb with h1 | h1
        · exact h1
        · exact absurd hlt (not_lt.mpr h1)
      have hl := setKey_length_le (rnd i % bucketSize.toNat) m
      simp only [keysAfter] at h
      obtain ⟨ks, e1, e2, e3, e4, e5⟩ := ih (i + 1) (setKey (rnd i % bucketSize.toNat) m)
        (Or.inl hpos) h
      refine ⟨ks, ?_, fun _ => ?_, fun h1 => absurd hlt (not_lt.mpr h1), fun h1 =>
        e4 (setKey_nodup _ _ h1), ?_⟩
      · simp only [drawLoop]
        rw [if_pos hlt, if_neg (not_le.mpr hpos)]
        exact e1
      · by_cases h2 : ((setKey (rnd i % bucketSize.toNat) m).length : Int) < length
        · exact e2 h2
        · rw [e3 (not_lt.mp h2)]
          omega
      · intro k hk
        rcases e5 k hk with h1 | h1
        · rcases (mem_setKey _ _ _).mp h1 with h2 | h2
          · exact Or.inl h2
          · right
            subst h2
            have h3 : rnd i % bucketSize.toNat < bucketSize.toNat :=
              Nat.mod_lt _ (by omega)
            omega
        · exact Or.inr h1
    · refine ⟨m, ?_, fun h1 => absurd h1 hlt, fun _ => rfl, fun h1 => h1, fun k hk => Or.inl hk⟩
      simp only [drawLoop]
      rw [if_neg hlt]

/-- Asked for more distinct numbers than the bucket holds, the loop never returns. -/
theorem drawLoop_diverges (rnd : Nat → Nat) (bucketSize length : Int) (hpos : 0 < bucketSize)
    (hlen : bucketSize < length) :
    ∀ (fuel i : Nat) (m : List Nat), m.Nodup → (∀ k ∈ m, k < bucketSize.toNat) →
      drawLoop rnd bucketSize length fuel i m = Res.outOfFuel := by
  intro fuel
  induction fuel with
  | zero =>
    intro i m hnd hb
    have hl := nodup_bounded_length m _ hnd hb
    simp only [drawLoop]
    rw [if_pos (by omega)]
  | succ fuel ih =>
    intro i m hnd hb
    have hl := nodup_bounded_length m _ hnd hb
    simp only [drawLoop]
    rw [if_pos (by omega), if_neg (not_le.mpr hpos)]
    apply ih _ _ (setKey_nodup _ _ hnd)
    intro k hk
    rcases (mem_setKey _ _ _).mp hk with h1 | h1
    · exact hb k h1
    · subst h1
      exact Nat.mod_lt _ (by omega)

theorem generateDiffRandomNumbers_diverges (rnd : Nat → Nat) (fuel : Nat) (bucketSize length : Int)
    (hpos : 0 < bucketSize) (hlen : bucketSize < length) :
    generateDiffRandomNumbers rnd fuel bucketSize length = Res.outOfFuel :=
  drawLoop_diverges rnd bucketSize length hpos hlen fuel 0 [] List.nodup_nil
    (fun k hk => absurd hk (List.not_mem_nil k))

theorem pickPeers_done (peers : List Peer) :
    ∀ numbers : List Nat, (∀ v ∈ numbers, v < peers.length) →
      ∃ ps, pickPeers peers numbers = Res.done ps ∧
        ps.map some = numbers.map (fun v => peers[v]?) := by
  intro numbers
  induction numbers with
  | nil => intro _; exact ⟨[], rfl, rfl⟩
  | cons v rest ih =>
    intro h
    have hv : v < peers.length := h v (List.mem_cons_self _ _)
    obtain ⟨ps, e1, e2⟩ := ih (fun w hw => h w (List.mem_cons_of_mem _ hw))
    refine ⟨peers[v] :: ps, ?_, ?_⟩
    · simp only [pickPeers, List.getElem?_eq_getElem hv, e1]
    · simp only [List.map_cons, e2, List.getElem?_eq_getElem hv]

/-- Specification of `randomChoosePeers` for a count within the number of peers, when the
random source yields enough distinct indices within the fuel. -/
theorem randomChoosePeers_done (rnd : Nat → Nat) (fuel : Nat) (peers : List Peer) (count : Int)
    (hle : count ≤ (peers.length : Int))
    (hdraws : count ≤ ((keysAfter rnd (peers.length : Int) fuel 0 []).length : Int)) :
    ∃ ps, randomChoosePeers rnd fuel peers count = Res.done (ps, peers) ∧
      (0 ≤ count → (ps.length : Int) = count) ∧ (∀ p ∈ ps, p ∈ peers) ∧
      (peers.Nodup → ps.Nodup) ∧
      (peers.Nodup → count = (peers.length : Int) → ps.Perm peers) := by
  have hb : 0 < (peers.length : Int) ∨ count ≤ (([] : List Nat).length : Int) := by
    rcases Nat.eq_zero_or_pos peers.length with h | h
    · right
      simp only [List.length_nil]
      omega
    · left
      omega
  obtain ⟨ks, e1, e2, e3, e4, e5⟩ := drawLoop_done rnd (peers.length : Int) count fuel 0 [] hb hdraws
  have hks : ∀ v ∈ ks, v < peers.length := by
    intro v hv
    rcases e5 v hv with h | h
    · exact absurd h (List.not_mem_nil v)
    · omega
  have hklen : 0 ≤ count → (ks.length : Int) = count := by
    intro h0
    rcases Int.lt_or_le ((([] : List Nat).length : Nat) : Int) count with h | h
    · exact e2 h
    · rw [e3 h]
      simp only [List.length_nil] at h ⊢
      omega
  have hknd : ks.Nodup := e4 List.nodup_nil
  obtain ⟨ps, p1, p2⟩ := pickPeers_done peers ks hks
  have hlen : ps.length = ks.length := by
    have := congrArg List.length p2
    simpa using this
  have hmem : ∀ p ∈ ps, p ∈ peers := by
    intro p hp
    have h1 : some p ∈ ps.map some := List.mem_map_of_mem _ hp
    rw [p2, List.mem_map] at h1
    obtain ⟨v, _, hv⟩ := h1
    exact List.getElem?_mem hv
  have hpnd : peers.Nodup → ps.Nodup := by
    intro hnd
    apply List.Nodup.of_map some
    rw [p2]
    apply List.Nodup.map_on _ hknd
    intro x hx y hy hxy
    have hx1 := hks x hx
    have hy1 := hks y hy
    rw [List.getElem?_eq_getElem hx1, List.getElem?_eq_getElem hy1, Option.some.injEq] at hxy
    exact (hnd.getElem_inj_iff).mp hxy
  refine ⟨ps, ?_, ?_, hmem, hpnd, ?_⟩
  · simp only [randomChoosePeers, generateDiffRandomNumbers, e1, p1]
  · intro h0
    have := hklen h0
    omega
  · intro hnd hall
    have := hklen (by omega)
    exact (List.subperm_of_subset (hpnd hnd) hmem).perm_of_length_le (by omega)

/-- For a count above the number of peers `randomChoosePeers` never returns (the map is
not empty), whatever the random source. -/
theorem randomChoosePeers_diverges (rnd : Nat → Nat) (fuel : Nat) (peers : List Peer)
    (count : Int) (hne : peers ≠ []) (hgt : (peers.length : Int) < count) :
    randomChoosePeers rnd fuel peers count = Res.outOfFuel := by
  have hpos : 0 < (peers.length : Int) := by
    have := List.length_pos.mpr hne
    omega
  simp only [randomChoosePeers, generateDiffRandomNumbers_diverges rnd fuel _ count hpos hgt]

/-- C17, failing input: asked for 2 peers of a one-peer map, `randomChoosePeers` never
returns, whatever the random source and however long it runs (the map of drawn indices
never holds more than one key); asked for 1 peer of an empty map it panics in
`rand.Intn(0)`.  In neither case are all the peers returned. -/
theorem C17_sampling_never_returns :
    (∀ (rnd : Nat → Nat) (fuel : Nat), randomChoosePeers rnd fuel [peerA] 2 = Res.outOfFuel) ∧
    (∀ (rnd : Nat → Nat) (fuel : Nat), randomChoosePeers rnd (fuel + 1) [] 1 = Res.panicked) := by
  constructor
  · intro rnd fuel
    exact randomChoosePeers_diverges rnd fuel [peerA] 2 (by decide) (by decide)
  · intro rnd fuel
    rfl

/-- Sampling within the map: for every peer map with distinct entries and every count
`0 <= n <= |peers|`, once the random source has produced `n` distinct indices
`randomChoosePeers` returns `n` distinct peers of the map, together with the map itself;
for `n = |peers|` these are all the peers. -/
theorem randomChoosePeers_within (rnd : Nat → Nat) (fuel : Nat) (peers : List Peer) (count : Int)
    (hnd : peers.Nodup) (h0 : 0 ≤ count) (hle : count ≤ (peers.length : Int))
    (hdraws : count ≤ ((keysAfter rnd (peers.length : Int) fuel 0 []).length : Int)) :
    ∃ ps, randomChoosePeers rnd fuel peers count = Res.done (ps, peers) ∧
      (ps.length : Int) = count ∧ ps.Nodup ∧ (∀ p ∈ ps, p ∈ peers) ∧
      (count = (peers.length : Int) → ps.Perm peers) := by
  obtain ⟨ps, e1, e2, e3, e4, e5⟩ := randomChoosePeers_done rnd fuel peers count hle hdraws
  exact ⟨ps, e1, e2 h0, e4 hnd, e3, e5 hnd⟩

theorem randomChoosePeers_within_example :
    [peerA, peerB, peerC].Nodup ∧ (0 : Int) ≤ 3 ∧
    (3 : Int) ≤ ([peerA, peerB, peerC].length : Int) ∧
    (3 : Int) ≤ ((keysAfter (fun i => i) ([peerA, peerB, peerC].length : Int) 3 0 []).length : Int) ∧
    ∃ ps, randomChoosePeers (fun i => i) 3 [peerA, peerB, peerC] 3 =
        Res.done (ps, [peerA, peerB, peerC]) ∧
      (ps.length : Int) = 3 ∧ ps.Nodup ∧ (∀ p ∈ ps, p ∈ [peerA, peerB, peerC]) ∧
      ((3 : Int) = ([peerA, peerB, peerC].length : Int) → ps.Perm [peerA, peerB, peerC]) :=
  ⟨by decide, by decide, by decide, by decide,
    randomChoosePeers_within (fun i => i) 3 [peerA, peerB, peerC] 3 (by decide) (by decide)
      (by decide) (by decide)⟩

/-! ## The synchronizer loop -/

theorem getHeightDiffFromRegularPeers_done {W : Type} (ch : SyncChain W) (rnd : Nat → Nat)
    (fuel : Nat) (s : Synchronizer W)
    (hle : s.config.MinRegularPeerCount ≤ (s.peers.length : Int))
    (hdraws : s.config.MinRegularPeerCount ≤
      ((keysAfter rnd (s.peers.length : Int) fuel 0 []).length : Int)) :
    ∃ r, getHeightDiffFromRegularPeers ch rnd fuel s = Res.done r := by
  obtain ⟨ps, e1, _⟩ := randomChoosePeers_done rnd fuel s.peers _ hle hdraws
  unfold getHeightDiffFromRegularPeers
  simp only [e1]
  split_ifs
  · exact ⟨_, rfl⟩
  · exact ⟨_, rfl⟩

/-- Unfolding of `doInit` once enough peers are present and the height difference is known. -/
theorem doInit_of_diff {W : Type} (ch : SyncChain W) (rnd : Nat → Nat) (fuel : Nat)
    (s : Synchronizer W) (r : Int × List Peer)
    (h1 : ¬ (s.peers.length : Int) < s.config.MinRegularPeerCount)
    (hg : getHeightDiffFromRegularPeers ch rnd fuel s = Res.done r) :
    doInit ch rnd fuel s =
      if r.1 < s.config.HeightDiff then
        Res.done { s with
          log := s.log ++
            [Effect.cp2fpStartTask (ch.Genesis s.chain) (ch.CurrentBlock s.chain) s.peers],
          status := SyncStatus.SyncStatusNormal }
      else if (s.peers.length : Int) ≥ s.config.MinFastSyncPeerCount then
        Res.done { s with status := SyncStatus.SyncStatusFastSync,
                          log := s.log ++ [Effect.goDoFastSync] }
      else Res.done s := by
  simp only [doInit, if_neg h1, hg]

/-- What `doInit` leaves alone: everything but the status and the effect log. -/
theorem doInit_frame {W : Type} (ch : SyncChain W) (rnd : Nat → Nat) (fuel : Nat)
    (s s1 : Synchronizer W) (h : doInit ch rnd fuel s = Res.done s1) :
    s1.chain = s.chain ∧ s1.fastSyncMode = s.fastSyncMode ∧
    s1.fastSyncStatus = s.fastSyncStatus ∧ s1.lastHeadBlock = s.lastHeadBlock ∧
    s1.peerSyncStarted = s.peerSyncStarted ∧ s1.peers = s.peers ∧ s1.config = s.config ∧
    s1.hasMiner = s.hasMiner := by
  by_cases h1 : (s.peers.length : Int) < s.config.MinRegularPeerCount
  · simp only [doInit, if_pos h1] at h
    cases h
    exact ⟨rfl, rfl, rfl, rfl, rfl, rfl, rfl, rfl⟩
  · cases hg : getHeightDiffFromRegularPeers ch rnd fuel s with
    | done r =>
      rw [doInit_of_diff ch rnd fuel s r h1 hg] at h
      split_ifs at h <;> cases h <;> exact ⟨rfl, rfl, rfl, rfl, rfl, rfl, rfl, rfl⟩
    | panicked => simp [doInit, if_neg h1, hg] at h
    | outOfFuel => simp [doInit, if_neg h1, hg] at h

/-- With enough distinct draws within the fuel, `doInit` returns. -/
theorem doInit_done {W : Type} (ch : SyncChain W) (rnd : Nat → Nat) (fuel : Nat)
    (s : Synchronizer W)
    (hdraws : s.config.MinRegularPeerCount ≤
      ((keysAfter rnd (s.peers.length : Int) fuel 0 []).length : Int)) :
    ∃ s1, doInit ch rnd fuel s = Res.done s1 := by
  by_cases h1 : (s.peers.length : Int) < s.config.MinRegularPeerCount
  · exact ⟨s, by simp only [doInit, if_pos h1]⟩
  · obtain ⟨r, hr⟩ := getHeightDiffFromRegularPeers_done ch rnd fuel s (not_lt.mp h1) hdraws
    rw [doInit_of_diff ch rnd fuel s r h1 hr]
    split_ifs
    · exact ⟨_, rfl⟩
    · exact ⟨_, rfl⟩
    · exact ⟨_, rfl⟩

/-- The call `doInit` returns when there are fewer peers than `MinRegularPeerCount` (it
returns at once) or the random source yields enough distinct indices within the fuel. -/
theorem doInit_returns {W : Type} (ch : SyncChain W) (rnd : Nat → Nat) (fuel : Nat)
    (s : Synchronizer W)
    (h : (s.peers.length : Int) < s.config.MinRegularPeerCount ∨
      s.config.MinRegularPeerCount ≤
        ((keysAfter rnd (s.peers.length : Int) fuel 0 []).length : Int)) :
    ∃ s1, doInit ch rnd fuel s = Res.done s1 := by
  rcases h with h | h
  · exact ⟨s, by simp only [doInit, if_pos h]⟩
  · exact doInit_done ch rnd fuel s h

theorem restoreHead_fields {W : Type} (ch : SyncChain W) (s : Synchronizer W) :
    (restoreHead ch s).status = s.status ∧ (restoreHead ch s).fastSyncMode = s.fastSyncMode ∧
    (restoreHead ch s).fastSyncStatus = s.fastSyncStatus ∧
    (restoreHead ch s).lastHeadBlock = s.lastHeadBlock ∧
    (restoreHead ch s).peerSyncStarted = s.peerSyncStarted ∧
    (restoreHead ch s).peers = s.peers ∧ (restoreHead ch s).config = s.config := by
  unfold restoreHead
  split <;> exact ⟨rfl, rfl, rfl, rfl, rfl, rfl, rfl⟩

theorem restoreHead_of_some {W : Type} (ch : SyncChain W) (s : Synchronizer W) (b : Block)
    (h : s.lastHeadBlock = some b) :
    restoreHead ch s = { s with chain := ch.SetCurrentBlock s.chain b,
                                log := s.log ++ [Effect.setCurrentBlock b] } := by
  unfold restoreHead
  rw [h]

theorem restoreHead_of_none {W : Type} (ch : SyncChain W) (s : Synchronizer W)
    (h : s.lastHeadBlock = none) : restoreHead ch s = s := by
  unfold restoreHead
  rw [h]

theorem startMiner_fields {W : Type} (s : Synchronizer W) :
    (startMiner s).chain = s.chain ∧ (startMiner s).status = s.status ∧
    (startMiner s).lastHeadBlock = s.lastHeadBlock ∧
    (startMiner s).peerSyncStarted = s.peerSyncStarted ∧ (startMiner s).peers = s.peers ∧
    (startMiner s).log = s.log ++ (if s.hasMiner then [Effect.minerStart] else []) := by
  unfold startMiner
  split_ifs <;> simp

/-! ## Claims on the synchronizer loop -/

/-- C11, as stated, fails: a `fast_sync_err` event that arrives while the status is not
`FastSync` is ignored.  With status `Normal`, `lastHeadBlock = H1` and current block `H2`
the loop leaves the current block at `H2`. -/
theorem C11_safety_on_failure_counterexample :
    ∃ s1, loopStep headChain (fun i => i) 0
        (sync0 SyncStatus.SyncStatusNormal [peerA] H2 (some H1)) Event.fastSyncErr = Res.done s1 ∧
      headChain.CurrentBlock s1.chain = H2 ∧ s1.lastHeadBlock = some H1 ∧ H2 ≠ H1 :=
  ⟨_, rfl, rfl, rfl, by decide⟩

/-- What the `fast_sync_err` handler leaves in status `FastSync`, whenever it returns:
`lastHeadBlock` as it was, and the chain after `SetCurrentBlock(lastHeadBlock)`, or the
chain as it was when `lastHeadBlock` is nil. -/
theorem onFastSyncErr_head {W : Type} (ch : SyncChain W) (rnd : Nat → Nat) (fuel : Nat)
    (s s1 : Synchronizer W) (hst : s.status = SyncStatus.SyncStatusFastSync)
    (h : loopStep ch rnd fuel s Event.fastSyncErr = Res.done s1) :
    s1.lastHeadBlock = s.lastHeadBlock ∧
    (∀ b, s.lastHeadBlock = some b → s1.chain = ch.SetCurrentBlock s.chain b) ∧
    (s.lastHeadBlock = none → s1.chain = s.chain) := by
  simp only [loopStep, onFastSyncErr, if_pos hst] at h
  obtain ⟨f1, _, _, f4, _⟩ := doInit_frame ch rnd fuel _ s1 h
  refine ⟨?_, ?_, ?_⟩
  · rw [f4, (restoreHead_fields ch _).2.2.2.1]
  · intro b hb
    rw [f1, restoreHead_of_some ch
      { s with status := SyncStatus.SyncStatusInit,
               fastSyncMode := FastSyncMode.FastSyncModeNone,
               fastSyncStatus := FastSyncStatus.FastSyncStatusNone } b hb]
  · intro hn
    rw [f1, restoreHead_of_none ch
      { s with status := SyncStatus.SyncStatusInit,
               fastSyncMode := FastSyncMode.FastSyncModeNone,
               fastSyncStatus := FastSyncStatus.FastSyncStatusNone } hn]

/-- What the `peer_sync_err` handler leaves in status `PeerSync`: `lastHeadBlock` as it
was, and the chain after `SetCurrentBlock(lastHeadBlock)`, or the chain as it was when
`lastHeadBlock` is nil. -/
theorem onPeerSyncErr_head {W : Type} (ch : SyncChain W) (s : Synchronizer W) (p : Peer)
    (hst : s.status = SyncStatus.SyncStatusPeerSync) :
    (onPeerSyncErr ch s p).lastHeadBlock = s.lastHeadBlock ∧
    (∀ b, s.lastHeadBlock = some b →
      (onPeerSyncErr ch s p).chain = ch.SetCurrentBlock s.chain b) ∧
    (s.lastHeadBlock = none → (onPeerSyncErr ch s p).chain = s.chain) := by
  have hm := startMiner_fields s
  simp only [onPeerSyncErr, if_pos hst, goStartTask]
  refine ⟨?_, ?_, ?_⟩
  · rw [(restoreHead_fields ch _).2.2.2.1]
    exact hm.2.2.1
  · intro b hb
    have hl : (startMiner s).lastHeadBlock = some b := by
      rw [hm.2.2.1]; exact hb
    rw [restoreHead_of_some ch { startMiner s with status := SyncStatus.SyncStatusNormal } b hl]
    show ch.SetCurrentBlock (startMiner s).chain b = _
    rw [hm.1]
  · intro hn
    have hl : (startMiner s).lastHeadBlock = none := by
      rw [hm.2.2.1]; exact hn
    rw [restoreHead_of_none ch { startMiner s with status := SyncStatus.SyncStatusNormal } hl]
    exact hm.1

/-- C11 (safety on failure, amended). After the loop handles a `fast_sync_err` event in
status `FastSync`, or a `peer_sync_err` event in status `PeerSync`: `lastHeadBlock` is as
it was; when it is a block `b` the chain is the one `SetCurrentBlock(b)` left, so that on
a chain whose `CurrentBlock` returns what `SetCurrentBlock` stored the current block is
`b`; when it is nil the chain is as it was.  The `peer_sync_err` handler always returns;
the `fast_sync_err` handler returns when `doInit` does, that is with fewer peers than
`MinRegularPeerCount` or once the random source has yielded `MinRegularPeerCount`
distinct indices.  An event that arrives in another status leaves the synchronizer, the
chain included, as it was. -/
theorem C11_safety_on_failure {W : Type} (ch : SyncChain W) (rnd : Nat → Nat) (fuel : Nat)
    (s : Synchronizer W) (p : Peer) :
    (s.status = SyncStatus.SyncStatusFastSync →
      (∀ s1, loopStep ch rnd fuel s Event.fastSyncErr = Res.done s1 →
        s1.lastHeadBlock = s.lastHeadBlock ∧
        (∀ b, s.lastHeadBlock = some b →
          s1.chain = ch.SetCurrentBlock s.chain b ∧
          ((∀ w x, ch.CurrentBlock (ch.SetCurrentBlock w x) = x) →
            ch.CurrentBlock s1.chain = b)) ∧
        (s.lastHeadBlock = none → s1.chain = s.chain)) ∧
      ((s.peers.length : Int) < s.config.MinRegularPeerCount ∨
        s.config.MinRegularPeerCount ≤
          ((keysAfter rnd (s.peers.length : Int) fuel 0 []).length : Int) →
        ∃ s1, loopStep ch rnd fuel s Event.fastSyncErr = Res.done s1)) ∧
    (s.status = SyncStatus.SyncStatusPeerSync →
      ∃ s1, loopStep ch rnd fuel s (Event.peerSyncErr p) = Res.done s1 ∧
        s1.lastHeadBlock = s.lastHeadBlock ∧
        (∀ b, s.lastHeadBlock = some b →
          s1.chain = ch.SetCurrentBlock s.chain b ∧
          ((∀ w x, ch.CurrentBlock (ch.SetCurrentBlock w x) = x) →
            ch.CurrentBlock s1.chain = b)) ∧
        (s.lastHeadBlock = none → s1.chain = s.chain)) ∧
    (s.status ≠ SyncStatus.SyncStatusFastSync →
      loopStep ch rnd fuel s Event.fastSyncErr = Res.done s) ∧
    (s.status ≠ SyncStatus.SyncStatusPeerSync →
      loopStep ch rnd fuel s (Event.peerSyncErr p) = Res.done s) := by
  refine ⟨?_, ?_, ?_, ?_⟩
  · intro hst
    constructor
    · intro s1 h1
      obtain ⟨a1, a2, a3⟩ := onFastSyncErr_head ch rnd fuel s s1 hst h1
      refine ⟨a1, fun b hb => ⟨a2 b hb, fun hlaw => ?_⟩, a3⟩
      rw [a2 b hb]
      exact hlaw _ _
    · intro hret
      obtain ⟨s1, h1⟩ := doInit_returns ch rnd fuel
        (restoreHead ch { s with status := SyncStatus.SyncStatusInit,
                                 fastSyncMode := FastSyncMode.FastSyncModeNone,
                                 fastSyncStatus := FastSyncStatus.FastSyncStatusNone })
        (by rw [(restoreHead_fields ch _).2.2.2.2.2.1, (restoreHead_fields ch _).2.2.2.2.2.2]
            exact hret)
      exact ⟨s1, by simp only [loopStep, onFastSyncErr, if_pos hst]; exact h1⟩
  · intro hst
    obtain ⟨a1, a2, a3⟩ := onPeerSyncErr_head ch s p hst
    refine ⟨onPeerSyncErr ch s p, rfl, a1, fun b hb => ⟨a2 b hb, fun hlaw => ?_⟩, a3⟩
    rw [a2 b hb]
    exact hlaw _ _
  · intro h
    simp only [loopStep, onFastSyncErr, if_neg h]
  · intro h
    simp only [loopStep, onPeerSyncErr, if_neg h]

theorem C11_safety_on_failure_witness :
    (sync0 SyncStatus.SyncStatusFastSync [peerA] H2 (some H1)).status =
      SyncStatus.SyncStatusFastSync ∧
    (((sync0 SyncStatus.SyncStatusFastSync [peerA] H2 (some H1)).peers.length : Int) <
      (sync0 SyncStatus.SyncStatusFastSync [peerA] H2 (some H1)).config.MinRegularPeerCount) ∧
    (∃ s1, loopStep headChain (fun i => i) 0
      (sync0 SyncStatus.SyncStatusFastSync [peerA] H2 (some H1)) Event.fastSyncErr =
        Res.done s1) ∧
    (sync0 SyncStatus.SyncStatusPeerSync [peerA, peerB, peerC] H2 (some H1)).status =
      SyncStatus.SyncStatusPeerSync ∧
    (sync0 SyncStatus.SyncStatusPeerSync [peerA, peerB, peerC] H2 (some H1)).lastHeadBlock =
      some H1 ∧
    (∀ (w : Block × Block) (x : Block),
      headChain.CurrentBlock (headChain.SetCurrentBlock w x) = x) ∧
    ∃ s1, loopStep headChain (fun i => i) 3
        (sync0 SyncStatus.SyncStatusPeerSync [peerA, peerB, peerC] H2 (some H1))
        (Event.peerSyncErr peerA) = Res.done s1 ∧
      s1.lastHeadBlock = some H1 ∧ headChain.CurrentBlock s1.chain = H1 :=
  have hp := (C11_safety_on_failure headChain (fun i => i) 3
    (sync0 SyncStatus.SyncStatusPeerSync [peerA, peerB, peerC] H2 (some H1)) peerA).2.1 rfl
  ⟨rfl, by decide,
    ((C11_safety_on_failure headChain (fun i => i) 0
      (sync0 SyncStatus.SyncStatusFastSync [peerA] H2 (some H1)) peerA).1 rfl).2
      (Or.inl (by decide)),
    rfl, rfl, fun _ _ => rfl,
    hp.elim fun s1 h => ⟨s1, h.1, h.2.1, (h.2.2.1 H1 rfl).2 (fun _ _ => rfl)⟩⟩

/-- C12 (fast-sync failure handling). When the loop handles `fast_sync_err` in status
`FastSync`, it sets the status to `Init`, both fast-sync enums to `None`, sets the chain's
current block to `lastHeadBlock` when that is not nil, and runs `doInit` on that state:
the handler's result is `doInit` of the reset state, and whenever it returns the two
fast-sync enums are still `None`.  It returns when there are fewer peers than
`MinRegularPeerCount`, in which case the state after the handler is the reset state
itself (status `Init`), or once the random source has yielded `MinRegularPeerCount`
distinct indices. -/
theorem C12_fast_sync_failure {W : Type} (ch : SyncChain W) (rnd : Nat → Nat) (fuel : Nat)
    (s : Synchronizer W) (hst : s.status = SyncStatus.SyncStatusFastSync) :
    loopStep ch rnd fuel s Event.fastSyncErr =
      doInit ch rnd fuel
        { s with
          status := SyncStatus.SyncStatusInit,
          fastSyncMode := FastSyncMode.FastSyncModeNone,
          fastSyncStatus := FastSyncStatus.FastSyncStatusNone,
          chain := (match s.lastHeadBlock with
            | some b => ch.SetCurrentBlock s.chain b
            | none => s.chain),
          log := (match s.lastHeadBlock with
            | some b => s.log ++ [Effect.setCurrentBlock b]
            | none => s.log) } ∧
    (∀ s1, loopStep ch rnd fuel s Event.fastSyncErr = Res.done s1 →
      s1.fastSyncMode = FastSyncMode.FastSyncModeNone ∧
      s1.fastSyncStatus = FastSyncStatus.FastSyncStatusNone) ∧
    ((s.peers.length : Int) < s.config.MinRegularPeerCount ∨
      s.config.MinRegularPeerCount ≤
        ((keysAfter rnd (s.peers.length : Int) fuel 0 []).length : Int) →
      ∃ s1, loopStep ch rnd fuel s Event.fastSyncErr = Res.done s1 ∧
        s1.fastSyncMode = FastSyncMode.FastSyncModeNone ∧
        s1.fastSyncStatus = FastSyncStatus.FastSyncStatusNone) ∧
    ((s.peers.length : Int) < s.config.MinRegularPeerCount →
      loopStep ch rnd fuel s Event.fastSyncErr =
        Res.done
          { s with
            status := SyncStatus.SyncStatusInit,
            fastSyncMode := FastSyncMode.FastSyncModeNone,
            fastSyncStatus := FastSyncStatus.FastSyncStatusNone,
            chain := (match s.lastHeadBlock with
              | some b => ch.SetCurrentBlock s.chain b
              | none => s.chain),
            log := (match s.lastHeadBlock with
              | some b => s.log ++ [Effect.setCurrentBlock b]
              | none => s.log) }) := by
  have hreset : restoreHead ch { s with status := SyncStatus.SyncStatusInit,
                                        fastSyncMode := FastSyncMode.FastSyncModeNone,
                                        fastSyncStatus := FastSyncStatus.FastSyncStatusNone } =
      { s with
          status := SyncStatus.SyncStatusInit,
          fastSyncMode := FastSyncMode.FastSyncModeNone,
          fastSyncStatus := FastSyncStatus.FastSyncStatusNone,
          chain := (match s.lastHeadBlock with
            | some b => ch.SetCurrentBlock s.chain b
            | none => s.chain),
          log := (match s.lastHeadBlock with
            | some b => s.log ++ [Effect.setCurrentBlock b]
            | none => s.log) } := by
    cases hl : s.lastHeadBlock with
    | none => rfl
    | some b => rfl
  have hstep : loopStep ch rnd fuel s Event.fastSyncErr =
      doInit ch rnd fuel (restoreHead ch { s with status := SyncStatus.SyncStatusInit,
                                                  fastSyncMode := FastSyncMode.FastSyncModeNone,
                                                  fastSyncStatus :=
                                                    FastSyncStatus.FastSyncStatusNone }) := by
    simp only [loopStep, onFastSyncErr, if_pos hst]
  have henum : ∀ s1, loopStep ch rnd fuel s Event.fastSyncErr = Res.done s1 →
      s1.fastSyncMode = FastSyncMode.FastSyncModeNone ∧
      s1.fastSyncStatus = FastSyncStatus.FastSyncStatusNone := by
    intro s1 h1
    rw [hstep] at h1
    obtain ⟨_, f2, f3, _⟩ := doInit_frame ch rnd fuel _ s1 h1
    exact ⟨by rw [f2, (restoreHead_fields ch _).2.1], by rw [f3, (restoreHead_fields ch _).2.2.1]⟩
  refine ⟨by rw [hstep, hreset], henum, ?_, ?_⟩
  · intro hret
    obtain ⟨s1, h1⟩ := doInit_returns ch rnd fuel
      (restoreHead ch { s with status := SyncStatus.SyncStatusInit,
                               fastSyncMode := FastSyncMode.FastSyncModeNone,
                               fastSyncStatus := FastSyncStatus.FastSyncStatusNone })
      (by rw [(restoreHead_fields ch _).2.2.2.2.2.1, (restoreHead_fields ch _).2.2.2.2.2.2]
          exact hret)
    have h2 : loopStep ch rnd fuel s Event.fastSyncErr = Res.done s1 := by
      rw [hstep]; exact h1
    exact ⟨s1, h2, henum s1 h2⟩
  · intro hfew
    rw [hstep, hreset]
    unfold doInit
    exact if_pos hfew

theorem C12_fast_sync_failure_witness :
    (sync0 SyncStatus.SyncStatusFastSync [peerA] H2 (some H1)).status =
      SyncStatus.SyncStatusFastSync ∧
    (((sync0 SyncStatus.SyncStatusFastSync [peerA] H2 (some H1)).peers.length : Int) <
      (sync0 SyncStatus.SyncStatusFastSync [peerA] H2 (some H1)).config.MinRegularPeerCount) ∧
    (∃ s1, loopStep headChain (fun i => i) 0
        (sync0 SyncStatus.SyncStatusFastSync [peerA] H2 (some H1)) Event.fastSyncErr =
          Res.done s1 ∧
      s1.fastSyncMode = FastSyncMode.FastSyncModeNone ∧
      s1.fastSyncStatus = FastSyncStatus.FastSyncStatusNone) ∧
    (sync0 SyncStatus.SyncStatusFastSync [peerA, peerB, peerC] H2 (some H1)).status =
      SyncStatus.SyncStatusFastSync ∧
    ∃ s1, loopStep headChain (fun i => i) 3
        (sync0 SyncStatus.SyncStatusFastSync [peerA, peerB, peerC] H2 (some H1))
        Event.fastSyncErr = Res.done s1 ∧
      s1.fastSyncMode = FastSyncMode.FastSyncModeNone ∧
      s1.fastSyncStatus = FastSyncStatus.FastSyncStatusNone :=
  ⟨rfl, by decide,
    (C12_fast_sync_failure headChain (fun i => i) 0
      (sync0 SyncStatus.SyncStatusFastSync [peerA] H2 (some H1)) rfl).2.2.1
      (Or.inl (by decide)),
    rfl,
    (C12_fast_sync_failure headChain (fun i => i) 3
      (sync0 SyncStatus.SyncStatusFastSync [peerA, peerB, peerC] H2 (some H1)) rfl).2.2.1
      (Or.inr (by decide))⟩

/-- C13 (Init decision table). With fewer peers than `MinRegularPeerCount`, `doInit` leaves
the synchronizer as it is (same status, nothing started).  Otherwise, once the sampling
has returned, with `d` the height difference from `getHeightDiffFromRegularPeers`:
for `d < HeightDiff` it starts the CP2FP task and sets the status to `Normal`; for
`d >= HeightDiff` with at least `MinFastSyncPeerCount` peers it sets the status to
`FastSync` and starts the fast sync; for `d >= HeightDiff` with fewer peers it leaves the
synchronizer as it is. -/
theorem C13_init_decision {W : Type} (ch : SyncChain W) (rnd : Nat → Nat) (fuel : Nat)
    (s : Synchronizer W) :
    ((s.peers.length : Int) < s.config.MinRegularPeerCount → doInit ch rnd fuel s = Res.done s) ∧
    (s.config.MinRegularPeerCount ≤ (s.peers.length : Int) →
      s.config.MinRegularPeerCount ≤
        ((keysAfter rnd (s.peers.length : Int) fuel 0 []).length : Int) →
      ∃ d ps, getHeightDiffFromRegularPeers ch rnd fuel s = Res.done (d, ps) ∧
        (d < s.config.HeightDiff →
          doInit ch rnd fuel s = Res.done { s with
            status := SyncStatus.SyncStatusNormal,
            log := s.log ++
              [Effect.cp2fpStartTask (ch.Genesis s.chain) (ch.CurrentBlock s.chain) s.peers] }) ∧
        (s.config.HeightDiff ≤ d → s.config.MinFastSyncPeerCount ≤ (s.peers.length : Int) →
          doInit ch rnd fuel s = Res.done { s with
            status := SyncStatus.SyncStatusFastSync,
            log := s.log ++ [Effect.goDoFastSync] }) ∧
        (s.config.HeightDiff ≤ d → (s.peers.length : Int) < s.config.MinFastSyncPeerCount →
          doInit ch rnd fuel s = Res.done s)) := by
  constructor
  · intro h1
    simp only [doInit, if_pos h1]
  · intro h1 hdraws
    obtain ⟨r, hr⟩ := getHeightDiffFromRegularPeers_done ch rnd fuel s h1 hdraws
    have heq := doInit_of_diff ch rnd fuel s r (not_lt.mpr h1) hr
    refine ⟨r.1, r.2, hr, ?_, ?_, ?_⟩
    · intro hd
      rw [heq, if_pos hd]
    · intro hd hp
      rw [heq, if_neg (not_lt.mpr hd), if_pos hp]
    · intro hd hp
      rw [heq, if_neg (not_lt.mpr hd), if_neg (not_le.mpr hp)]

theorem C13_init_decision_witness :
    ((sync0 SyncStatus.SyncStatusInit [peerA, peerB, peerC] H1 none).config.MinRegularPeerCount ≤
      ((sync0 SyncStatus.SyncStatusInit [peerA, peerB, peerC] H1 none).peers.length : Int)) ∧
    ∃ d ps, getHeightDiffFromRegularPeers headChain (fun i => i) 3
        (sync0 SyncStatus.SyncStatusInit [peerA, peerB, peerC] H1 none) = Res.done (d, ps) ∧
      (d < (sync0 SyncStatus.SyncStatusInit [peerA, peerB, peerC] H1 none).config.HeightDiff →
        doInit headChain (fun i => i) 3
          (sync0 SyncStatus.SyncStatusInit [peerA, peerB, peerC] H1 none) =
          Res.done { sync0 SyncStatus.SyncStatusInit [peerA, peerB, peerC] H1 none with
            status := SyncStatus.SyncStatusNormal,
            log := (sync0 SyncStatus.SyncStatusInit [peerA, peerB, peerC] H1 none).log ++
              [Effect.cp2fpStartTask
                (headChain.Genesis (sync0 SyncStatus.SyncStatusInit [peerA, peerB, peerC] H1 none).chain)
                (headChain.CurrentBlock
                  (sync0 SyncStatus.SyncStatusInit [peerA, peerB, peerC] H1 none).chain)
                (sync0 SyncStatus.SyncStatusInit [peerA, peerB, peerC] H1 none).peers] }) :=
  ⟨by decide, by
    obtain ⟨d, ps, h1, h2, _⟩ := (C13_init_decision headChain (fun i => i) 3
      (sync0 SyncStatus.SyncStatusInit [peerA, peerB, peerC] H1 none)).2 (by decide) (by decide)
    exact ⟨d, ps, h1, h2⟩⟩

/-- C14 (fast-sync completion). When the loop handles `fast_sync_finished` in status
`FastSync`, it starts the miner when one is set, sets the status to `Normal`, clears
`lastHeadBlock`, and makes no call on the chain: the chain world is untouched and the
only effect is the miner start. -/
theorem C14_fast_sync_finished {W : Type} (ch : SyncChain W) (rnd : Nat → Nat) (fuel : Nat)
    (s : Synchronizer W) (hst : s.status = SyncStatus.SyncStatusFastSync) :
    loopStep ch rnd fuel s Event.fastSyncFinished =
      Res.done { s with
        status := SyncStatus.SyncStatusNormal,
        lastHeadBlock := none,
        log := s.log ++ (if s.hasMiner then [Effect.minerStart] else []) } ∧
    (onFastSyncFinished s).chain = s.chain ∧
    ch.CurrentBlock (onFastSyncFinished s).chain = ch.CurrentBlock s.chain := by
  have h : onFastSyncFinished s = { s with
        status := SyncStatus.SyncStatusNormal,
        lastHeadBlock := none,
        log := s.log ++ (if s.hasMiner then [Effect.minerStart] else []) } := by
    simp only [onFastSyncFinished, if_pos hst, startMiner]
    split_ifs <;> simp
  refine ⟨by simp only [loopStep, h], ?_, ?_⟩
  · rw [h]
  · rw [h]

theorem C14_fast_sync_finished_witness :
    (sync0 SyncStatus.SyncStatusFastSync [peerA] H2 (some H1)).status =
      SyncStatus.SyncStatusFastSync ∧
    (onFastSyncFinished (sync0 SyncStatus.SyncStatusFastSync [peerA] H2 (some H1))).chain =
      (sync0 SyncStatus.SyncStatusFastSync [peerA] H2 (some H1)).chain :=
  ⟨rfl, (C14_fast_sync_finished headChain (fun i => i) 0
    (sync0 SyncStatus.SyncStatusFastSync [peerA] H2 (some H1)) rfl).2.1⟩

/-- C15, as stated, fails: with the local height at 50 and a peer at height 56 the gap is
`56 - 50 >= peerSyncThreshold`, yet `doCheckPeer` does not call `DoPeerSync`. -/
theorem C15_peer_sync_trigger_counterexample :
    (doCheckPeer headChain
      (sync0 SyncStatus.SyncStatusNormal [peerC] { height := 50, round := 9, fullHash := 7 } none)
      peerC).log = [] ∧
    peerC.height - 50 ≥ peerSyncThreshold := by
  decide

/-- C15 (peer-sync trigger, amended). For a local height below `2^64 - 6`, `doCheckPeer`
calls `DoPeerSync(p)` exactly when `currentHeight + peerSyncThreshold < peerHeight`, that
is when the peer is more than 6 ahead (`peerHeight - currentHeight >= 7`); otherwise it
does nothing. -/
theorem C15_peer_sync_trigger {W : Type} (ch : SyncChain W) (s : Synchronizer W) (p : Peer)
    (hb : (ch.CurrentBlock s.chain).height + peerSyncThreshold < 2 ^ 64) :
    ((doCheckPeer ch s p).log = s.log ++ [Effect.DoPeerSync p] ↔
      (ch.CurrentBlock s.chain).height + peerSyncThreshold < p.height) ∧
    ((ch.CurrentBlock s.chain).height + peerSyncThreshold < p.height ↔
      p.height - (ch.CurrentBlock s.chain).height ≥ 7) ∧
    (¬ (ch.CurrentBlock s.chain).height + peerSyncThreshold < p.height →
      doCheckPeer ch s p = s) := by
  have hmod : ((ch.CurrentBlock s.chain).height + peerSyncThreshold) % 2 ^ 64 =
      (ch.CurrentBlock s.chain).height + peerSyncThreshold := Nat.mod_eq_of_lt hb
  refine ⟨?_, ?_, ?_⟩
  · unfold doCheckPeer
    simp only [hmod]
    split_ifs with h
    · simp [h]
    · simp [h]
  · unfold peerSyncThreshold
    omega
  · intro h
    unfold doCheckPeer
    simp only [hmod, if_neg h]

theorem C15_peer_sync_trigger_witness :
    (headChain.CurrentBlock (sync0 SyncStatus.SyncStatusNormal [peerA]
      { height := 50, round := 9, fullHash := 7 } none).chain).height + peerSyncThreshold <
      2 ^ 64 ∧
    ((doCheckPeer headChain (sync0 SyncStatus.SyncStatusNormal [peerA]
        { height := 50, round := 9, fullHash := 7 } none) peerA).log =
        (sync0 SyncStatus.SyncStatusNormal [peerA]
          { height := 50, round := 9, fullHash := 7 } none).log ++ [Effect.DoPeerSync peerA] ↔
      (headChain.CurrentBlock (sync0 SyncStatus.SyncStatusNormal [peerA]
        { height := 50, round := 9, fullHash := 7 } none).chain).height + peerSyncThreshold <
        peerA.height) :=
  ⟨by decide, (C15_peer_sync_trigger headChain (sync0 SyncStatus.SyncStatusNormal [peerA]
    { height := 50, round := 9, fullHash := 7 } none) peerA (by decide)).1⟩

/-! ## Claims on `findAndCheckMainChain` -/

/-- C18 (consensus failure drop policy). When `findMainChainPeers` fails with an error
other than "not enough peers", `removePeerCallback(id, false)` is called once for every
peer of the input list, in order, and the error is returned with a nil peer list; when it
fails with "not enough peers", no peer is dropped and that error is returned with a nil
peer list. -/
theorem C18_consensus_failure
    (find : List (String × List HashElem) → List Peer → List (String × Int) → Int →
      MainChainPeers)
    (best : List Peer → Peer)
    (check : List Peer → Peer → List HashElem → HashElem → Bool → FixPointCheck)
    (inter : List (String × List HashElem)) (peers : List Peer) (comPreCount : Int)
    (idx : List (String × Int)) (e : String)
    (herr : (find inter peers idx comPreCount).err = some e) :
    (e ≠ errNotEnoughPeers →
      findAndCheckMainChain find best check inter peers comPreCount idx =
        { peers := none, err := some e,
          removed := peers.map (fun p => Effect.removePeerCallback p.id false) }) ∧
    (e = errNotEnoughPeers →
      findAndCheckMainChain find best check inter peers comPreCount idx =
        { peers := none, err := some e, removed := [] }) := by
  constructor
  · intro hne
    simp only [findAndCheckMainChain, herr, if_neg hne, removeAll]
  · intro heq
    simp only [findAndCheckMainChain, herr, if_pos heq]

theorem C18_consensus_failure_witness :
    (findFails errCanNotGetConsensus [] [peerA, peerB] [] 2).err = some errCanNotGetConsensus ∧
    errCanNotGetConsensus ≠ errNotEnoughPeers ∧
    findAndCheckMainChain (findFails errCanNotGetConsensus) (fun _ => peerA) (checkWith []) []
      [peerA, peerB] 2 [] =
      { peers := none, err := some errCanNotGetConsensus,
        removed := [peerA, peerB].map (fun p => Effect.removePeerCallback p.id false) } :=
  ⟨rfl, by decide, (C18_consensus_failure (findFails errCanNotGetConsensus) (fun _ => peerA)
    (checkWith []) [] [peerA, peerB] 2 [] errCanNotGetConsensus rfl).1 (by decide)⟩

/-- C19, as stated, fails: with `|P| = 3`, `comPreCount = 2` and one peer failing
verification the number of failures equals `|P| - comPreCount`, yet the check passes: all
three peers are returned and nobody is dropped. -/
theorem C19_check_threshold_counterexample :
    findAndCheckMainChain findAll3 (fun _ => peerA) (checkWith [peerC]) []
      [peerA, peerB, peerC] 2 [] =
      { peers := some [peerA, peerB, peerC], err := none, removed := [] } ∧
    (([peerC].length : Int) ≥ ([peerA, peerB, peerC].length : Int) - 2) := by
  decide

/-- C19 (main-chain check threshold, amended). When `findMainChainPeers` succeeds with a
non-empty `leftPeers`, the check is treated as failed whenever more than
`|P| - comPreCount` peers failed verification, that is when fewer than `comPreCount` of
the `|P|` peers are left without error: a nil peer list is returned and
`removePeerCallback(id, false)` is called for each error peer. -/
theorem C19_check_threshold
    (find : List (String × List HashElem) → List Peer → List (String × Int) → Int →
      MainChainPeers)
    (best : List Peer → Peer)
    (check : List Peer → Peer → List HashElem → HashElem → Bool → FixPointCheck)
    (inter : List (String × List HashElem)) (peers : List Peer) (comPreCount : Int)
    (idx : List (String × Int))
    (hok : (find inter peers idx comPreCount).err = none)
    (hleft : sliceLen (find inter peers idx comPreCount).leftPeers ≠ 0)
    (hmany : (peers.length : Int) - comPreCount <
      ((check ((find inter peers idx comPreCount).leftPeers.getD [])
        (best ((find inter peers idx comPreCount).leftPeers.getD []))
        (find inter peers idx comPreCount).blockSyncHashList
        { height := 0, round := 0, hash := 0 } true).errPeers.length : Int)) :
    (findAndCheckMainChain find best check inter peers comPreCount idx).peers = none ∧
    (findAndCheckMainChain find best check inter peers comPreCount idx).removed =
      (check ((find inter peers idx comPreCount).leftPeers.getD [])
        (best ((find inter peers idx comPreCount).leftPeers.getD []))
        (find inter peers idx comPreCount).blockSyncHashList
        { height := 0, round := 0, hash := 0 } true).errPeers.map
        (fun p => Effect.removePeerCallback p.id false) := by
  have hcond : (peers.length : Int) -
      ((check ((find inter peers idx comPreCount).leftPeers.getD [])
        (best ((find inter peers idx comPreCount).leftPeers.getD []))
        (find inter peers idx comPreCount).blockSyncHashList
        { height := 0, round := 0, hash := 0 } true).errPeers.length : Int) < comPreCount := by
    omega
  simp only [findAndCheckMainChain, hok, if_neg hleft, hcond, or_true, if_true, removeAll]
  exact ⟨trivial, trivial⟩

theorem C19_check_threshold_witness :
    (findAll3 [] [peerA, peerB, peerC] [] 2).err = none ∧
    sliceLen (findAll3 [] [peerA, peerB, peerC] [] 2).leftPeers ≠ 0 ∧
    (findAndCheckMainChain findAll3 (fun _ => peerA) (checkWith [peerB, peerC]) []
      [peerA, peerB, peerC] 2 []).peers = none :=
  ⟨rfl, by decide, (C19_check_threshold findAll3 (fun _ => peerA) (checkWith [peerB, peerC]) []
    [peerA, peerB, peerC] 2 [] rfl (by decide) (by decide)).1⟩

/-- C20, failing input: `findMainChainPeers` agrees on three peers, the main-chain check
returns `check = true`, no error and two error peers, and `comPreCount = 2`.  Only one
peer is left without error, so the check is treated as failed (both error peers are
dropped, the peer list is nil), but the returned error is nil. -/
theorem C20_failure_not_signalled :
    findAndCheckMainChain findAll3 (fun _ => peerA) (checkWith [peerB, peerC]) []
      [peerA, peerB, peerC] 2 [] =
      { peers := none, err := none,
        removed := [Effect.removePeerCallback "b" false, Effect.removePeerCallback "c" false] } ∧
    (([peerA, peerB, peerC].length : Int) - ([peerB, peerC].length : Int) < 2) := by
  decide

/-! ## Peer-sync cooldown -/

theorem finishCalls_append (id : String) (a b : List Effect) :
    finishCalls id (a ++ b) = finishCalls id a + finishCalls id b := by
  induction a with
  | nil => simp [finishCalls]
  | cons x a ih =>
    cases x <;> simp [finishCalls, ih]
    omega

/-- In status `Normal` the loop returns on every event, stays in `Normal`, leaves the
peer-sync flags alone, and adds neither a timer nor a `finishDependErr` call. -/
theorem loopStep_normal {W : Type} (ch : SyncChain W) (rnd : Nat → Nat) (fuel : Nat)
    (s : Synchronizer W) (e : Event) (hst : s.status = SyncStatus.SyncStatusNormal) :
    ∃ s1 extra, loopStep ch rnd fuel s e = Res.done s1 ∧
      s1.status = SyncStatus.SyncStatusNormal ∧ s1.peerSyncStarted = s.peerSyncStarted ∧
      s1.log = s.log ++ extra ∧ (∀ now, newTimers now extra = []) ∧
      (∀ id, finishCalls id extra = 0) := by
  cases e with
  | newPeer p =>
    refine ⟨{ s with log := s.log ++ [Effect.goDoCheckPeer p] ++ [Effect.cp2fpRegisterPeer p] },
      [Effect.goDoCheckPeer p, Effect.cp2fpRegisterPeer p], ?_, ?_, ?_, ?_, ?_, ?_⟩
    · simp only [loopStep, onNewPeer, hst]
    · exact hst
    · rfl
    · simp
    · intro now; rfl
    · intro id; rfl
  | fastSyncFinished =>
    refine ⟨s, [], ?_, hst, rfl, by simp, fun _ => rfl, fun _ => rfl⟩
    simp [loopStep, onFastSyncFinished, hst]
  | fastSyncErr =>
    refine ⟨s, [], ?_, hst, rfl, by simp, fun _ => rfl, fun _ => rfl⟩
    simp [loopStep, onFastSyncErr, hst]
  | peerSyncFinished p =>
    refine ⟨s, [], ?_, hst, rfl, by simp, fun _ => rfl, fun _ => rfl⟩
    simp [loopStep, onPeerSyncFinished, hst]
  | peerSyncErr p =>
    refine ⟨s, [], ?_, hst, rfl, by simp, fun _ => rfl, fun _ => rfl⟩
    simp [loopStep, onPeerSyncErr, hst]
  | quit =>
    refine ⟨s, [], ?_, hst, rfl, by simp, fun _ => rfl, fun _ => rfl⟩
    simp [loopStep, onQuit, hst]

theorem Cooling_step {W : Type} (ch : SyncChain W) (id : String) (T c : Nat) (t : Timed W)
    (st : TimedStep) (h : Cooling id T c t) :
    ∃ t1, timedStep ch t st = Res.done t1 ∧ t.now ≤ t1.now ∧ Cooling id T c t1 := by
  obtain ⟨h1, h2, h3, h4⟩ := h
  cases st with
  | receive e rnd fuel =>
    by_cases hs : t.stopped = true
    · exact ⟨t, by simp [timedStep, hs], le_refl _, ⟨h1, h2, h3, h4⟩⟩
    · obtain ⟨s1, extra, e1, e2, e3, e4, e5, e6⟩ := loopStep_normal ch rnd fuel t.sync e h1
      have hstep : timedStep ch t (TimedStep.receive e rnd fuel) =
          Res.done { t with sync := s1,
                            timers := t.timers ++
                              newTimers t.now (s1.log.drop t.sync.log.length),
                            stopped := decide (e = Event.quit) } := by
        simp only [timedStep, hs, e1]
        rfl
      refine ⟨_, hstep, le_refl _, ⟨e2, ?_, ?_, ?_⟩⟩
      · intro hlt
        show s1.peerSyncStarted id = true
        rw [e3]
        exact h2 hlt
      · intro hlt
        show finishCalls id s1.log = c
        rw [e4, finishCalls_append, e6, Nat.add_zero]
        exact h3 hlt
      · intro hlt tm htm
        have htm1 : tm ∈ t.timers ++ newTimers t.now (s1.log.drop t.sync.log.length) := htm
        rw [e4, List.drop_left, e5, List.append_nil] at htm1
        exact h4 hlt tm htm1
  | wait d =>
    have hstep : timedStep ch t (TimedStep.wait d) = Res.done { t with now := t.now + d } := rfl
    refine ⟨_, hstep, Nat.le_add_right _ _, ⟨h1, ?_, ?_, ?_⟩⟩
    · intro hlt
      have hlt1 : t.now + d < T := hlt
      exact h2 (by omega)
    · intro hlt
      have hlt1 : t.now + d < T := hlt
      exact h3 (by omega)
    · intro hlt
      have hlt1 : t.now + d < T := hlt
      exact h4 (by omega)
  | fire k =>
    cases hk : t.timers[k]? with
    | none => exact ⟨t, by simp [timedStep, hk], le_refl _, ⟨h1, h2, h3, h4⟩⟩
    | some tm =>
      by_cases hdue : tm.due ≤ t.now
      · have hstep : timedStep ch t (TimedStep.fire k) =
            Res.done { t with sync := peerSyncErrTimeout t.sync tm.peer,
                              timers := t.timers.eraseIdx k } := by
          simp only [timedStep, hk, if_pos hdue]
        refine ⟨_, hstep, le_refl _, ⟨h1, ?_, ?_, ?_⟩⟩
        · intro hlt
          have hlt1 : t.now < T := hlt
          have hne : tm.peer.id ≠ id := by
            intro heq
            have := h4 hlt1 tm (List.getElem?_mem hk) heq
            omega
          show Function.update t.sync.peerSyncStarted tm.peer.id false id = true
          rw [Function.update_noteq (Ne.symm hne)]
          exact h2 hlt
        · intro hlt
          have hlt1 : t.now < T := hlt
          have hne : tm.peer.id ≠ id := by
            intro heq
            have := h4 hlt1 tm (List.getElem?_mem hk) heq
            omega
          show finishCalls id (t.sync.log ++ [Effect.finishDependErr tm.peer]) = c
          simp only [finishCalls_append, finishCalls, if_neg hne]
          exact h3 hlt
        · intro hlt tm1 htm1
          exact h4 hlt tm1 ((List.eraseIdx_sublist _ _).subset htm1)
      · exact ⟨t, by simp only [timedStep, hk, if_neg hdue], le_refl _, ⟨h1, h2, h3, h4⟩⟩

theorem Cooling_run {W : Type} (ch : SyncChain W) (id : String) (T c : Nat)
    (steps : List TimedStep) :
    ∀ t : Timed W, Cooling id T c t →
      ∃ t1, timedRun ch t steps = Res.done t1 ∧ t.now ≤ t1.now ∧ Cooling id T c t1 := by
  induction steps with
  | nil => intro t h; exact ⟨t, rfl, le_refl _, h⟩
  | cons st rest ih =>
    intro t h
    obtain ⟨t1, e1, e2, e3⟩ := Cooling_step ch id T c t st h
    obtain ⟨t2, f1, f2, f3⟩ := ih t1 e3
    refine ⟨t2, ?_, le_trans e2 f2, f3⟩
    simp only [timedRun, e1]
    exact f1

theorem newTimers_append (now : Nat) (a b : List Effect) :
    newTimers now (a ++ b) = newTimers now a ++ newTimers now b := by
  induction a with
  | nil => rfl
  | cons x a ih => cases x <;> simp [newTimers, ih]

theorem startMiner_log {W : Type} (s : Synchronizer W) :
    ∃ m, (startMiner s).log = s.log ++ m ∧ (∀ now, newTimers now m = []) ∧
      (∀ id, finishCalls id m = 0) := by
  unfold startMiner
  split_ifs
  · exact ⟨[Effect.minerStart], rfl, fun _ => rfl, fun _ => rfl⟩
  · exact ⟨[], by simp, fun _ => rfl, fun _ => rfl⟩

theorem restoreHead_log {W : Type} (ch : SyncChain W) (s : Synchronizer W) :
    ∃ r, (restoreHead ch s).log = s.log ++ r ∧ (∀ now, newTimers now r = []) ∧
      (∀ id, finishCalls id r = 0) := by
  unfold restoreHead
  split
  · rename_i b _
    exact ⟨[Effect.setCurrentBlock b], rfl, fun _ => rfl, fun _ => rfl⟩
  · exact ⟨[], by simp, fun _ => rfl, fun _ => rfl⟩

/-- Effects of the `peerSyncErrCh` case in status `PeerSync`: one timer of
`finishDependErrTime` seconds for the peer, and no `finishDependErr` call. -/
theorem onPeerSyncErr_spec {W : Type} (ch : SyncChain W) (s : Synchronizer W) (p : Peer)
    (hst : s.status = SyncStatus.SyncStatusPeerSync) :
    (onPeerSyncErr ch s p).status = SyncStatus.SyncStatusNormal ∧
    (onPeerSyncErr ch s p).peerSyncStarted = s.peerSyncStarted ∧
    ∃ extra, (onPeerSyncErr ch s p).log = s.log ++ extra ∧
      (∀ now, newTimers now extra = [{ due := now + finishDependErrTime, peer := p }]) ∧
      (∀ id, finishCalls id extra = 0) := by
  obtain ⟨m, m1, m2, m3⟩ := startMiner_log s
  obtain ⟨r, r1, r2, r3⟩ := restoreHead_log ch
    { startMiner s with status := SyncStatus.SyncStatusNormal }
  have hf := restoreHead_fields ch { startMiner s with status := SyncStatus.SyncStatusNormal }
  have hm := startMiner_fields s
  simp only [onPeerSyncErr, if_pos hst, goStartTask]
  refine ⟨hf.1, ?_, m ++ r ++ [Effect.afterFunc finishDependErrTime p,
    Effect.goCp2fpStartTask
      (ch.Genesis (restoreHead ch
        { startMiner s with status := SyncStatus.SyncStatusNormal }).chain)
      (ch.CurrentBlock (restoreHead ch
        { startMiner s with status := SyncStatus.SyncStatusNormal }).chain)
      (restoreHead ch { startMiner s with status := SyncStatus.SyncStatusNormal }).peers],
    ?_, ?_, ?_⟩
  · rw [hf.2.2.2.2.1]
    exact hm.2.2.2.1
  · rw [r1]
    show (startMiner s).log ++ r ++ _ ++ _ = _
    simp only [m1, List.append_assoc, List.singleton_append]
  · intro now
    rw [newTimers_append, newTimers_append, m2, r2]
    rfl
  · intro id
    rw [finishCalls_append, finishCalls_append, m3, r3]
    rfl

/-- Effects of the `peerSyncFinishedCh` case in status `PeerSync`: the flag of the peer is
cleared and `finishDependErr` is called for it, at once. -/
theorem onPeerSyncFinished_spec {W : Type} (ch : SyncChain W) (s : Synchronizer W) (p : Peer)
    (hst : s.status = SyncStatus.SyncStatusPeerSync) :
    (onPeerSyncFinished ch s p).peerSyncStarted p.id = false ∧
    finishCalls p.id (onPeerSyncFinished ch s p).log = finishCalls p.id s.log + 1 := by
  obtain ⟨m, m1, _, m3⟩ := startMiner_log s
  simp only [onPeerSyncFinished, if_pos hst, goStartTask]
  constructor
  · simp
  · rw [m1]
    simp only [finishCalls_append, m3, finishCalls]
    simp

/-- C16 (peer-sync cooldown). When the loop handles `peer_sync_err` for peer `p` in status
`PeerSync`, it sets the status to `Normal`, leaves `peerSyncStarted` as it is, calls no
`finishDependErr`, and schedules one timer `finishDependErrTime = 600` seconds ahead whose
callback clears `peerSyncStarted[p]` and calls `finishDependErr(p)`.  If the flag of `p`
is set and no other timer for `p` is due earlier, then through every later sequence of
loop events, waits and timer firings the flag stays set, no `finishDependErr(p)` is
added, and an admission check that refuses flagged peers refuses `p`, as long as less
than 600 seconds have passed.  A `peer_sync_finished` event clears the flag and calls
`finishDependErr(p)` at once. -/
theorem C16_cooldown {W : Type} (ch : SyncChain W) (t0 : Timed W) (p : Peer) (rnd : Nat → Nat)
    (fuel : Nat) (admits : Synchronizer W → Peer → Bool)
    (hadm : ∀ s q, s.peerSyncStarted q.id = true → admits s q = false)
    (hst : t0.sync.status = SyncStatus.SyncStatusPeerSync) (hrun : t0.stopped = false)
    (hflag : t0.sync.peerSyncStarted p.id = true)
    (hnone : ∀ tm ∈ t0.timers, tm.peer.id = p.id → t0.now + finishDependErrTime ≤ tm.due) :
    (onPeerSyncErr ch t0.sync p).status = SyncStatus.SyncStatusNormal ∧
    (onPeerSyncErr ch t0.sync p).peerSyncStarted = t0.sync.peerSyncStarted ∧
    finishCalls p.id (onPeerSyncErr ch t0.sync p).log = finishCalls p.id t0.sync.log ∧
    (∃ t1, timedStep ch t0 (TimedStep.receive (Event.peerSyncErr p) rnd fuel) = Res.done t1 ∧
      t1.timers = t0.timers ++ [{ due := t0.now + finishDependErrTime, peer := p }] ∧
      ∀ steps, ∃ t, timedRun ch t1 steps = Res.done t ∧
        (t.now < t0.now + finishDependErrTime →
          t.sync.peerSyncStarted p.id = true ∧ admits t.sync p = false ∧
          finishCalls p.id t.sync.log = finishCalls p.id t0.sync.log)) ∧
    (∀ s : Synchronizer W, (peerSyncErrTimeout s p).peerSyncStarted p.id = false ∧
      (peerSyncErrTimeout s p).log = s.log ++ [Effect.finishDependErr p]) ∧
    (∀ s : Synchronizer W, s.status = SyncStatus.SyncStatusPeerSync →
      (onPeerSyncFinished ch s p).peerSyncStarted p.id = false ∧
      finishCalls p.id (onPeerSyncFinished ch s p).log = finishCalls p.id s.log + 1) := by
  obtain ⟨a1, a2, extra, a3, a4, a5⟩ := onPeerSyncErr_spec ch t0.sync p hst
  have hcalls : finishCalls p.id (onPeerSyncErr ch t0.sync p).log =
      finishCalls p.id t0.sync.log := by
    rw [a3, finishCalls_append, a5, Nat.add_zero]
  have hstep : timedStep ch t0 (TimedStep.receive (Event.peerSyncErr p) rnd fuel) =
      Res.done { t0 with sync := onPeerSyncErr ch t0.sync p,
                         timers := t0.timers ++
                           [{ due := t0.now + finishDependErrTime, peer := p }],
                         stopped := false } := by
    simp only [timedStep, hrun, loopStep, a3, List.drop_left, a4]
    rfl
  refine ⟨a1, a2, hcalls, ⟨_, hstep, rfl, ?_⟩, ?_, ?_⟩
  · intro steps
    have hcool : Cooling p.id (t0.now + finishDependErrTime) (finishCalls p.id t0.sync.log)
        { t0 with sync := onPeerSyncErr ch t0.sync p,
                  timers := t0.timers ++
                    [{ due := t0.now + finishDependErrTime, peer := p }],
                  stopped := false } := by
      refine ⟨a1, fun _ => ?_, fun _ => hcalls, fun _ tm htm hid => ?_⟩
      · show (onPeerSyncErr ch t0.sync p).peerSyncStarted p.id = true
        rw [a2]; exact hflag
      · have htm1 : tm ∈ t0.timers ++ [{ due := t0.now + finishDependErrTime, peer := p }] := htm
        rcases List.mem_append.mp htm1 with h | h
        · exact hnone tm h hid
        · rw [List.mem_singleton] at h
          rw [h]
    obtain ⟨t, r1, _, r3⟩ := Cooling_run ch p.id _ _ steps _ hcool
    refine ⟨t, r1, fun hlt => ⟨r3.flag hlt, hadm _ _ (r3.flag hlt), r3.calls hlt⟩⟩
  · intro s
    simp [peerSyncErrTimeout]
  · intro s hs
    exact onPeerSyncFinished_spec ch s p hs

theorem C16_cooldown_witness :
    (∀ (s : Synchronizer (Block × Block)) (q : Peer),
      s.peerSyncStarted q.id = true → refusesStarted s q = false) ∧
    syncingA.sync.status = SyncStatus.SyncStatusPeerSync ∧ syncingA.stopped = false ∧
    syncingA.sync.peerSyncStarted peerA.id = true ∧
    (onPeerSyncErr headChain syncingA.sync peerA).status = SyncStatus.SyncStatusNormal ∧
    (onPeerSyncErr headChain syncingA.sync peerA).peerSyncStarted =
      syncingA.sync.peerSyncStarted ∧
    finishCalls peerA.id (onPeerSyncErr headChain syncingA.sync peerA).log =
      finishCalls peerA.id syncingA.sync.log ∧
    ∃ t1, timedStep headChain syncingA
        (TimedStep.receive (Event.peerSyncErr peerA) (fun i => i) 3) = Res.done t1 ∧
      t1.timers = syncingA.timers ++
        [{ due := syncingA.now + finishDependErrTime, peer := peerA }] ∧
      ∀ steps, ∃ t, timedRun headChain t1 steps = Res.done t ∧
        (t.now < syncingA.now + finishDependErrTime →
          t.sync.peerSyncStarted peerA.id = true ∧ refusesStarted t.sync peerA = false ∧
          finishCalls peerA.id t.sync.log = finishCalls peerA.id syncingA.sync.log) :=
  have hadm : ∀ (s : Synchronizer (Block × Block)) (q : Peer),
      s.peerSyncStarted q.id = true → refusesStarted s q = false :=
    fun s q h => by simp [refusesStarted, h]
  have h := C16_cooldown headChain syncingA peerA (fun i => i) 3 refusesStarted hadm rfl rfl
    (by decide) (fun tm htm _ => absurd htm (List.not_mem_nil tm))
  ⟨hadm, rfl, rfl, by decide, h.1, h.2.1, h.2.2.1, h.2.2.2.1⟩

/-! ## Further claims on the cursor and the synchronizer -/

/-- C25, failing input: the cursor over the one-element hash list `[H1]` finishes on `H1`
(`index = 1 = len(hashElems)`).  On the next `ProcessBlock` call with a block that passes
`checkBlock`, the first loop iteration reads `c.hashElems[c.index]` with `index = 1` on a
list of length 1, and the call panics. -/
theorem C25_index_out_of_range :
    (feed acceptAll (newRun [{ height := 100, round := 10, hash := 1 }] true 0 true ()) H1).cursor.index
      = 1 ∧
    IsFinished (feed acceptAll
      (newRun [{ height := 100, round := 10, hash := 1 }] true 0 true ()) H1).cursor = true ∧
    (feed acceptAll (newRun [{ height := 100, round := 10, hash := 1 }] true 0 true ())
      H1).cursor.hashElems.length = 1 ∧
    checkBlock [{ height := 100, round := 10, hash := 1 }] H1 = CheckResult.ok ∧
    (loopOf acceptAll (feed acceptAll
      (newRun [{ height := 100, round := 10, hash := 1 }] true 0 true ()) H1).cursor () H1).2 =
      Ctl.panicked ∧
    (ProcessBlock acceptAll (feed acceptAll
      (newRun [{ height := 100, round := 10, hash := 1 }] true 0 true ()) H1).cursor () H1).ret =
      Ret.panicked := by
  decide

/-- C26 (stale events are ignored). When the loop receives `fast_sync_finished` or
`fast_sync_err` while the status is not `FastSync`, or `peer_sync_finished` or
`peer_sync_err` while the status is not `PeerSync`, the synchronizer after the handler is
the one before it: every field, the chain world and the list of calls made are unchanged. -/
theorem C26_stale_events {W : Type} (ch : SyncChain W) (rnd : Nat → Nat) (fuel : Nat)
    (s : Synchronizer W) (p : Peer) :
    (s.status ≠ SyncStatus.SyncStatusFastSync →
      loopStep ch rnd fuel s Event.fastSyncFinished = Res.done s ∧
      loopStep ch rnd fuel s Event.fastSyncErr = Res.done s) ∧
    (s.status ≠ SyncStatus.SyncStatusPeerSync →
      loopStep ch rnd fuel s (Event.peerSyncFinished p) = Res.done s ∧
      loopStep ch rnd fuel s (Event.peerSyncErr p) = Res.done s) := by
  constructor
  · intro h
    simp only [loopStep, onFastSyncFinished, onFastSyncErr, if_neg h, and_self]
  · intro h
    simp only [loopStep, onPeerSyncFinished, onPeerSyncErr, if_neg h, and_self]

theorem C26_stale_events_witness :
    (sync0 SyncStatus.SyncStatusNormal [peerA] H2 (some H1)).status ≠
      SyncStatus.SyncStatusFastSync ∧
    loopStep headChain (fun i => i) 3 (sync0 SyncStatus.SyncStatusNormal [peerA] H2 (some H1))
      Event.fastSyncFinished = Res.done (sync0 SyncStatus.SyncStatusNormal [peerA] H2 (some H1)) ∧
    loopStep headChain (fun i => i) 3 (sync0 SyncStatus.SyncStatusNormal [peerA] H2 (some H1))
      Event.fastSyncErr = Res.done (sync0 SyncStatus.SyncStatusNormal [peerA] H2 (some H1)) :=
  ⟨by decide, (C26_stale_events headChain (fun i => i) 3
    (sync0 SyncStatus.SyncStatusNormal [peerA] H2 (some H1)) peerA).1 (by decide)⟩

/-- C27, failing input: local height 100 and sampled peers at heights 100, 56 and
`100 + 2^31`.  The gap is `2^31`, but `int32(diff)` is `-2^31`: `doInit` finds it below
`HeightDiff = 10`, starts the CP2FP task and moves to `Normal`, although four peers
(`MinFastSyncPeerCount`) are connected. -/
theorem C27_height_diff_truncated :
    getHeightDiffFromRegularPeers headChain (fun i => i + 1) 3
      (sync0 SyncStatus.SyncStatusInit [peerA, peerB, peerC, peerFar] H1 none) =
      Res.done (-2147483648, [peerB, peerC, peerFar]) ∧
    highestOf [peerB, peerC, peerFar] - H1.height = 2147483648 ∧
    doInit headChain (fun i => i + 1) 3
      (sync0 SyncStatus.SyncStatusInit [peerA, peerB, peerC, peerFar] H1 none) =
      Res.done { sync0 SyncStatus.SyncStatusInit [peerA, peerB, peerC, peerFar] H1 none with
        status := SyncStatus.SyncStatusNormal,
        log := [Effect.cp2fpStartTask H1 H1 [peerA, peerB, peerC, peerFar]] } := by
  refine ⟨?_, ?_, ?_⟩
  · rfl
  · decide
  · rfl

/-! ## The log bloom -/

theorem bigSetBytes_eq_ofDigits (buf : List Nat) :
    bigSetBytes buf = Nat.ofDigits 256 buf.reverse := by
  unfold bigSetBytes
  rw [Nat.ofDigits_eq_foldr, List.foldr_reverse]
  simp [Nat.mul_comm, Nat.add_comm]

theorem bytesLoop_eq (fuel : Nat) : ∀ (n : Nat) (acc : List Nat), n ≤ fuel →
    bytesLoop fuel n acc = (Nat.digits 256 n).reverse ++ acc := by
  induction fuel with
  | zero =>
    intro n acc h
    have : n = 0 := by omega
    subst this
    simp [bytesLoop]
  | succ fuel ih =>
    intro n acc h
    unfold bytesLoop
    split_ifs with h0
    · subst h0
      simp
    · have hpos : 0 < n := Nat.pos_of_ne_zero h0
      rw [ih (n / 256) _ (by omega), Nat.digits_def' (by norm_num) hpos]
      simp

theorem bigBytes_eq (n : Nat) : bigBytes n = (Nat.digits 256 n).reverse := by
  unfold bigBytes
  rw [bytesLoop_eq n n [] (Nat.le_refl n), List.append_nil]

theorem bigSetBytes_bigBytes (n : Nat) : bigSetBytes (bigBytes n) = n := by
  rw [bigSetBytes_eq_ofDigits, bigBytes_eq, List.reverse_reverse, Nat.ofDigits_digits]

theorem bigBytes_lt (n : Nat) : ∀ x ∈ bigBytes n, x < 256 := by
  intro x hx
  rw [bigBytes_eq, List.mem_reverse] at hx
  exact Nat.digits_lt_base (by norm_num) hx

theorem lt_pow_length_bigBytes (n : Nat) : n < 256 ^ (bigBytes n).length := by
  rw [bigBytes_eq, List.length_reverse]
  exact Nat.lt_base_pow_length_digits (by norm_num)

theorem bigSetBytes_lt (buf : List Nat) (h : ∀ x ∈ buf, x < 256) :
    bigSetBytes buf < 256 ^ buf.length := by
  rw [bigSetBytes_eq_ofDigits]
  have := Nat.ofDigits_lt_base_pow_length (b := 256) (l := buf.reverse) (by norm_num)
    (fun x hx => h x (List.mem_reverse.mp hx))
  simpa using this

theorem bigSetBytes_append (xs ys : List Nat) :
    bigSetBytes (xs ++ ys) = bigSetBytes xs * 256 ^ ys.length + bigSetBytes ys := by
  rw [bigSetBytes_eq_ofDigits, bigSetBytes_eq_ofDigits, bigSetBytes_eq_ofDigits,
    List.reverse_append, Nat.ofDigits_append, List.length_reverse]
  ring

theorem bigBytes_length_le (n k : Nat) (h : n < 256 ^ k) : (bigBytes n).length ≤ k := by
  by_contra hc
  have hk : k + 1 ≤ (bigBytes n).length := by omega
  rw [bigBytes_eq, List.length_reverse] at hk
  by_cases hn : n = 0
  · subst hn
    simp at hk
  · rw [Nat.digits_len 256 n (by norm_num) hn] at hk
    have h1 : Nat.log 256 n < k := Nat.log_lt_of_lt_pow hn h
    omega

theorem pow_BloomByteLength : 256 ^ BloomByteLength = 2 ^ BloomBitLength := by
  have h : (256 : Nat) = 2 ^ 8 := by norm_num
  rw [h, ← pow_mul, BloomBitLength]

theorem bloom9Step_some (b : List Nat) (r i : Nat) (hi : i + 1 < b.length)
    (hr : r < 2 ^ BloomBitLength) :
    ∃ m, bloom9Step b r i = some m ∧ m < 2 ^ BloomBitLength := by
  have hi0 : i < b.length := by omega
  have h1 : b[i + 1]? = some b[i + 1] := List.getElem?_eq_getElem hi
  have h0 : b[i]? = some b[i] := List.getElem?_eq_getElem hi0
  unfold bloom9Step
  rw [h1, h0]
  refine ⟨_, rfl, ?_⟩
  apply Nat.or_lt_two_pow hr
  rw [Nat.one_shiftLeft]
  apply Nat.pow_lt_pow_right (by norm_num)
  have hle : ∀ x : Nat, x &&& (BloomBitLength - 1) ≤ BloomBitLength - 1 :=
    fun x => Nat.and_le_right
  have hpos : 0 < BloomBitLength := by decide
  have := hle ((b[i + 1] + (b[i] <<< 8) % 2 ^ 64) % 2 ^ 64)
  omega

theorem bloom9_some (Keccak256 : List Nat → List Nat)
    (hk : ∀ x, (Keccak256 x).length = 32) (b : List Nat) :
    ∃ m, bloom9 Keccak256 b = some m ∧ m < 2 ^ BloomBitLength := by
  have hl := hk b
  obtain ⟨r0, e0, l0⟩ := bloom9Step_some (Keccak256 b) 0 0 (by omega) (Nat.pos_pow_of_pos _ (by norm_num))
  obtain ⟨r2, e2, l2⟩ := bloom9Step_some (Keccak256 b) r0 2 (by omega) l0
  obtain ⟨r4, e4, l4⟩ := bloom9Step_some (Keccak256 b) r2 4 (by omega) l2
  refine ⟨r4, ?_, l4⟩
  simp only [bloom9, e0, e2, e4, Option.bind]

/-- What `SetBytes` stores when given the bytes of a number `n` that has all bits of the
filter's old value: the array then holds `n`, padded with zero bytes in front. -/
theorem SetBytes_bigBytes (b : Bloom) (n : Nat) (hlen : b.length = BloomByteLength)
    (hbytes : ∀ x ∈ b, x < 256) (hn : n < 256 ^ BloomByteLength)
    (hsub : ∀ i, (bigSetBytes b).testBit i = true → n.testBit i = true) :
    ∃ b1, Bloom.SetBytes b (bigBytes n) = some b1 ∧ b1.length = BloomByteLength ∧
      (∀ x ∈ b1, x < 256) ∧ bigSetBytes b1 = n := by
  have hk : (bigBytes n).length ≤ BloomByteLength := bigBytes_length_le n _ hn
  refine ⟨b.take (BloomByteLength - (bigBytes n).length) ++ bigBytes n, ?_, ?_, ?_, ?_⟩
  · unfold Bloom.SetBytes
    rw [if_neg (by omega)]
  · rw [List.length_append, List.length_take, hlen]
    omega
  · intro x hx
    rcases List.mem_append.mp hx with h | h
    · exact hbytes x (List.mem_of_mem_take h)
    · exact bigBytes_lt n x h
  · rw [bigSetBytes_append, bigSetBytes_bigBytes]
    have hsplit : bigSetBytes b =
        bigSetBytes (b.take (BloomByteLength - (bigBytes n).length)) *
          256 ^ (bigBytes n).length +
        bigSetBytes (b.drop (BloomByteLength - (bigBytes n).length)) := by
      conv_lhs => rw [← List.take_append_drop (BloomByteLength - (bigBytes n).length) b]
      rw [bigSetBytes_append, List.length_drop, hlen,
        show BloomByteLength - (BloomByteLength - (bigBytes n).length) = (bigBytes n).length
          by omega]
    have hnlt : n < 2 ^ (8 * (bigBytes n).length) := by
      have := lt_pow_length_bigBytes n
      rwa [show (256 : Nat) = 2 ^ 8 by norm_num, ← pow_mul] at this
    have hold : bigSetBytes b < 2 ^ (8 * (bigBytes n).length) := by
      apply Nat.lt_pow_two_of_testBit
      intro i hi
      by_contra hc
      have ht : (bigSetBytes b).testBit i = true := by
        cases h : (bigSetBytes b).testBit i
        · exact absurd h hc
        · rfl
      have h1 := hsub i ht
      have h2 : n.testBit i = false :=
        Nat.testBit_lt_two_pow (lt_of_lt_of_le hnlt (Nat.pow_le_pow_right (by norm_num) hi))
      rw [h1] at h2
      exact Bool.noConfusion h2
    have hz : bigSetBytes (b.take (BloomByteLength - (bigBytes n).length)) = 0 := by
      by_contra hc
      have hpos : 1 ≤ bigSetBytes (b.take (BloomByteLength - (bigBytes n).length)) :=
        Nat.one_le_iff_ne_zero.mpr hc
      have h256 : (256 : Nat) ^ (bigBytes n).length = 2 ^ (8 * (bigBytes n).length) := by
        rw [show (256 : Nat) = 2 ^ 8 by norm_num, ← pow_mul]
      have hge : 256 ^ (bigBytes n).length ≤
          bigSetBytes (b.take (BloomByteLength - (bigBytes n).length)) *
            256 ^ (bigBytes n).length := Nat.le_mul_of_pos_left _ hpos
      rw [h256] at hge hsplit
      omega
    rw [hz, Nat.zero_mul, Nat.zero_add]

theorem lor_land_self (a m : Nat) : (a ||| m) &&& m = m := by
  apply Nat.eq_of_testBit_eq
  intro i
  rw [Nat.testBit_and, Nat.testBit_or]
  cases a.testBit i <;> cases m.testBit i <;> rfl

theorem bigSetBytes_snoc (xs : List Nat) (x : Nat) :
    bigSetBytes (xs ++ [x]) = 2 ^ 8 * bigSetBytes xs + x := by
  rw [bigSetBytes_append]
  simp [bigSetBytes, Nat.mul_comm]

/-- Bit `j` of byte `i` of a byte list is bit `8 * (len - 1 - i) + j` of its big-endian
value. -/
theorem byte_testBit (buf : List Nat) : (∀ x ∈ buf, x < 256) →
    ∀ i j, i < buf.length → j < 8 →
      (buf.getD i 0).testBit j = (bigSetBytes buf).testBit (8 * (buf.length - 1 - i) + j) := by
  induction buf using List.reverseRecOn with
  | nil =>
    intro _ i j hi _
    simp at hi
  | append_singleton xs x ih =>
    intro hb i j hi hj
    have hx : x < 2 ^ 8 := hb x (by simp)
    rw [bigSetBytes_snoc, Nat.testBit_mul_pow_two_add _ hx]
    rw [List.length_append, List.length_singleton] at hi ⊢
    by_cases hlt : i < xs.length
    · rw [if_neg (by omega)]
      rw [List.getD_append _ _ _ _ hlt, ih (fun y hy => hb y (by simp [hy])) i j hlt hj]
      congr 1
      omega
    · have hi2 : i = xs.length := by omega
      subst hi2
      rw [if_pos (by omega)]
      simp only [List.getD_eq_getElem?_getD, List.getElem?_concat_length, Option.getD_some]
      congr 1
      omega

theorem byte_testBit_false (buf : List Nat) (hb : ∀ x ∈ buf, x < 256) (i j : Nat)
    (h : ¬ (i < buf.length ∧ j < 8)) : (buf.getD i 0).testBit j = false := by
  by_cases hi : i < buf.length
  · have hj : 8 ≤ j := by
      by_contra hc
      exact h ⟨hi, by omega⟩
    have hlt : buf.getD i 0 < 256 := by
      rw [List.getD_eq_getElem _ _ hi]
      exact hb _ (List.getElem_mem _)
    exact Nat.testBit_lt_two_pow
      (lt_of_lt_of_le hlt (by
        calc 256 = 2 ^ 8 := by norm_num
          _ ≤ 2 ^ j := Nat.pow_le_pow_right (by norm_num) hj))
  · rw [List.getD_eq_default _ _ (by omega)]
    exact Nat.zero_testBit j

/-- C22 (no false negatives after `Add`). For a hash function that returns 32 bytes, every
filter `b` (4096 bytes) and every big integer `d`: `b.Add(d)` does not panic and leaves a
filter `b1` of 4096 bytes for which `BloomLookup(b1, t)` is true for every `t` whose
`Bytes()` equal `d.Bytes()`; every bit of the filter that was set before is still set. -/
theorem C22_bloom_add (Keccak256 : List Nat → List Nat)
    (hk : ∀ x, (Keccak256 x).length = 32)
    (b : Bloom) (hlen : b.length = BloomByteLength) (hbytes : ∀ x ∈ b, x < 256) (d : Int) :
    ∃ b1, Bloom.Add Keccak256 b d = some b1 ∧
      b1.length = BloomByteLength ∧ (∀ x ∈ b1, x < 256) ∧
      (∀ t : List Nat, t = bigBytes d.natAbs → BloomLookup Keccak256 b1 t = some true) ∧
      (∀ i, (Bloom.Big b).testBit i = true → (Bloom.Big b1).testBit i = true) ∧
      (∀ i j, (b.getD i 0).testBit j = true → (b1.getD i 0).testBit j = true) := by
  obtain ⟨m, hm, hmlt⟩ := bloom9_some Keccak256 hk (bigBytes d.natAbs)
  have hblt : bigSetBytes b < 2 ^ BloomBitLength := by
    have := bigSetBytes_lt b hbytes
    rwa [hlen, pow_BloomByteLength] at this
  have hn : bigSetBytes b ||| m < 256 ^ BloomByteLength := by
    rw [pow_BloomByteLength]
    exact Nat.or_lt_two_pow hblt hmlt
  obtain ⟨b1, e1, l1, y1, v1⟩ := SetBytes_bigBytes b (bigSetBytes b ||| m) hlen hbytes hn
    (fun i hi => by rw [Nat.testBit_or, hi]; rfl)
  have hbig : ∀ i, (bigSetBytes b).testBit i = true → (bigSetBytes b1).testBit i = true := by
    intro i hi
    rw [v1, Nat.testBit_or, hi]
    rfl
  refine ⟨b1, ?_, l1, y1, ?_, hbig, ?_⟩
  · simp only [Bloom.Add, hm, e1]
  · intro t ht
    subst ht
    simp only [BloomLookup, Bloom.Big, hm, v1, lor_land_self, decide_True]
  · intro i j hij
    by_cases h : i < b.length ∧ j < 8
    · rw [byte_testBit b hbytes i j h.1 h.2] at hij
      rw [byte_testBit b1 y1 i j (by rw [l1, ← hlen]; exact h.1) h.2, l1, ← hlen]
      exact hbig _ hij
    · rw [byte_testBit_false b hbytes i j h] at hij
      exact Bool.noConfusion hij

theorem C22_bloom_add_witness :
    (∀ x, (padHash x).length = 32) ∧ emptyBloom.length = BloomByteLength ∧
    (∀ x ∈ emptyBloom, x < 256) ∧
    ∃ b1, Bloom.Add padHash emptyBloom 5 = some b1 ∧
      b1.length = BloomByteLength ∧ (∀ x ∈ b1, x < 256) ∧
      (∀ t : List Nat, t = bigBytes (5 : Int).natAbs → BloomLookup padHash b1 t = some true) ∧
      (∀ i, (Bloom.Big emptyBloom).testBit i = true → (Bloom.Big b1).testBit i = true) ∧
      (∀ i j, (emptyBloom.getD i 0).testBit j = true → (b1.getD i 0).testBit j = true) :=
  have hk : ∀ x, (padHash x).length = 32 := fun x => by simp [padHash]
  have hl : emptyBloom.length = BloomByteLength := by simp [emptyBloom]
  have hb : ∀ x ∈ emptyBloom, x < 256 := fun x hx => by
    rw [emptyBloom, List.mem_replicate] at hx
    rw [hx.2]
    decide
  ⟨hk, hl, hb, C22_bloom_add padHash hk emptyBloom hl hb 5⟩

theorem clearLoop_byte (x : Nat) (hx : x < 256) :
    ∀ num, clearLoop 8 x num = Res.done (num + popCount x) := by
  interval_cases x <;> intro num <;> rfl

theorem clearLoop_succ (fuel : Nat) : ∀ (x num r : Nat),
    clearLoop fuel x num = Res.done r → clearLoop (fuel + 1) x num = Res.done r := by
  induction fuel with
  | zero =>
    intro x num r h
    unfold clearLoop at h
    split_ifs at h with h0
    unfold clearLoop
    rw [if_neg h0]
    exact h
  | succ fuel ih =>
    intro x num r h
    unfold clearLoop at h
    unfold clearLoop
    split_ifs at h ⊢ with h0
    · exact ih _ _ _ h
    · exact h

theorem clearLoop_done (fuel : Nat) (hf : 8 ≤ fuel) (x : Nat) (hx : x < 256) (num : Nat) :
    clearLoop fuel x num = Res.done (num + popCount x) := by
  induction fuel, hf using Nat.le_induction with
  | base => exact clearLoop_byte x hx num
  | succ fuel _ ih => exact clearLoop_succ fuel x num _ ih

theorem countLoop_done (fuel : Nat) (hf : 8 ≤ fuel) (b : List Nat) :
    (∀ x ∈ b, x < 256) → ∀ num, countLoop fuel b num = Res.done (num + (b.map popCount).sum) := by
  induction b with
  | nil =>
    intro _ num
    simp [countLoop]
  | cons x rest ih =>
    intro hb num
    unfold countLoop
    rw [clearLoop_done fuel hf x (hb x (by simp)) num]
    simp only
    rw [ih (fun y hy => hb y (by simp [hy]))]
    simp [Nat.add_assoc]

/-- C24 (bit count). For every filter `b`, `Count` returns the sum over the bytes of `b` of
the population count of the byte; the clearing loop `oneByte &= oneByte - 1` ends on every
byte after at most 8 iterations, having added the population count of the byte. -/
theorem C24_bloom_count (fuel : Nat) (hf : 8 ≤ fuel) (b : Bloom)
    (hbytes : ∀ x ∈ b, x < 256) :
    Bloom.Count fuel b = Res.done ((b.map popCount).sum) ∧
    (∀ x, x < 256 → ∀ num, clearLoop fuel x num = Res.done (num + popCount x)) := by
  constructor
  · unfold Bloom.Count
    rw [countLoop_done fuel hf b hbytes 0, Nat.zero_add]
  · intro x hx num
    exact clearLoop_done fuel hf x hx num

theorem C24_bloom_count_witness :
    8 ≤ 8 ∧ (∀ x ∈ bloom129, x < 256) ∧
    Bloom.Count 8 bloom129 = Res.done ((bloom129.map popCount).sum) :=
  have hb : ∀ x ∈ bloom129, x < 256 := fun x hx => by
    rw [bloom129, List.mem_append, List.mem_replicate, List.mem_singleton] at hx
    rcases hx with h | h
    · rw [h.2]
      decide
    · rw [h]
      decide
  ⟨by decide, hb, (C24_bloom_count 8 (by decide) bloom129 hb).1⟩

/-! ## Gas accounting -/

theorem nonZeroLoop_foldl (data : List Nat) : ∀ acc, acc + data.length < 2 ^ 64 →
    data.foldl (fun nz byt => if byt ≠ 0 then (nz + 1) % 2 ^ 64 else nz) acc =
      acc + data.countP (fun byt => decide (byt ≠ 0)) := by
  induction data with
  | nil => intro acc _; simp
  | cons x rest ih =>
    intro acc h
    rw [List.length_cons] at h
    rw [List.foldl_cons, List.countP_cons]
    by_cases hx : x ≠ 0
    · rw [if_pos hx, Nat.mod_eq_of_lt (by omega), ih _ (by omega)]
      simp [hx]
      omega
    · rw [if_neg hx, ih _ (by omega)]
      simp [hx]

theorem nonZeroLoop_eq (data : List Nat) (h : data.length < 2 ^ 64) :
    nonZeroLoop data = data.countP (fun byt => decide (byt ≠ 0)) := by
  unfold nonZeroLoop
  rw [nonZeroLoop_foldl data 0 (by omega), Nat.zero_add]

theorem countP_zero_add (data : List Nat) :
    data.countP (fun byt => decide (byt ≠ 0)) + data.countP (fun byt => decide (byt = 0)) =
      data.length := by
  induction data with
  | nil => rfl
  | cons x rest ih =>
    by_cases hx : x = 0
    · have h1 : decide (x ≠ 0) = false := by simp [hx]
      have h2 : decide (x = 0) = true := by simp [hx]
      simp only [List.countP_cons, List.length_cons, h1, h2, Bool.false_eq_true, if_false,
        if_true]
      omega
    · have h1 : decide (x ≠ 0) = true := by simp [hx]
      have h2 : decide (x = 0) = false := by simp [hx]
      simp only [List.countP_cons, List.length_cons, h1, h2, Bool.false_eq_true, if_false,
        if_true]
      omega

/-- C23 (intrinsic gas). With positive per-byte prices and base prices that are `uint64`
values, for every data and flag: when the sum `base + nz*TxDataNonZeroGas +
z*TxDataZeroGas` is at most `2^64-1`, `IntrinsicGas` returns it with a nil error; when it
is larger, `IntrinsicGas` returns `(0, ErrOutOfGas)`; for empty data it returns the base
price. -/
theorem C23_intrinsic_gas (p : GasParams) (data : List Nat) (contractCreation : Bool)
    (hnz : 0 < p.TxDataNonZeroGas) (hz : 0 < p.TxDataZeroGas)
    (hb1 : p.TxGas < 2 ^ 64) (hb2 : p.TxGasContractCreation < 2 ^ 64)
    (hlen : data.length < 2 ^ 64) :
    (intrinsicSum p data contractCreation ≤ 2 ^ 64 - 1 →
      IntrinsicGas p data contractCreation =
        Res.done (intrinsicSum p data contractCreation, none)) ∧
    (2 ^ 64 - 1 < intrinsicSum p data contractCreation →
      IntrinsicGas p data contractCreation = Res.done (0, some TxError.ErrOutOfGas)) ∧
    (data = [] →
      IntrinsicGas p data contractCreation =
        Res.done (if contractCreation then p.TxGasContractCreation else p.TxGas, none)) := by
  have hbase : (if contractCreation then p.TxGasContractCreation else p.TxGas) < 2 ^ 64 := by
    split_ifs
    · exact hb2
    · exact hb1
  have hsum := countP_zero_add data
  have hd1 : ∀ g : Nat, (MaxUint64 - g) / p.TxDataNonZeroGas <
      data.countP (fun byt => decide (byt ≠ 0)) ↔
      MaxUint64 - g < data.countP (fun byt => decide (byt ≠ 0)) * p.TxDataNonZeroGas :=
    fun g => Nat.div_lt_iff_lt_mul hnz
  have hd2 : ∀ g z : Nat, (MaxUint64 - g) / p.TxDataZeroGas < z ↔
      MaxUint64 - g < z * p.TxDataZeroGas :=
    fun g z => Nat.div_lt_iff_lt_mul hz
  unfold intrinsicSum IntrinsicGas
  rw [nonZeroLoop_eq data hlen]
  dsimp only
  generalize (if contractCreation then p.TxGasContractCreation else p.TxGas) = base at *
  generalize hA : data.countP (fun byt => decide (byt ≠ 0)) = nz at *
  generalize hB : data.countP (fun byt => decide (byt = 0)) = z at *
  have hzz : (data.length % 2 ^ 64 + 2 ^ 64 - nz) % 2 ^ 64 = z := by omega
  rw [hzz]
  simp only [Nat.ne_of_gt hnz, Nat.ne_of_gt hz, if_false, hd1, hd2]
  generalize ha0 : nz * p.TxDataNonZeroGas = a at *
  generalize hc0 : z * p.TxDataZeroGas = c at *
  unfold MaxUint64
  refine ⟨?_, ?_, ?_⟩
  · intro h
    by_cases hl : data.length > 0
    · rw [if_pos hl, if_neg (by omega)]
      have h1 : (base + a % 2 ^ 64) % 2 ^ 64 = base + a := by omega
      rw [h1, if_neg (by omega)]
      have h2 : (base + a + c % 2 ^ 64) % 2 ^ 64 = base + a + c := by omega
      rw [h2]
    · rw [if_neg hl]
      have hl0 : data.length = 0 := by omega
      have ha : a = 0 := by
        rw [← ha0, show nz = 0 by omega, Nat.zero_mul]
      have hc : c = 0 := by
        rw [← hc0, show z = 0 by omega, Nat.zero_mul]
      rw [ha, hc, Nat.add_zero]
  · intro h
    have hl : data.length > 0 := by
      by_contra hl
      have ha : a = 0 := by
        rw [← ha0, show nz = 0 by omega, Nat.zero_mul]
      have hc : c = 0 := by
        rw [← hc0, show z = 0 by omega, Nat.zero_mul]
      omega
    rw [if_pos hl]
    by_cases h1 : 2 ^ 64 - 1 - base < a
    · rw [if_pos h1]
    · rw [if_neg h1]
      have h2 : (base + a % 2 ^ 64) % 2 ^ 64 = base + a := by omega
      rw [h2, if_pos (by omega)]
  · intro hd
    subst hd
    rfl

theorem C23_intrinsic_gas_witness :
    0 < exampleParams.TxDataNonZeroGas ∧ 0 < exampleParams.TxDataZeroGas ∧
    exampleParams.TxGas < 2 ^ 64 ∧ exampleParams.TxGasContractCreation < 2 ^ 64 ∧
    [0, 7, 0, 255].length < 2 ^ 64 ∧
    intrinsicSum exampleParams [0, 7, 0, 255] false ≤ 2 ^ 64 - 1 ∧
    IntrinsicGas exampleParams [0, 7, 0, 255] false = Res.done (21144, none) :=
  ⟨by decide, by decide, by decide, by decide, by decide, by decide,
    (C23_intrinsic_gas exampleParams [0, 7, 0, 255] false (by decide) (by decide) (by decide)
      (by decide) (by decide)).1 (by decide)⟩

theorem useGas_spec {W : Type} (s : StateTransition W) (amount : Nat) :
    (s.gas < amount → useGas s amount = (s, some TxError.ErrOutOfGas)) ∧
    (amount ≤ s.gas → useGas s amount = ({ s with gas := s.gas - amount }, none)) ∧
    (useGas s amount).1.initialGas = s.initialGas ∧
    (useGas s amount).1.msg = s.msg ∧
    (useGas s amount).1.gas ≤ s.gas := by
  unfold useGas
  by_cases h : s.gas < amount
  · rw [if_pos h]
    exact ⟨fun _ => rfl, fun h2 => absurd h (by omega), rfl, rfl, Nat.le_refl _⟩
  · rw [if_neg h]
    exact ⟨fun h2 => absurd h2 h, fun _ => rfl, rfl, rfl, Nat.sub_le _ _⟩

theorem buyGas_spec {W : Type} (env : TxEnv W) (s : StateTransition W) (h0 : s.gas = 0)
    (hgas : s.msg.Gas < 2 ^ 64) :
    (buyGas env s).1.msg = s.msg ∧
    ((buyGas env s).2 = none →
      (buyGas env s).1.gas = s.msg.Gas ∧ (buyGas env s).1.initialGas = s.msg.Gas) ∧
    ((buyGas env s).2 ≠ none → (buyGas env s).1 = s) := by
  unfold buyGas
  dsimp only
  split_ifs with hbal
  · simp
  · cases hsub : env.SubGas s.gp s.msg.Gas with
    | error e => simp
    | ok gp1 =>
      simp only [h0, Nat.zero_add, Nat.mod_eq_of_lt hgas, ne_eq, not_true_eq_false,
        false_implies, and_self, true_implies, and_true]

theorem preCheck_spec {W : Type} (env : TxEnv W) (s : StateTransition W) (h0 : s.gas = 0)
    (hgas : s.msg.Gas < 2 ^ 64) (hi : s.initialGas < 2 ^ 64) :
    (preCheck env s).1.msg = s.msg ∧
    (preCheck env s).1.gas ≤ (preCheck env s).1.initialGas ∧
    (preCheck env s).1.initialGas < 2 ^ 64 ∧
    ((preCheck env s).2 = none →
      (preCheck env s).1.gas = s.msg.Gas ∧ (preCheck env s).1.initialGas = s.msg.Gas) := by
  have hb := buyGas_spec env { s with state := (env.nonceCheck s.state s.msg).1 } h0 hgas
  unfold preCheck
  dsimp only
  cases hn : (env.nonceCheck s.state s.msg).2 with
  | some e =>
    simp only [h0, Nat.zero_le, true_and]
    exact ⟨hi, fun h => Option.noConfusion h⟩
  | none =>
    dsimp only
    cases hbe : (buyGas env { s with state := (env.nonceCheck s.state s.msg).1 }).2 with
    | some e =>
      dsimp only
      have h1 := hb.2.2 (by rw [hbe]; exact Option.noConfusion)
      refine ⟨hb.1, ?_, ?_, fun h => Option.noConfusion h⟩
      · rw [h1]
        show s.gas ≤ s.initialGas
        omega
      · rw [h1]
        exact hi
    | none =>
      dsimp only
      have h1 := hb.2.1 hbe
      have h2 : (buyGas env { s with state := (env.nonceCheck s.state s.msg).1 }).1.initialGas <
          2 ^ 64 := by
        rw [h1.2]
        exact hgas
      split_ifs
      · exact ⟨hb.1, by rw [h1.1, h1.2], h2, fun _ => h1⟩
      · exact ⟨hb.1, by rw [h1.1, h1.2], h2, fun h => by simp at h⟩

theorem refundGas_spec {W : Type} (env : TxEnv W) (s : StateTransition W)
    (hinv : s.gas ≤ s.initialGas) (hlt : s.initialGas < 2 ^ 64) :
    gasUsed s = s.initialGas - s.gas ∧
    (refundGas env s).gas = s.gas + min (gasUsed s / 2) (env.GetRefund s.state) ∧
    min (gasUsed s / 2) (env.GetRefund s.state) ≤ gasUsed s / 2 ∧
    (refundGas env s).gas ≤ (refundGas env s).initialGas ∧
    (refundGas env s).initialGas = s.initialGas ∧
    (refundGas env s).msg = s.msg := by
  have hu : gasUsed s = s.initialGas - s.gas := by
    unfold gasUsed
    omega
  have hmin : (if gasUsed s / 2 > env.GetRefund s.state then env.GetRefund s.state
      else gasUsed s / 2) = min (gasUsed s / 2) (env.GetRefund s.state) := by
    split_ifs with h
    · exact (Nat.min_eq_right (Nat.le_of_lt h)).symm
    · exact (Nat.min_eq_left (Nat.le_of_not_gt h)).symm
  have hle : min (gasUsed s / 2) (env.GetRefund s.state) ≤ gasUsed s / 2 := Nat.min_le_left _ _
  have hg : (refundGas env s).gas = s.gas + min (gasUsed s / 2) (env.GetRefund s.state) := by
    show (s.gas + (if gasUsed s / 2 > env.GetRefund s.state then env.GetRefund s.state
      else gasUsed s / 2)) % 2 ^ 64 = _
    rw [hmin]
    apply Nat.mod_eq_of_lt
    omega
  refine ⟨hu, hg, hle, ?_, rfl, rfl⟩
  rw [hg]
  show _ ≤ s.initialGas
  omega

theorem IntrinsicGas_nil (p : GasParams) :
    IntrinsicGas p [] false = Res.done (p.TxGas, none) := by
  simp [IntrinsicGas]

theorem gasUsed_of_le {W : Type} (s : StateTransition W) (hinv : s.gas ≤ s.initialGas)
    (hlt : s.initialGas < 2 ^ 64) : gasUsed s = s.initialGas - s.gas := by
  unfold gasUsed
  omega

/-- The run of `SimpleTransitionDb` on a fresh state transition: it returns, with
`gas <= initialGas`, and on success the gas used is `initialGas - gas`, between half of
`TxGas` (rounded up) and `TxGas`. -/
theorem SimpleTransitionDb_spec {W : Type} (env : TxEnv W) (p : GasParams) (statedb : W)
    (msg : Message) (gp coinbase : Nat) (hgas : msg.Gas < 2 ^ 64) :
    ∃ r, SimpleTransitionDb env p (NewStateTransition statedb msg gp) coinbase = Res.done r ∧
      r.st.gas ≤ r.st.initialGas ∧ gasUsed r.st = r.st.initialGas - r.st.gas ∧
      (r.err = none →
        r.st.initialGas = msg.Gas ∧ r.usedGas = r.st.initialGas - r.st.gas ∧
        r.usedGas ≤ p.TxGas ∧ p.TxGas - p.TxGas / 2 ≤ r.usedGas) := by
  have hc := preCheck_spec env (NewStateTransition statedb msg gp) rfl hgas
    (Nat.pos_pow_of_pos 64 (by norm_num))
  have hmsg : (NewStateTransition statedb msg gp).msg = msg := rfl
  rw [hmsg] at hc
  unfold SimpleTransitionDb
  dsimp only
  generalize preCheck env (NewStateTransition statedb msg gp) = pc at hc ⊢
  obtain ⟨c, e⟩ := pc
  dsimp only at hc ⊢
  obtain ⟨_, c2, clt, c3⟩ := hc
  have hu := gasUsed_of_le c c2 clt
  cases e with
  | some e => exact ⟨_, rfl, c2, hu, fun h => Option.noConfusion h⟩
  | none =>
    dsimp only
    obtain ⟨g1, g2⟩ := c3 rfl
    cases hto : c.msg.To with
    | none => exact ⟨_, rfl, c2, hu, fun h => by simp at h⟩
    | some target =>
      dsimp only
      rw [IntrinsicGas_nil]
      dsimp only
      obtain ⟨u1, u2, _, _, _⟩ := useGas_spec c p.TxGas
      by_cases hlow : c.gas < p.TxGas
      · rw [u1 hlow]
        exact ⟨_, rfl, c2, hu, fun h => by simp at h⟩
      · rw [u2 (by omega)]
        dsimp only
        have hinv2 : c.gas - p.TxGas ≤ c.initialGas := by omega
        cases hna : (env.nonceAdd c.state c.msg).2 with
        | some e =>
          exact ⟨_, rfl, hinv2, gasUsed_of_le
            { c with
              gas := c.gas - p.TxGas,
              state := (env.nonceAdd c.state c.msg).1 }
            hinv2 clt, fun h => by simp at h⟩
        | none =>
          dsimp only
          obtain ⟨r1, r2, r3, r4, r5, _⟩ := refundGas_spec env
            { c with
              gas := c.gas - p.TxGas,
              state := env.Transfer (env.nonceAdd c.state c.msg).1 c.msg.From target c.value } hinv2 clt
          have r1x : gasUsed { c with
              gas := c.gas - p.TxGas,
              state := env.Transfer (env.nonceAdd c.state c.msg).1 c.msg.From target c.value } = p.TxGas := by
            rw [r1]
            show c.initialGas - (c.gas - p.TxGas) = p.TxGas
            omega
          rw [r1x] at r2 r3
          have r5x : (refundGas env { c with
              gas := c.gas - p.TxGas,
              state := env.Transfer (env.nonceAdd c.state c.msg).1 c.msg.From target c.value }).initialGas = c.initialGas := r5
          have r2x : (refundGas env { c with
              gas := c.gas - p.TxGas,
              state := env.Transfer (env.nonceAdd c.state c.msg).1 c.msg.From target c.value }).gas = c.gas - p.TxGas + min (p.TxGas / 2)
                (env.GetRefund (env.Transfer (env.nonceAdd c.state c.msg).1 c.msg.From target
                       c.value)) := r2
          generalize min (p.TxGas / 2)
                (env.GetRefund (env.Transfer (env.nonceAdd c.state c.msg).1 c.msg.From target
                       c.value)) = m at r2x r3
          generalize refundGas env { c with
              gas := c.gas - p.TxGas,
              state := env.Transfer (env.nonceAdd c.state c.msg).1 c.msg.From target c.value } = s4 at r4 r5x r2x ⊢
          have hg : gasUsed
              { s4 with
                state := env.AddBalance s4.state coinbase ((gasUsed s4 : Int) * s4.gasPrice) } =
              s4.initialGas - s4.gas :=
            gasUsed_of_le _ r4 (by rw [r5x]; exact clt)
          refine ⟨_, rfl, r4, hg, fun _ => ⟨?_, hg, ?_, ?_⟩⟩
          · show s4.initialGas = msg.Gas
            rw [r5x, g2]
          · show gasUsed _ ≤ p.TxGas
            rw [hg]
            omega
          · show _ ≤ gasUsed _
            rw [hg]
            omega

/-- C29 (gas accounting invariant). For a state transition made by `NewStateTransition`
(`gas = 0`) with a `uint64` gas limit: after `buyGas` succeeds `gas = initialGas =
msg.Gas()`; `useGas` either fails with `ErrOutOfGas` and changes nothing or lowers `gas`
by exactly the amount, and keeps `gas <= initialGas`; `refundGas` raises `gas` by
`min(gasUsed/2, state refund)`, at most half of the gas used, and keeps
`gas <= initialGas`; `SimpleTransitionDb` returns with `gas <= initialGas`, so that
`gasUsed() = initialGas - gas` without wraparound. -/
theorem C29_gas_invariant {W : Type} (env : TxEnv W) (p : GasParams) (statedb : W)
    (msg : Message) (gp coinbase : Nat) (hgas : msg.Gas < 2 ^ 64) :
    (NewStateTransition statedb msg gp).gas = 0 ∧
    (∀ s : StateTransition W, s.gas = 0 → s.msg = msg → (buyGas env s).2 = none →
      (buyGas env s).1.gas = msg.Gas ∧ (buyGas env s).1.initialGas = msg.Gas) ∧
    (∀ (s : StateTransition W) (amount : Nat),
      (s.gas < amount → useGas s amount = (s, some TxError.ErrOutOfGas)) ∧
      (amount ≤ s.gas → useGas s amount = ({ s with gas := s.gas - amount }, none)) ∧
      (s.gas ≤ s.initialGas → (useGas s amount).1.gas ≤ (useGas s amount).1.initialGas)) ∧
    (∀ s : StateTransition W, s.gas ≤ s.initialGas → s.initialGas < 2 ^ 64 →
      gasUsed s = s.initialGas - s.gas ∧
      (refundGas env s).gas = s.gas + min (gasUsed s / 2) (env.GetRefund s.state) ∧
      min (gasUsed s / 2) (env.GetRefund s.state) ≤ gasUsed s / 2 ∧
      (refundGas env s).gas ≤ (refundGas env s).initialGas) ∧
    (∃ r, SimpleTransitionDb env p (NewStateTransition statedb msg gp) coinbase = Res.done r ∧
      r.st.gas ≤ r.st.initialGas ∧ gasUsed r.st = r.st.initialGas - r.st.gas ∧
      (r.err = none →
        r.st.initialGas = msg.Gas ∧ r.usedGas = r.st.initialGas - r.st.gas ∧
        r.usedGas ≤ p.TxGas ∧ p.TxGas - p.TxGas / 2 ≤ r.usedGas)) := by
  refine ⟨rfl, ?_, ?_, ?_, SimpleTransitionDb_spec env p statedb msg gp coinbase hgas⟩
  · intro s h0 hm hb
    have h := (buyGas_spec env s h0 (by rw [hm]; exact hgas)).2.1 hb
    rw [hm] at h
    exact h
  · intro s amount
    obtain ⟨u1, u2, u3, _, u5⟩ := useGas_spec s amount
    exact ⟨u1, u2, fun h => by rw [u3]; exact Nat.le_trans u5 h⟩
  · intro s hinv hlt
    obtain ⟨r1, r2, r3, r4, _, _⟩ := refundGas_spec env s hinv hlt
    exact ⟨r1, r2, r3, r4⟩

theorem C29_gas_invariant_witness :
    exampleMsg.Gas < 2 ^ 64 ∧
    ∃ r, SimpleTransitionDb simpleEnv exampleParams
        (NewStateTransition (1000000 : Int) exampleMsg 100000) 3 = Res.done r ∧
      r.st.gas ≤ r.st.initialGas ∧ gasUsed r.st = r.st.initialGas - r.st.gas ∧
      (r.err = none →
        r.st.initialGas = exampleMsg.Gas ∧ r.usedGas = r.st.initialGas - r.st.gas ∧
        r.usedGas ≤ exampleParams.TxGas ∧
        exampleParams.TxGas - exampleParams.TxGas / 2 ≤ r.usedGas) :=
  ⟨by decide, (C29_gas_invariant simpleEnv exampleParams (1000000 : Int) exampleMsg 100000 3
    (by decide)).2.2.2.2⟩

/-! ## JSON encoding of `Log` -/

/-- For every log with non-nil `Topics` and every receiver, decoding the output of
`MarshalJSON` fails on the block number. -/
theorem UnmarshalJSON_MarshalJSON (l r : Log) (ts : List Nat) (h : l.Topics = some ts) :
    (r.UnmarshalJSON l.MarshalJSON).2 = some "missing required field 'blockNumber' for Log" := by
  obtain ⟨a, t, d, n, x, pi, ti, i⟩ := l
  simp only at h
  subst h
  rfl

/-- C28, failing input: a log of block 7 with one topic.  `MarshalJSON` writes the block
number under the key `block=Number`; `UnmarshalJSON` looks for `blockNumber`, finds no such
member and returns the error "missing required field 'blockNumber' for Log". -/
theorem C28_round_trip_fails :
    exampleLog.Topics ≠ none ∧
    ("block=Number", JValue.uint64 7) ∈ exampleLog.MarshalJSON ∧
    matchKey "block=Number" = none ∧
    (zeroLog.UnmarshalJSON exampleLog.MarshalJSON).2 =
      some "missing required field 'blockNumber' for Log" ∧
    (zeroLog.UnmarshalJSON exampleLog.MarshalJSON).1.BlockNumber = 0 := by
  decide

/-- With the key `blockNumber` in place of `block=Number` the same members decode into the
log they encode. -/
theorem UnmarshalJSON_fixed_key :
    zeroLog.UnmarshalJSON (exampleLog.MarshalJSON.map
      (fun kv => if kv.1 = "block=Number" then ("blockNumber", kv.2) else kv)) =
      (exampleLog, none) := by
  decide

/-- The conversion `int32(diff)` is exact for a gap below `2^31`. -/
theorem toInt32_of_lt (x : Nat) (h : x < 2 ^ 31) : toInt32 x = (x : Int) := by
  unfold toInt32
  have hx : x % 2 ^ 32 = x := Nat.mod_eq_of_lt (by omega)
  rw [hx, if_pos h]

end Fractal
